import Mathlib

/-!
Verification development for the OpenTIPE core algorithms:
the segment reconciliation engine (`editorUtil.ts`), the diff-highlight
engine (`suggestionUtil.ts`) and the bounded history manager
(`HistoryManager.ts`), embedded shallowly in Lean.

Conventions of the embedding:
* TypeScript `undefined`/`null` fields are modelled with `Option`.
* JavaScript truthiness on strings (`""` is falsy) is modelled explicitly
  where the source relies on it.
* `JSON.stringify`-based structural equality is modelled as equality of the
  (immutable) Lean values.
* JavaScript `%` is truncating remainder, modelled with `Int.tmod`.
-/

/-! ## JS-level string helpers (`otherUtil.ts`) -/

/-- The ASCII core of the JS `\s` character class (the source text only ever
contains these whitespace characters in the relevant regular expressions). -/
def jsWhitespace (c : Char) : Bool :=
  c = ' ' || c = '\t' || c = '\n' || c = '\r' || c = '\x0b' || c = '\x0c'

/-- `stringContainsOnlyWhitespace` from `otherUtil.ts`: removes every
whitespace character and checks that nothing is left.  (Returns `true` on the
empty string.) -/
def stringContainsOnlyWhitespace (str : String) : Bool :=
  str.data.all jsWhitespace

/-- `getLastElementInArray` from `otherUtil.ts`. -/
def getLastElementInArray {A : Type} (arr : List A) : Option A :=
  arr.getLast?

/-- `posMod` from `otherUtil.ts`: Euclidean modulo built from the JS `%`
operator (truncating remainder, `Int.tmod`). -/
def posMod (n m : Int) : Int :=
  let remain := Int.tmod n m
  if remain ≥ 0 then remain else remain + m

/-! ## The diff-highlight engine (`suggestionUtil.ts`) -/

/-- `TextSegmentStructureElement` from `types.ts`: one highlight span. -/
structure TextSegmentStructureElement where
  value : String
  highlight : Bool
  deriving Repr, DecidableEq

/-- One opcode of the word-level diff library (`Change` from the `diff`
package): a piece of text marked as added, removed, or (neither) unchanged. -/
structure Change where
  value : String
  added : Bool
  removed : Bool
  deriving Repr, DecidableEq

/-- The diff side selector (`'removed' | 'added'`). -/
inductive DiffStrategy where
  | removed
  | added
  deriving Repr, DecidableEq

/-- `c[strategy]` with JS `Boolean(...)` coercion. -/
def Change.get (c : Change) : DiffStrategy → Bool
  | DiffStrategy.removed => c.removed
  | DiffStrategy.added => c.added

/-- `otherStrategy` from `getHighlightsWithStrategy`. -/
def otherStrategy : DiffStrategy → DiffStrategy
  | DiffStrategy.removed => DiffStrategy.added
  | DiffStrategy.added => DiffStrategy.removed

/-- Accumulator of the `filterAndCombineChanges` reducer. -/
structure ChainAcc where
  currentChain : Option TextSegmentStructureElement
  result : List TextSegmentStructureElement
  deriving Repr, DecidableEq

/-- One step of the `filterAndCombineChanges` reducer from
`getHighlightsWithStrategy`: skip opcodes of the other side, and fold the
kept opcodes into maximal chains of equal highlight value. -/
def filterAndCombineChanges (strategy : DiffStrategy) (acc : ChainAcc) (c : Change) : ChainAcc :=
  if c.get (otherStrategy strategy) then acc
  else
    match acc.currentChain with
    | some chain =>
      if chain.highlight ≠ c.get strategy then
        -- End the chain, then start a new one
        { currentChain := some ⟨c.value, c.get strategy⟩, result := acc.result ++ [chain] }
      else
        -- Continue the chain
        { currentChain := some ⟨chain.value ++ c.value, chain.highlight⟩, result := acc.result }
    | none =>
      -- Start a chain
      { currentChain := some ⟨c.value, c.get strategy⟩, result := acc.result }

/-- Accumulator of the `highlightWhitespaceBetweenHighlights` reducer:
a two-element look-behind buffer `a`, `b` plus the emitted spans. -/
structure WsAcc where
  a : Option TextSegmentStructureElement
  b : Option TextSegmentStructureElement
  result : List TextSegmentStructureElement
  deriving Repr, DecidableEq

/-- One step of the reducer inside `highlightWhitespaceBetweenHighlights`. -/
def wsStep (acc : WsAcc) (c : TextSegmentStructureElement) : WsAcc :=
  match acc.a, acc.b with
  | some x, some y =>
    if x.highlight && !y.highlight && c.highlight && stringContainsOnlyWhitespace y.value then
      -- We can merge the three items in this case.
      { a := none, b := some ⟨x.value ++ y.value ++ c.value, true⟩, result := acc.result }
    else
      -- We cannot merge the three items
      { a := some y, b := some c, result := acc.result ++ [x] }
  | _, _ =>
    -- Buffer not full: shift it
    { a := acc.b, b := some c, result := acc.result }

/-- `highlightWhitespaceBetweenHighlights` from `suggestionUtil.ts`:
non-highlighted whitespace between two highlighted spans is merged into a
single highlighted span.  The source's in-loop last-element cleanup is the
trailing flush of the buffer. -/
def highlightWhitespaceBetweenHighlights
    (arr : List TextSegmentStructureElement) : List TextSegmentStructureElement :=
  let acc := arr.foldl wsStep ⟨none, none, []⟩
  acc.result ++ acc.a.toList ++ acc.b.toList

/-- `getHighlightsWithStrategy` from `suggestionUtil.ts`. -/
def getHighlightsWithStrategy (strategy : DiffStrategy) (diff : List Change) :
    List TextSegmentStructureElement :=
  let acc := diff.foldl (filterAndCombineChanges strategy) ⟨none, []⟩
  highlightWhitespaceBetweenHighlights (acc.result ++ acc.currentChain.toList)

/-- Modelled from the spec: `diffWords` of the external `diff` npm package is
not part of this repository.  The spec only requires a word-granularity diff
into equal / removed-from-before / added-in-after opcodes such that the
opcodes relevant to each side concatenate back to that side's string, with
identical strings producing a single equal opcode and an empty side
contributing no opcodes. -/
def diffWords (fromStr toStr : String) : List Change :=
  if fromStr = toStr then [⟨fromStr, false, false⟩]
  else if fromStr = "" then [⟨toStr, true, false⟩]
  else if toStr = "" then [⟨fromStr, false, true⟩]
  else [⟨fromStr, false, true⟩, ⟨toStr, true, false⟩]

/-- Result record of `getHighlights`. -/
structure Highlights where
  fromHighlights : List TextSegmentStructureElement
  toHighlights : List TextSegmentStructureElement
  deriving Repr, DecidableEq

/-- `getHighlights` from `suggestionUtil.ts`. -/
def getHighlights (fromStr toStr : String) : Highlights :=
  let diff := diffWords fromStr toStr
  { fromHighlights := getHighlightsWithStrategy DiffStrategy.removed diff,
    toHighlights := getHighlightsWithStrategy DiffStrategy.added diff }

/-! ## Lemmas about the diff-highlight engine -/

/-- Concatenation of span values, the "visible text" of a span list. -/
def concatValues : List TextSegmentStructureElement → String
  | [] => ""
  | e :: l => e.value ++ concatValues l

theorem concatValues_append (l1 l2 : List TextSegmentStructureElement) :
    concatValues (l1 ++ l2) = concatValues l1 ++ concatValues l2 := by
  induction l1 with
  | nil => simp [concatValues]
  | cons e l ih => simp [concatValues, ih, String.append_assoc]

/-- The text of the opcodes that `getHighlightsWithStrategy strategy` keeps. -/
def keptText (strategy : DiffStrategy) : List Change → String
  | [] => ""
  | c :: l => (if c.get (otherStrategy strategy) then "" else c.value) ++ keptText strategy l

/-- Virtual span sequence represented by a `WsAcc`: emitted spans plus buffer. -/
def wsVirtual (acc : WsAcc) : List TextSegmentStructureElement :=
  acc.result ++ acc.a.toList ++ acc.b.toList

/-- Virtual span sequence represented by a `ChainAcc`. -/
def chainVirtual (acc : ChainAcc) : List TextSegmentStructureElement :=
  acc.result ++ acc.currentChain.toList

theorem wsStep_b_isSome (acc : WsAcc) (c : TextSegmentStructureElement) :
    (wsStep acc c).b.isSome := by
  unfold wsStep
  rcases acc with ⟨a, b, res⟩
  rcases a with _ | x <;> rcases b with _ | y <;> simp
  split <;> simp

theorem wsStep_concat (acc : WsAcc) (c : TextSegmentStructureElement)
    (h : acc.a.isSome → acc.b.isSome) :
    concatValues (wsVirtual (wsStep acc c)) = concatValues (wsVirtual acc) ++ c.value := by
  unfold wsStep wsVirtual
  rcases acc with ⟨a, b, res⟩
  rcases a with _ | x <;> rcases b with _ | y <;>
    simp_all [concatValues_append, concatValues, String.append_assoc]
  split <;> simp [concatValues_append, concatValues, String.append_assoc]

theorem ws_foldl_concat (l : List TextSegmentStructureElement) (acc : WsAcc)
    (h : acc.a.isSome → acc.b.isSome) :
    concatValues (wsVirtual (l.foldl wsStep acc)) =
      concatValues (wsVirtual acc) ++ concatValues l := by
  induction l generalizing acc with
  | nil => simp [concatValues]
  | cons c rest ih =>
    rw [List.foldl_cons, ih (wsStep acc c) (fun _ => wsStep_b_isSome acc c),
      wsStep_concat acc c h]
    simp [concatValues, String.append_assoc]

theorem highlightWhitespaceBetweenHighlights_concat (arr : List TextSegmentStructureElement) :
    concatValues (highlightWhitespaceBetweenHighlights arr) = concatValues arr := by
  have h := ws_foldl_concat arr ⟨none, none, []⟩ (by simp)
  simpa [wsVirtual, concatValues, highlightWhitespaceBetweenHighlights] using h

theorem chain_step_concat (st : DiffStrategy) (acc : ChainAcc) (c : Change) :
    concatValues (chainVirtual (filterAndCombineChanges st acc c)) =
      concatValues (chainVirtual acc) ++
        (if c.get (otherStrategy st) then "" else c.value) := by
  unfold filterAndCombineChanges chainVirtual
  rcases acc with ⟨cc, res⟩
  split
  · simp
  · rcases cc with _ | chain <;>
      simp_all [concatValues_append, concatValues, String.append_assoc]
    split <;> simp [concatValues_append, concatValues, String.append_assoc]

theorem chain_foldl_concat (st : DiffStrategy) (l : List Change) (acc : ChainAcc) :
    concatValues (chainVirtual (l.foldl (filterAndCombineChanges st) acc)) =
      concatValues (chainVirtual acc) ++ keptText st l := by
  induction l generalizing acc with
  | nil => simp [keptText]
  | cons c rest ih =>
    rw [List.foldl_cons, ih, chain_step_concat]
    simp [keptText, String.append_assoc]

theorem getHighlightsWithStrategy_concat (st : DiffStrategy) (diff : List Change) :
    concatValues (getHighlightsWithStrategy st diff) = keptText st diff := by
  unfold getHighlightsWithStrategy
  rw [highlightWhitespaceBetweenHighlights_concat]
  have h := chain_foldl_concat st diff ⟨none, []⟩
  simpa [chainVirtual, concatValues] using h

/-- Adjacent spans differ in highlight value. -/
def AltSpans (l : List TextSegmentStructureElement) : Prop :=
  List.Chain' (fun x y => x.highlight ≠ y.highlight) l

theorem altSpans_snoc_same (res : List TextSegmentStructureElement)
    (x y : TextSegmentStructureElement) (hxy : x.highlight = y.highlight)
    (h : AltSpans (res ++ [x])) : AltSpans (res ++ [y]) := by
  unfold AltSpans at h ⊢
  rw [List.chain'_append] at h ⊢
  refine ⟨h.1, by simp, ?_⟩
  intro a ha b hb
  have hax := h.2.2 a ha x (by simp)
  simp only [List.head?_cons, Option.mem_def, Option.some.injEq] at hb
  subst hb
  rw [← hxy]
  exact hax

theorem altSpans_snoc (res : List TextSegmentStructureElement)
    (x y : TextSegmentStructureElement) (hxy : x.highlight ≠ y.highlight)
    (h : AltSpans (res ++ [x])) : AltSpans (res ++ [x] ++ [y]) := by
  unfold AltSpans at h ⊢
  rw [List.chain'_append]
  refine ⟨h, by simp, ?_⟩
  intro a ha b hb
  simp only [List.head?_cons, Option.mem_def, Option.some.injEq] at hb
  subst hb
  rw [List.getLast?_concat] at ha
  simp only [Option.mem_def, Option.some.injEq] at ha
  subst ha
  exact hxy

theorem chain_step_alt (st : DiffStrategy) (acc : ChainAcc) (c : Change)
    (h0 : acc.currentChain = none → acc.result = [])
    (h : AltSpans (chainVirtual acc)) :
    ((filterAndCombineChanges st acc c).currentChain = none →
        (filterAndCombineChanges st acc c).result = []) ∧
      AltSpans (chainVirtual (filterAndCombineChanges st acc c)) := by
  rcases acc with ⟨cc, res⟩
  by_cases hskip : c.get (otherStrategy st) = true
  · simpa [filterAndCombineChanges, hskip] using ⟨h0, h⟩
  · rcases cc with _ | chain
    · have hres : res = [] := h0 rfl
      subst hres
      simp [filterAndCombineChanges, hskip, chainVirtual, AltSpans]
    · by_cases hb : chain.highlight = c.get st
      · -- continue the chain: highlights unchanged
        refine ⟨by simp [filterAndCombineChanges, hskip, hb], ?_⟩
        simp only [filterAndCombineChanges, hskip, Bool.false_eq_true, if_false, hb,
          ne_eq, not_true_eq_false, ite_false, ite_true]
        unfold chainVirtual at h ⊢
        simp only [Option.toList_some] at h ⊢
        exact altSpans_snoc_same res chain _ hb h
      · -- end the chain and start a new one
        refine ⟨by simp [filterAndCombineChanges, hskip, hb], ?_⟩
        simp only [filterAndCombineChanges, hskip, Bool.false_eq_true, if_false, hb,
          ne_eq, not_false_eq_true, ite_true, ite_false]
        unfold chainVirtual at h ⊢
        simp only [Option.toList_some] at h ⊢
        exact altSpans_snoc res chain _ hb h

theorem chain_foldl_alt (st : DiffStrategy) (l : List Change) (acc : ChainAcc)
    (h0 : acc.currentChain = none → acc.result = [])
    (h : AltSpans (chainVirtual acc)) :
    AltSpans (chainVirtual (l.foldl (filterAndCombineChanges st) acc)) := by
  induction l generalizing acc with
  | nil => exact h
  | cons c rest ih =>
    have step := chain_step_alt st acc c h0 h
    exact ih (filterAndCombineChanges st acc c) step.1 step.2

theorem altSpans_merge3 (res rest : List TextSegmentStructureElement)
    (x y c m : TextSegmentStructureElement) (hmx : m.highlight = x.highlight)
    (hmc : m.highlight = c.highlight)
    (h : AltSpans (res ++ x :: y :: c :: rest)) : AltSpans (res ++ m :: rest) := by
  unfold AltSpans at h ⊢
  rw [List.chain'_append] at h ⊢
  obtain ⟨h1, h2, h3⟩ := h
  rw [List.chain'_cons] at h2
  rw [List.chain'_cons] at h2
  have h2' := h2.2.2
  rw [List.chain'_cons'] at h2'
  refine ⟨h1, ?_, ?_⟩
  · rw [List.chain'_cons']
    refine ⟨?_, h2'.2⟩
    intro b hb
    have := h2'.1 b hb
    rw [hmc]
    exact this
  · intro a ha b hb
    simp only [List.head?_cons, Option.mem_def, Option.some.injEq] at hb
    subst hb
    have := h3 a ha x (by simp)
    rw [hmx]
    exact this

theorem ws_step_alt (acc : WsAcc) (c : TextSegmentStructureElement)
    (rest : List TextSegmentStructureElement)
    (hok : acc.a.isSome → acc.b.isSome)
    (h : AltSpans (wsVirtual acc ++ c :: rest)) :
    AltSpans (wsVirtual (wsStep acc c) ++ rest) := by
  rcases acc with ⟨a, b, res⟩
  rcases a with _ | x
  · -- buffer not full: the virtual sequence is unchanged
    have : wsVirtual (wsStep ⟨none, b, res⟩ c) ++ rest =
        wsVirtual ⟨none, b, res⟩ ++ c :: rest := by
      rcases b with _ | y <;> simp [wsStep, wsVirtual]
    rw [this]
    exact h
  · rcases b with _ | y
    · exact absurd (hok (by simp)) (by simp)
    · by_cases hm : x.highlight && !y.highlight && c.highlight &&
        stringContainsOnlyWhitespace y.value
      · -- merge the three spans into one highlighted span
        simp only [wsStep, hm, if_true, ite_true]
        simp only [Bool.and_eq_true, Bool.not_eq_true'] at hm
        unfold wsVirtual at h ⊢
        simp only [Option.toList_some, Option.toList_none, List.append_nil] at h ⊢
        have h' : AltSpans (res ++ x :: y :: c :: rest) := by
          simpa [List.append_assoc] using h
        have hgoal := altSpans_merge3 res rest x y c
          ⟨x.value ++ y.value ++ c.value, true⟩ (by simp [hm.1.1.1]) (by simp [hm.1.2]) h'
        simpa [List.append_assoc] using hgoal
      · -- cannot merge: the virtual sequence is unchanged
        have : wsVirtual (wsStep ⟨some x, some y, res⟩ c) ++ rest =
            wsVirtual ⟨some x, some y, res⟩ ++ c :: rest := by
          simp [wsStep, hm, wsVirtual]
        rw [this]
        exact h

theorem ws_foldl_alt (l : List TextSegmentStructureElement) (acc : WsAcc)
    (hok : acc.a.isSome → acc.b.isSome)
    (h : AltSpans (wsVirtual acc ++ l)) :
    AltSpans (wsVirtual (l.foldl wsStep acc)) := by
  induction l generalizing acc with
  | nil => simpa using h
  | cons c rest ih =>
    exact ih (wsStep acc c) (fun _ => wsStep_b_isSome acc c) (ws_step_alt acc c rest hok h)

theorem highlightWhitespaceBetweenHighlights_alt (arr : List TextSegmentStructureElement)
    (h : AltSpans arr) : AltSpans (highlightWhitespaceBetweenHighlights arr) := by
  have hires := ws_foldl_alt arr ⟨none, none, []⟩ (by simp) (by simpa [wsVirtual] using h)
  simpa [wsVirtual, highlightWhitespaceBetweenHighlights] using hires

theorem getHighlightsWithStrategy_alt (st : DiffStrategy) (diff : List Change) :
    AltSpans (getHighlightsWithStrategy st diff) := by
  unfold getHighlightsWithStrategy
  refine highlightWhitespaceBetweenHighlights_alt _ ?_
  have halt := chain_foldl_alt st diff ⟨none, []⟩ (by simp) (by simp [chainVirtual, AltSpans])
  simpa [chainVirtual] using halt

/-- C2: for every pair of strings, concatenating the `value` fields of
`getHighlights(from, to).fromHighlights` in order yields exactly `from`, and
concatenating the `value` fields of `.toHighlights` yields exactly `to`. -/
theorem getHighlights_reconstructs_both_sides (fromStr toStr : String) :
    concatValues (getHighlights fromStr toStr).fromHighlights = fromStr ∧
      concatValues (getHighlights fromStr toStr).toHighlights = toStr := by
  unfold getHighlights
  simp only [getHighlightsWithStrategy_concat]
  unfold diffWords
  split_ifs with h1 h2 h3 <;>
    simp_all [keptText, Change.get, otherStrategy]

/-- C7: in each span list returned by `getHighlights`, no two adjacent spans
share the same highlight boolean. -/
theorem getHighlights_spans_alternate (fromStr toStr : String) :
    AltSpans (getHighlights fromStr toStr).fromHighlights ∧
      AltSpans (getHighlights fromStr toStr).toHighlights :=
  ⟨getHighlightsWithStrategy_alt DiffStrategy.removed (diffWords fromStr toStr),
   getHighlightsWithStrategy_alt DiffStrategy.added (diffWords fromStr toStr)⟩

/-- C9: `getHighlights s s` returns two equal span lists, each a single
non-highlighted span whose value is `s`. -/
theorem getHighlights_self_single_span (s : String) :
    getHighlights s s =
      ⟨[⟨s, false⟩], [⟨s, false⟩]⟩ := by
  simp [getHighlights, diffWords, getHighlightsWithStrategy, filterAndCombineChanges,
    highlightWhitespaceBetweenHighlights, wsStep, Change.get, otherStrategy]

/-! ## The bounded history manager (`HistoryManager.ts`) -/

/-- `getDeepCopyOfObject` from `otherUtil.ts` is `JSON.parse(JSON.stringify(x))`,
a structural copy; on immutable values it is the identity. -/
def getDeepCopyOfObject {A : Type} (obj : A) : A := obj

/-- JS array element assignment `arr[i] = v`: an in-range write updates the
slot, the write one past the end appends, a write further out leaves holes
(modelled as `none` slots). -/
def jsArraySet {A : Type} (l : List (Option A)) (i : Nat) (v : Option A) : List (Option A) :=
  if i < l.length then l.set i v
  else l ++ List.replicate (i - l.length) none ++ [v]

/-- The `HistoryManager` state.  The source's `end` field is named `endPos`
(`end` is a Lean keyword).  `states` is a JS array whose slots may be holes. -/
structure HistoryManager (A : Type) where
  maxLength : Int
  pos : Int
  start : Int
  endPos : Int
  states : List (Option A)
  deepCopy : Bool
  lastReturnedState : Option A
  deriving Repr, DecidableEq

namespace HistoryManager

variable {A : Type}

/-- `clear()`: reset to the initial state. -/
def clear (hm : HistoryManager A) : HistoryManager A :=
  { hm with pos := 0, start := 0, endPos := 0, states := [], lastReturnedState := none }

/-- `canGoBack()`. -/
def canGoBack (hm : HistoryManager A) : Bool :=
  !(hm.pos = hm.start || hm.states.length = 0)

/-- `goBack()`: returns the updated manager and the source's boolean result. -/
def goBack (hm : HistoryManager A) : HistoryManager A × Bool :=
  if hm.canGoBack then ({ hm with pos := posMod (hm.pos - 1) hm.maxLength }, true)
  else (hm, false)

/-- `canGoForward()`. -/
def canGoForward (hm : HistoryManager A) : Bool :=
  !(hm.pos = hm.endPos || hm.states.length = 0)

/-- `goForward()`. -/
def goForward (hm : HistoryManager A) : HistoryManager A × Bool :=
  if hm.canGoForward then ({ hm with pos := posMod (hm.pos + 1) hm.maxLength }, true)
  else (hm, false)

/-- `getState()`: the snapshot at `pos`, or `none` when the buffer is empty
(JS reads `undefined` from an out-of-range or negative index). -/
def getState (hm : HistoryManager A) : Option A :=
  if hm.states.length = 0 then none
  else if hm.pos < 0 then none
  else (hm.states.getD hm.pos.toNat none).map getDeepCopyOfObject

/-- The index-advance phase of `addToHistory` (the source's in-place
mutations of `end`, `pos` and `start` before the slot write), split out as a
named helper. -/
def advanceForAdd (hm : HistoryManager A) : HistoryManager A :=
  if hm.states.length ≠ 0 then
    let e := posMod (hm.pos + 1) hm.maxLength
    let hm' := { hm with endPos := e, pos := e }
    if hm'.start = hm'.endPos then
      { hm' with start := posMod (hm'.endPos + 1) hm'.maxLength }
    else hm'
  else hm

/-- `addToHistory(state)`.  The duplicate check in the source is
`this.getState() && stringify(this.getState()) === stringify(state)`;
`truthy` models JS truthiness on `A` (an object snapshot is always truthy,
the number `0` or the empty string are falsy), and stringify-equality is
structural equality. -/
def addToHistory [DecidableEq A] (truthy : A → Bool) (hm : HistoryManager A)
    (state : A) : HistoryManager A × Bool :=
  let dup :=
    match hm.getState with
    | some v => truthy v && v = state
    | none => false
  if dup then (hm, false)
  else
    let hm1 := hm.advanceForAdd
    ({ hm1 with
        states := jsArraySet hm1.states hm1.pos.toNat
          (some (if hm1.deepCopy then getDeepCopyOfObject state else state)) },
      true)

end HistoryManager

/-- The constructor `new HistoryManager(maxLength, deepCopy)`. -/
def mkHistoryManager (A : Type) (maxLength : Int) (deepCopy : Bool) : HistoryManager A :=
  HistoryManager.clear ⟨maxLength, 0, 0, 0, [], deepCopy, none⟩

/-- A sequence of `addToHistory` calls (results discarded). -/
def addAllToHistory {A : Type} [DecidableEq A] (truthy : A → Bool) (ss : List A)
    (hm : HistoryManager A) : HistoryManager A :=
  ss.foldl (fun h s => (h.addToHistory truthy s).1) hm

/-- A sequence of `goBack()` calls (results discarded). -/
def goBackN {A : Type} : Nat → HistoryManager A → HistoryManager A
  | 0, hm => hm
  | k + 1, hm => goBackN k hm.goBack.1

/-- JS truthiness on numbers: `0` (and `NaN`) are falsy. -/
def jsNumberTruthy (n : Int) : Bool := n ≠ 0

-- quick sanity checks against the source test suite
example :
    (addAllToHistory jsNumberTruthy [1, 2, 3, 4] (mkHistoryManager Int 3 false)).states
      = [some 4, some 2, some 3] := by decide
example :
    ((goBackN 2 (addAllToHistory jsNumberTruthy [1, 2, 3, 4]
        (mkHistoryManager Int 3 false))).addToHistory jsNumberTruthy 5).1.states
      = [some 4, some 2, some 5] := by decide
example :
    ((goBackN 2 (addAllToHistory jsNumberTruthy [1, 2, 3, 4]
        (mkHistoryManager Int 3 false))).addToHistory jsNumberTruthy 5).1.canGoForward
      = false := by decide
example :
    (goBackN 2 (addAllToHistory jsNumberTruthy [1, 2, 3, 4]
        (mkHistoryManager Int 3 false))).canGoBack = false := by decide

/-! ## posMod bounds and the history-manager invariant -/

theorem neg_lt_tmod (n : Int) {m : Int} (h : 0 < m) : -m < Int.tmod n m := by
  obtain ⟨m', rfl⟩ := Int.eq_succ_of_zero_lt h
  cases n with
  | ofNat k =>
    show -(Int.ofNat m'.succ) < Int.ofNat (k % m'.succ)
    have h1 : (0 : Int) ≤ Int.ofNat (k % m'.succ) := Int.ofNat_nonneg _
    have h2 : (0 : Int) < Int.ofNat m'.succ := Int.ofNat_lt.mpr (Nat.succ_pos m')
    omega
  | negSucc k =>
    show -(Int.ofNat m'.succ) < -(Int.ofNat (k.succ % m'.succ))
    have h1 : Int.ofNat (k.succ % m'.succ) < Int.ofNat m'.succ :=
      Int.ofNat_lt.mpr (Nat.mod_lt _ (Nat.succ_pos m'))
    omega

theorem posMod_nonneg (n : Int) {m : Int} (h : 0 < m) : 0 ≤ posMod n m := by
  have h1 := neg_lt_tmod n h
  unfold posMod
  dsimp only
  split <;> omega

theorem posMod_lt (n : Int) {m : Int} (h : 0 < m) : posMod n m < m := by
  have h1 := Int.tmod_lt_of_pos n h
  have h2 := neg_lt_tmod n h
  unfold posMod
  dsimp only
  split <;> omega

theorem posMod_eq_of_lt {n m : Int} (h0 : 0 ≤ n) (h : n < m) : posMod n m = n := by
  unfold posMod
  dsimp only
  rw [Int.tmod_eq_of_lt h0 h]
  simp [h0]

/-- The index/size invariant of the history manager (claim C10). -/
def HistoryManager.BoundsInv {A : Type} (hm : HistoryManager A) : Prop :=
  0 ≤ hm.pos ∧ hm.pos < hm.maxLength ∧
    0 ≤ hm.start ∧ hm.start < hm.maxLength ∧
    0 ≤ hm.endPos ∧ hm.endPos < hm.maxLength ∧
    (hm.states.length : Int) ≤ hm.maxLength

instance {A : Type} (hm : HistoryManager A) : Decidable hm.BoundsInv := by
  unfold HistoryManager.BoundsInv
  infer_instance

/-- One history-manager method call, for quantifying over call sequences. -/
inductive HMOp (A : Type) where
  | add (state : A)
  | back
  | forward
  | readState
  | reset
  deriving Repr

/-- Run one method call. -/
def runHMOp {A : Type} [DecidableEq A] (truthy : A → Bool) (hm : HistoryManager A) :
    HMOp A → HistoryManager A
  | HMOp.add s => (hm.addToHistory truthy s).1
  | HMOp.back => hm.goBack.1
  | HMOp.forward => hm.goForward.1
  | HMOp.readState => hm  -- getState does not mutate
  | HMOp.reset => hm.clear

/-- Run a sequence of method calls. -/
def runHMOps {A : Type} [DecidableEq A] (truthy : A → Bool) (ops : List (HMOp A))
    (hm : HistoryManager A) : HistoryManager A :=
  ops.foldl (runHMOp truthy) hm

theorem jsArraySet_length {A : Type} (l : List (Option A)) (i : Nat) (v : Option A) :
    (jsArraySet l i v).length = max l.length (i + 1) := by
  unfold jsArraySet
  split <;> simp <;> omega


theorem advanceForAdd_maxLength {A : Type} (hm : HistoryManager A) :
    hm.advanceForAdd.maxLength = hm.maxLength := by
  unfold HistoryManager.advanceForAdd
  dsimp only
  repeat' split
  all_goals rfl

theorem advanceForAdd_states {A : Type} (hm : HistoryManager A) :
    hm.advanceForAdd.states = hm.states := by
  unfold HistoryManager.advanceForAdd
  dsimp only
  repeat' split
  all_goals rfl

theorem advanceForAdd_deepCopy {A : Type} (hm : HistoryManager A) :
    hm.advanceForAdd.deepCopy = hm.deepCopy := by
  unfold HistoryManager.advanceForAdd
  dsimp only
  repeat' split
  all_goals rfl

theorem advanceForAdd_bounds {A : Type} (hm : HistoryManager A)
    (hmax : 0 < hm.maxLength) (h : hm.BoundsInv) : hm.advanceForAdd.BoundsInv := by
  have hp1 := posMod_nonneg (hm.pos + 1) hmax
  have hp2 := posMod_lt (hm.pos + 1) hmax
  have hq1 := posMod_nonneg (posMod (hm.pos + 1) hm.maxLength + 1) hmax
  have hq2 := posMod_lt (posMod (hm.pos + 1) hm.maxLength + 1) hmax
  obtain ⟨h1, h2, h3, h4, h5, h6, h7⟩ := h
  unfold HistoryManager.advanceForAdd HistoryManager.BoundsInv
  dsimp only
  repeat' split
  all_goals exact ⟨by assumption, by assumption, by assumption, by assumption,
    by assumption, by assumption, by assumption⟩

theorem boundsInv_addToHistory {A : Type} [DecidableEq A] (truthy : A → Bool)
    (hm : HistoryManager A) (s : A) (hmax : 0 < hm.maxLength) (h : hm.BoundsInv) :
    (hm.addToHistory truthy s).1.BoundsInv := by
  unfold HistoryManager.addToHistory
  dsimp only
  split
  · exact h
  · have hadv := advanceForAdd_bounds hm hmax h
    obtain ⟨h1, h2, h3, h4, h5, h6, h7⟩ := hadv
    unfold HistoryManager.BoundsInv
    dsimp only
    refine ⟨h1, h2, h3, h4, h5, h6, ?_⟩
    rw [jsArraySet_length]
    omega

theorem boundsInv_runHMOp {A : Type} [DecidableEq A] (truthy : A → Bool)
    (hm : HistoryManager A) (op : HMOp A) (hmax : 0 < hm.maxLength) (h : hm.BoundsInv) :
    (runHMOp truthy hm op).BoundsInv := by
  cases op with
  | add s => exact boundsInv_addToHistory truthy hm s hmax h
  | back =>
    show hm.goBack.1.BoundsInv
    unfold HistoryManager.goBack
    split
    · exact ⟨posMod_nonneg _ hmax, posMod_lt _ hmax, h.2.2.1, h.2.2.2.1,
        h.2.2.2.2.1, h.2.2.2.2.2.1, h.2.2.2.2.2.2⟩
    · exact h
  | forward =>
    show hm.goForward.1.BoundsInv
    unfold HistoryManager.goForward
    split
    · exact ⟨posMod_nonneg _ hmax, posMod_lt _ hmax, h.2.2.1, h.2.2.2.1,
        h.2.2.2.2.1, h.2.2.2.2.2.1, h.2.2.2.2.2.2⟩
    · exact h
  | readState => exact h
  | reset =>
    refine ⟨le_refl 0, hmax, le_refl 0, hmax, le_refl 0, hmax, ?_⟩
    show ((0 : Nat) : Int) ≤ hm.maxLength
    omega

theorem runHMOp_maxLength {A : Type} [DecidableEq A] (truthy : A → Bool)
    (hm : HistoryManager A) (op : HMOp A) :
    (runHMOp truthy hm op).maxLength = hm.maxLength := by
  cases op with
  | add s =>
    show (HistoryManager.addToHistory truthy hm s).1.maxLength = hm.maxLength
    unfold HistoryManager.addToHistory
    dsimp only
    split
    · rfl
    · show hm.advanceForAdd.maxLength = hm.maxLength
      exact advanceForAdd_maxLength hm
  | back =>
    show hm.goBack.1.maxLength = hm.maxLength
    unfold HistoryManager.goBack
    split <;> rfl
  | forward =>
    show hm.goForward.1.maxLength = hm.maxLength
    unfold HistoryManager.goForward
    split <;> rfl
  | readState => rfl
  | reset => rfl

/-! ## History-manager claims -/

theorem map_some_getD {A : Type} (l : List A) (i : Nat) :
    (l.map some).getD i none = l.get? i := by
  rw [List.getD_eq_getElem?_getD, List.getElem?_map, List.get?_eq_getElem?]
  cases l[i]? <;> rfl

theorem getState_filled {A : Type} (N : Int) (dc : Bool) (l : List A)
    (hlen : 1 ≤ l.length) :
    HistoryManager.getState
        (⟨N, (l.length : Int) - 1, 0, (l.length : Int) - 1, l.map some, dc, none⟩ :
          HistoryManager A) = l.getLast? := by
  unfold HistoryManager.getState
  have hlpos : ¬((l.length : Int) - 1 < 0) := by omega
  have hlen0 : ¬((l.map some).length = 0) := by simp only [List.length_map]; omega
  have htoNat : ((l.length : Int) - 1).toNat = l.length - 1 := by omega
  simp only [hlen0, if_false, hlpos, ite_false, htoNat, map_some_getD, getDeepCopyOfObject]
  rw [List.getLast?_eq_get? l]
  cases l.get? (l.length - 1) <;> rfl

theorem addToHistory_step_in_capacity {A : Type} [DecidableEq A] (truthy : A → Bool)
    (N : Int) (dc : Bool) (l : List A) (a : A) (hlen : 1 ≤ l.length)
    (hcap : (l.length : Int) < N) (hne : ∀ x ∈ l.getLast?, x ≠ a) :
    (HistoryManager.addToHistory truthy
        (⟨N, (l.length : Int) - 1, 0, (l.length : Int) - 1, l.map some, dc, none⟩ :
          HistoryManager A) a).1 =
      ⟨N, (l.length : Int), 0, (l.length : Int), (l ++ [a]).map some, dc, none⟩ := by
  have hgs := getState_filled N dc l hlen
  unfold HistoryManager.addToHistory
  dsimp only
  rw [hgs]
  have hdup : (match l.getLast? with
      | some v => truthy v && decide (v = a)
      | none => false) = false := by
    cases hl : l.getLast? with
    | none => rfl
    | some x =>
      have hxa : x ≠ a := hne x (by rw [hl]; rfl)
      simp [hxa]
  rw [hdup]
  simp only [Bool.false_eq_true, if_false, ite_false]
  have hadv : HistoryManager.advanceForAdd
      (⟨N, (l.length : Int) - 1, 0, (l.length : Int) - 1, l.map some, dc, none⟩ :
        HistoryManager A) =
      ⟨N, (l.length : Int), 0, (l.length : Int), l.map some, dc, none⟩ := by
    unfold HistoryManager.advanceForAdd
    have hlen0 : ¬((l.map some).length = 0) := by simp only [List.length_map]; omega
    have harith : (l.length : Int) - 1 + 1 = (l.length : Int) := by omega
    have hpm : posMod ((l.length : Int) - 1 + 1) N = (l.length : Int) := by
      rw [harith]; exact posMod_eq_of_lt (by omega) hcap
    have hstart : ¬((0 : Int) = (l.length : Int)) := by omega
    simp only [hlen0, if_false, ne_eq, not_false_eq_true, if_true, ite_true, ite_false,
      hpm, hstart]
  rw [hadv]
  dsimp only
  have htoNat : ((l.length : Int)).toNat = l.length := by omega
  have hset : jsArraySet (l.map some) ((l.length : Int)).toNat
      (some (if dc then getDeepCopyOfObject a else a)) = (l ++ [a]).map some := by
    rw [htoNat]
    unfold jsArraySet
    have : ¬(l.length < (l.map some).length) := by simp
    simp only [this, if_false, ite_false, List.length_map, Nat.sub_self,
      List.replicate_zero, List.map_append]
    cases dc <;> simp [getDeepCopyOfObject]
  rw [hset]

theorem addToHistory_step_overflow {A : Type} [DecidableEq A] (truthy : A → Bool)
    (N : Int) (dc : Bool) (l : List A) (a : A) (hlen : 1 ≤ l.length)
    (hcap : (l.length : Int) = N) (hne : ∀ x ∈ l.getLast?, x ≠ a) :
    (HistoryManager.addToHistory truthy
        (⟨N, (l.length : Int) - 1, 0, (l.length : Int) - 1, l.map some, dc, none⟩ :
          HistoryManager A) a).1 =
      ⟨N, 0, posMod 1 N, 0, (a :: l.tail).map some, dc, none⟩ := by
  have hgs := getState_filled N dc l hlen
  unfold HistoryManager.addToHistory
  dsimp only
  rw [hgs]
  have hdup : (match l.getLast? with
      | some v => truthy v && decide (v = a)
      | none => false) = false := by
    cases hl : l.getLast? with
    | none => rfl
    | some x =>
      have hxa : x ≠ a := hne x (by rw [hl]; rfl)
      simp [hxa]
  rw [hdup]
  simp only [Bool.false_eq_true, if_false, ite_false]
  have hadv : HistoryManager.advanceForAdd
      (⟨N, (l.length : Int) - 1, 0, (l.length : Int) - 1, l.map some, dc, none⟩ :
        HistoryManager A) =
      ⟨N, 0, posMod 1 N, 0, l.map some, dc, none⟩ := by
    unfold HistoryManager.advanceForAdd
    have hlen0 : ¬((l.map some).length = 0) := by simp only [List.length_map]; omega
    have harith : (l.length : Int) - 1 + 1 = N := by omega
    have hpm : posMod ((l.length : Int) - 1 + 1) N = 0 := by
      rw [harith]
      unfold posMod
      dsimp only
      rw [Int.tmod_self]
      simp
    simp only [hlen0, if_false, ne_eq, not_false_eq_true, if_true, ite_true, ite_false, hpm]
    simp
  rw [hadv]
  dsimp only
  have hset : jsArraySet (l.map some) ((0 : Int)).toNat
      (some (if dc then getDeepCopyOfObject a else a)) = (a :: l.tail).map some := by
    unfold jsArraySet
    have hlt : (0 : Nat) < (l.map some).length := by simp only [List.length_map]; omega
    simp only [Int.toNat_zero, hlt, if_true, ite_true]
    rcases l with _ | ⟨b, lt⟩
    · simp at hlen
    · cases dc <;> simp [getDeepCopyOfObject]
  rw [hset]

/-- Explicit state after filling a fresh manager with at most `maxLength`
successively-distinct states. -/
theorem addAllToHistory_append_single {A : Type} [DecidableEq A] (truthy : A → Bool)
    (l : List A) (a : A) (hm : HistoryManager A) :
    addAllToHistory truthy (l ++ [a]) hm =
      (HistoryManager.addToHistory truthy (addAllToHistory truthy l hm) a).1 := by
  unfold addAllToHistory
  rw [List.foldl_append]
  rfl

theorem addAll_fill {A : Type} [DecidableEq A] (truthy : A → Bool) (N : Int) (dc : Bool)
    (ss : List A) (h1 : 1 ≤ ss.length) (h2 : (ss.length : Int) ≤ N)
    (hchain : List.Chain' (· ≠ ·) ss) :
    addAllToHistory truthy ss (mkHistoryManager A N dc) =
      ⟨N, (ss.length : Int) - 1, 0, (ss.length : Int) - 1, ss.map some, dc, none⟩ := by
  induction ss using List.reverseRecOn with
  | nil => simp at h1
  | append_singleton l a ih =>
    rw [addAllToHistory_append_single]
    by_cases hlne : l = []
    · subst hlne
      show (HistoryManager.addToHistory truthy (mkHistoryManager A N dc) a).1 = _
      simp [mkHistoryManager, HistoryManager.clear, HistoryManager.addToHistory,
        HistoryManager.getState, HistoryManager.advanceForAdd, jsArraySet,
        getDeepCopyOfObject]
    · have hllen : 1 ≤ l.length := List.length_pos.mpr hlne
      have hlcap : (l.length : Int) ≤ N := by
        simp only [List.length_append, List.length_cons, List.length_nil] at h2
        push_cast at h2 ⊢
        omega
      have hchl : List.Chain' (· ≠ ·) l := (List.chain'_append.mp hchain).1
      have hfill := ih hllen hlcap hchl
      have hstep : (l.length : Int) < N := by
        simp only [List.length_append, List.length_cons, List.length_nil] at h2
        push_cast at h2 ⊢
        omega
      have hne : ∀ x ∈ l.getLast?, x ≠ a := by
        intro x hx
        have hmem : x ∈ l := List.mem_of_mem_getLast? hx
        exact (List.chain'_append.mp hchain).2.2 x hx a (by simp)
      rw [hfill, addToHistory_step_in_capacity truthy N dc l a hllen hstep hne]
      simp only [List.length_append, List.length_cons, List.length_nil]
      congr 1 <;> push_cast <;> omega

theorem goBack_states {A : Type} (hm : HistoryManager A) : hm.goBack.1.states = hm.states := by
  unfold HistoryManager.goBack
  split <;> rfl

theorem goBackN_states {A : Type} (k : Nat) (hm : HistoryManager A) :
    (goBackN k hm).states = hm.states := by
  induction k generalizing hm with
  | zero => rfl
  | succ n ih => rw [goBackN, ih, goBack_states]

theorem getState_mem {A : Type} (hm : HistoryManager A) (x : A)
    (h : hm.getState = some x) : some x ∈ hm.states := by
  unfold HistoryManager.getState at h
  split at h
  · exact absurd h (by simp)
  · split at h
    · exact absurd h (by simp)
    · rw [List.getD_eq_getElem?_getD] at h
      rcases hx : hm.states[hm.pos.toNat]? with _ | v <;> rw [hx] at h
      · exact absurd h (by simp)
      · simp only [Option.getD_some, getDeepCopyOfObject, Option.map_eq_some'] at h
        obtain ⟨w, hw, rfl⟩ := h
        subst hw
        exact List.getElem?_mem hx

/-- C4 (claim theorem): after pushing `N + 1` pairwise-distinct states into a
fresh capacity-`N` manager, no sequence of `goBack()` calls reaches the first
pushed state. -/
theorem historyManager_oldest_state_unreachable {A : Type} [DecidableEq A]
    (truthy : A → Bool) (dc : Bool) (N : Int) (hN : 1 ≤ N) (ss : List A)
    (hlen : (ss.length : Int) = N + 1) (hdist : ss.Pairwise (· ≠ ·)) (s1 : A)
    (hs1 : ss.head? = some s1) (k : Nat) :
    (goBackN k (addAllToHistory truthy ss (mkHistoryManager A N dc))).getState ≠
      some s1 := by
  -- split off the final overflowing push
  rcases List.eq_nil_or_concat ss with rfl | ⟨front, a, rfl⟩
  · simp at hlen
    omega
  rw [List.concat_eq_append] at *
  have hfrontlen : (front.length : Int) = N := by
    simp only [List.length_append, List.length_cons, List.length_nil] at hlen
    push_cast at hlen ⊢
    omega
  have hfront1 : 1 ≤ front.length := by omega
  have hchain : List.Chain' (· ≠ ·) (front ++ [a]) := hdist.chain'
  have hne : ∀ x ∈ front.getLast?, x ≠ a := by
    intro x hx
    exact (List.chain'_append.mp hchain).2.2 x hx a (by simp)
  rw [addAllToHistory_append_single,
    addAll_fill truthy N dc front hfront1 (le_of_eq hfrontlen) (List.chain'_append.mp hchain).1,
    addToHistory_step_overflow truthy N dc front a hfront1 hfrontlen hne]
  -- the resulting buffer no longer contains s1
  intro hcontra
  have hmem := getState_mem _ _ hcontra
  rw [goBackN_states] at hmem
  simp only [List.mem_map, Option.some.injEq] at hmem
  obtain ⟨y, hy, heq⟩ := hmem
  subst heq
  obtain ⟨f0, ftail, rfl⟩ : ∃ f0 ftail, front = f0 :: ftail := by
    rcases front with _ | ⟨f0, ftail⟩
    · simp at hfront1
    · exact ⟨f0, ftail, rfl⟩
  have hf0 : f0 = y := by simpa using hs1
  subst hf0
  simp only [List.tail_cons] at hy
  have hpair : ∀ b ∈ ftail ++ [a], f0 ≠ b := by
    have : List.Pairwise (· ≠ ·) (f0 :: (ftail ++ [a])) := by
      simpa using hdist
    exact (List.pairwise_cons.mp this).1
  rcases List.mem_cons.mp hy with h | h
  · exact hpair a (by simp) h
  · exact hpair f0 (by simp [h]) rfl

theorem historyManager_oldest_state_unreachable_witness :
    (goBackN 1 (addAllToHistory jsNumberTruthy [10, 20, 30]
        (mkHistoryManager Int 2 true))).getState ≠ some 10 :=
  historyManager_oldest_state_unreachable jsNumberTruthy true 2 (by decide)
    [10, 20, 30] (by decide) (by decide) 10 (by decide) 1

theorem boundsInv_runHMOps {A : Type} [DecidableEq A] (truthy : A → Bool)
    (ops : List (HMOp A)) : ∀ hm : HistoryManager A, 0 < hm.maxLength →
      hm.BoundsInv → (runHMOps truthy ops hm).BoundsInv := by
  induction ops with
  | nil => intro hm _ h; exact h
  | cons op rest ih =>
    intro hm hmax h
    show (runHMOps truthy rest (runHMOp truthy hm op)).BoundsInv
    exact ih _ (by rw [runHMOp_maxLength]; exact hmax) (boundsInv_runHMOp truthy hm op hmax h)

/-- C10 (claim theorem): starting from a fresh manager with positive capacity,
every sequence of `addToHistory`/`goBack`/`goForward`/`getState`/`clear` calls
keeps `pos`, `start` and `end` inside `[0, maxLength)` and the buffer at most
`maxLength` entries long. -/
theorem historyManager_bounds_invariant {A : Type} [DecidableEq A] (truthy : A → Bool)
    (maxLength : Int) (deepCopy : Bool) (hmax : 1 ≤ maxLength) (ops : List (HMOp A)) :
    (runHMOps truthy ops (mkHistoryManager A maxLength deepCopy)).BoundsInv := by
  apply boundsInv_runHMOps truthy ops (mkHistoryManager A maxLength deepCopy)
  · show (0 : Int) < maxLength
    omega
  · refine ⟨le_refl 0, ?_, le_refl 0, ?_, le_refl 0, ?_, ?_⟩
    · show (0 : Int) < maxLength
      omega
    · show (0 : Int) < maxLength
      omega
    · show (0 : Int) < maxLength
      omega
    · show ((0 : Nat) : Int) ≤ maxLength
      omega

theorem historyManager_bounds_invariant_witness :
    (runHMOps jsNumberTruthy
        [HMOp.add 5, HMOp.back, HMOp.add 7, HMOp.forward, HMOp.reset, HMOp.add 1,
          HMOp.add 2, HMOp.add 3, HMOp.add 4, HMOp.back]
        (mkHistoryManager Int 3 true)).BoundsInv :=
  historyManager_bounds_invariant jsNumberTruthy 3 true (by decide)
    [HMOp.add 5, HMOp.back, HMOp.add 7, HMOp.forward, HMOp.reset, HMOp.add 1,
      HMOp.add 2, HMOp.add 3, HMOp.add 4, HMOp.back]

/-- C5 (code evaluated at the failing input): storing the falsy snapshot `0`
and pushing `0` again is NOT suppressed — `addToHistory` returns `true`,
advances `pos` and duplicates the entry, because the source's duplicate guard
`this.getState() && ...` short-circuits on falsy states.  This contradicts
the claim (and the method's own documentation). -/
theorem addToHistory_falsy_duplicate_not_suppressed :
    (((mkHistoryManager Int 3 false).addToHistory jsNumberTruthy 0).1.getState = some 0) ∧
      ((((mkHistoryManager Int 3 false).addToHistory jsNumberTruthy 0).1.addToHistory
          jsNumberTruthy 0).2 = true) ∧
      ((((mkHistoryManager Int 3 false).addToHistory jsNumberTruthy 0).1.addToHistory
          jsNumberTruthy 0).1.states = [some 0, some 0]) ∧
      ((((mkHistoryManager Int 3 false).addToHistory jsNumberTruthy 0).1.addToHistory
          jsNumberTruthy 0).1.pos = 1) := by decide

/-! ## The segment reconciliation engine (`editorUtil.ts`) -/

/-- A mark on a text leaf.  Only the attributes the engine reads or writes
are modelled: the mark type, `attrs.textSegmentId`, `attrs.hasSuggestion`. -/
structure Mark where
  type : String
  textSegmentId : Option String
  hasSuggestion : Option Bool
  deriving Repr, DecidableEq

/-- `Translatable` from `types.ts`. -/
structure Translatable where
  _id : String
  srcText : String
  deriving Repr, DecidableEq

/-- `TextSegment` from `types.ts` (the fields the embedded functions read;
the `edits` log is never read by them).  Defaults shorten test values. -/
structure TextSegment where
  _id : String
  srcText : String
  mtText : String := ""
  mtTextStructure : List TextSegmentStructureElement := []
  apeText : String := ""
  apeTextStructure : List TextSegmentStructureElement := []
  hpeText : String := ""
  suggestionIsActive : Bool := false
  deriving Repr, DecidableEq

/-- `hasActiveSuggestion` from `suggestionUtil.ts`. -/
def hasActiveSuggestion (textSegment : TextSegment) : Bool :=
  textSegment.suggestionIsActive

/-- `TextSegmentMark.name` from the tiptap extension. -/
def textSegmentMarkName : String := "textSegmentMark"

/-- `SuggestionMark.name` from the tiptap extension. -/
def suggestionMarkName : String := "suggestionMark"

/-- A document tree node: tiptap's `JSONContent` and the skeleton type
`JSONContentStructure` share this shape.  `attrs` is opaque to every embedded
function and is carried as an optional payload string. -/
inductive JNode where
  | mk (type : Option String) (attrs : Option String) (text : Option String)
      (marks : Option (List Mark)) (textSegmentId : Option String)
      (content : Option (List JNode)) : JNode

def JNode.type : JNode → Option String
  | JNode.mk t _ _ _ _ _ => t

def JNode.attrs : JNode → Option String
  | JNode.mk _ a _ _ _ _ => a

def JNode.text : JNode → Option String
  | JNode.mk _ _ t _ _ _ => t

def JNode.marks : JNode → Option (List Mark)
  | JNode.mk _ _ _ m _ _ => m

def JNode.textSegmentId : JNode → Option String
  | JNode.mk _ _ _ _ i _ => i

def JNode.content : JNode → Option (List JNode)
  | JNode.mk _ _ _ _ _ c => c

/-- Modelled from the spec: segment ids come from an external
collision-resistant random generator (UUIDv4); the engine only requires
global uniqueness and opacity.  The generator is modelled as an injective
deterministic supply indexed by a threaded counter; every generated id
starts with `'#'`. -/
def uuid (counter : Nat) : String :=
  ⟨'#' :: List.replicate counter '#'⟩

/-- JS string truthiness lifted to optional strings (`undefined`, `null` and
`""` are falsy). -/
def jsTruthyStr : Option String → Bool
  | none => false
  | some s => s ≠ ""

/-- JS `a || b` on optional strings: the first truthy value wins, otherwise
the second operand is kept. -/
def jsOrString (a b : Option String) : Option String :=
  if jsTruthyStr a then a else b

/-- `getTextSegmentIdFromMarks` from `editorUtil.ts`. -/
def getTextSegmentIdFromMarks (marks : List Mark) : Option String :=
  marks.foldl (fun textSegmentId m => jsOrString textSegmentId m.textSegmentId) none

/-- The loop body of `mergeTextSegmentsWithSameId`: `currentId`/`currentText`
are the source's loop variables (`none` models `undefined`); the source's
last-iteration flush is the `rest = []` case. -/
def mergeGo (currentId currentText : Option String) : List Translatable → List Translatable
  | [] => []
  | ts :: rest =>
    if some ts._id ≠ currentId then
      -- End chain (push it if id and text are truthy) and start a new one
      let pushed :=
        if jsTruthyStr currentText && jsTruthyStr currentId then
          [⟨currentId.getD "", currentText.getD ""⟩]
        else []
      match rest with
      | [] =>
        -- last element: flush the chain just started
        pushed ++ (if jsTruthyStr (some ts.srcText) then [⟨ts._id, ts.srcText⟩] else [])
      | _ :: _ => pushed ++ mergeGo (some ts._id) (some ts.srcText) rest
    else
      -- Continue chain
      match rest with
      | [] =>
        if jsTruthyStr (some (currentText.getD "" ++ ts.srcText)) then
          [⟨currentId.getD "", currentText.getD "" ++ ts.srcText⟩]
        else []
      | _ :: _ => mergeGo currentId (some (currentText.getD "" ++ ts.srcText)) rest

/-- `mergeTextSegmentsWithSameId` from `editorUtil.ts`. -/
def mergeTextSegmentsWithSameId (textSegments : List Translatable) : List Translatable :=
  mergeGo none none textSegments

/-- The loop body of `removeDuplicateTextNodes`. -/
def removeDuplicateTextNodesGo (lastId : Option String) : List JNode → List JNode
  | [] => []
  | node :: rest =>
    (if !jsTruthyStr node.textSegmentId || lastId ≠ node.textSegmentId then [node] else []) ++
      removeDuplicateTextNodesGo node.textSegmentId rest

/-- `removeDuplicateTextNodes` from `editorUtil.ts`. -/
def removeDuplicateTextNodes (content : List JNode) : List JNode :=
  removeDuplicateTextNodesGo none content

/-- `requiresNewTextSegmentId` from `editorUtil.ts`. -/
def requiresNewTextSegmentId (textSegmentId : Option String) (parseHistory : List String) : Bool :=
  match textSegmentId with
  | none => true
  | some id =>
    decide (getLastElementInArray parseHistory ≠ some id) && parseHistory.contains id

/-- Lookup in the `idReplacements` JS object (latest binding wins). -/
def repLookup (idReplacements : List (String × String)) (key : String) : Option String :=
  (idReplacements.find? (fun p => p.1 = key)).map (fun p => p.2)

/-- Assignment `idReplacements[key] = val` (prepend; `repLookup` takes the
first hit, so this overwrites). -/
def repInsert (idReplacements : List (String × String)) (key val : String) :
    List (String × String) :=
  (key, val) :: idReplacements

/-- `getTextSegmentIdFromMarksWithReplacement` from `editorUtil.ts`; the
inner `if` mirrors JS truthiness of the replacement value. -/
def getTextSegmentIdFromMarksWithReplacement (marks : List Mark)
    (idReplacements : List (String × String)) : Option String :=
  let textSegmentId := getTextSegmentIdFromMarks marks
  if !jsTruthyStr textSegmentId then none
  else
    match textSegmentId with
    | none => none
    | some tsid =>
      match repLookup idReplacements tsid with
      | some replacement => if replacement ≠ "" then some replacement else some tsid
      | none => some tsid

/-- The sentence-terminator character class of the splitting regex in
`otherUtil.ts` (`[.|:|!|?]`: the `|` separators inside the class are literal
characters, so `|` itself terminates a sentence). -/
def termChar (c : Char) : Bool :=
  c = '.' || c = '|' || c = ':' || c = '!' || c = '?'

/-- The closing-quote/bracket character class of the splitting regex
(again with a literal `|`). -/
def quoteChar (c : Char) : Bool :=
  c = '"' || c = '“' || c = '”' || c = '‘' || c = '’' || c = '\x27' || c = '«' ||
    c = '»' || c = '「' || c = '」' || c = '(' || c = ')' || c = '\x7b' ||
    c = '\x7d' || c = '[' || c = ']' || c = '|'

/-- The global regex replace of `splitStringIntoSentencesAndWhitespace`:
at each sentence boundary (terminators, then closing quotes/brackets, then
more terminators, then whitespace) a `|` is inserted after the punctuation
and after the whitespace.  Structured as fuel recursion (the fuel is an upper
bound on the remaining length, consumed at least one-per-step) so that the
function stays structurally recursive and computable. -/
def replaceSBFuel : Nat → List Char → List Char
  | 0, l => l
  | _ + 1, [] => []
  | fuel + 1, c :: rest =>
    if termChar c then
      let t1 := rest.takeWhile termChar
      let r1 := rest.dropWhile termChar
      let q := r1.takeWhile quoteChar
      let r2 := r1.dropWhile quoteChar
      let t2 := r2.takeWhile termChar
      let r3 := r2.dropWhile termChar
      let ws := r3.takeWhile jsWhitespace
      let r4 := r3.dropWhile jsWhitespace
      if ws.isEmpty then c :: replaceSBFuel fuel rest
      else c :: t1 ++ q ++ t2 ++ '|' :: ws ++ '|' :: replaceSBFuel fuel r4
    else c :: replaceSBFuel fuel rest

/-- The regex replace pass over a character list. -/
def replaceSentenceBoundaries (l : List Char) : List Char :=
  replaceSBFuel l.length l

/-- JS `String.prototype.split('|')`. -/
def splitOnPipe : List Char → List (List Char)
  | [] => [[]]
  | c :: rest =>
    if c = '|' then [] :: splitOnPipe rest
    else
      match splitOnPipe rest with
      | [] => [[c]]
      | piece :: pieces => (c :: piece) :: pieces

/-- `splitStringIntoSentencesAndWhitespace` from `otherUtil.ts`. -/
def splitStringIntoSentencesAndWhitespace (str : String) : List String :=
  (((splitOnPipe (replaceSentenceBoundaries str.data)).filter
      (fun s => 0 < s.length)).map (fun s => (⟨s⟩ : String)))

/-- The result record of `parseEditorContentInternal`. -/
structure ParseResult where
  textSegments : List Translatable
  structures : List JNode
  parseHistory : List String
  idReplacements : List (String × String)
  counter : Nat

/-- The `splitText.forEach` loop of the raw-text leaf case of
`parseEditorContentInternal`: whitespace-only pieces become skeleton
literals (history entry `"blank"`), other pieces become fresh segments. -/
def parseRawPieces (type attrs : Option String) :
    List String → Nat → List Translatable × List JNode × List String × Nat
  | [], counter => ([], [], [], counter)
  | str :: rest, counter =>
    if stringContainsOnlyWhitespace str then
      let r := parseRawPieces type attrs rest counter
      (r.1, JNode.mk type attrs (some str) none none none :: r.2.1,
        "blank" :: r.2.2.1, r.2.2.2)
    else
      let textSegmentId := uuid counter
      let r := parseRawPieces type attrs rest (counter + 1)
      (⟨textSegmentId, str⟩ :: r.1,
        JNode.mk type attrs none none (some textSegmentId) none :: r.2.1,
        textSegmentId :: r.2.2.1, r.2.2.2)

mutual

/-- `parseEditorContentInternal` from `editorUtil.ts`.  The `uuid()` supply
is threaded through `counter`. -/
def parseNode : JNode → List String → List (String × String) → Nat → ParseResult
  | JNode.mk type attrs text marks _tsid content, parseHistory, oldIdReplacements, counter =>
    match text with
    | some t =>
      match marks with
      | some ms =>
        -- TextSegment is already present
        let textSegmentId0 := getTextSegmentIdFromMarksWithReplacement ms oldIdReplacements
        if requiresNewTextSegmentId textSegmentId0 parseHistory then
          -- Create new id if this one is already used.
          let newId := uuid counter
          let reps :=
            match textSegmentId0 with
            | some old => repInsert oldIdReplacements old newId
            | none => oldIdReplacements
          { textSegments := [⟨newId, t⟩],
            structures := [JNode.mk type attrs none none (some newId) none],
            parseHistory := [newId], idReplacements := reps, counter := counter + 1 }
        else
          match textSegmentId0 with
          | some tsid =>
            { textSegments := [⟨tsid, t⟩],
              structures := [JNode.mk type attrs none none (some tsid) none],
              parseHistory := [tsid], idReplacements := oldIdReplacements,
              counter := counter }
          | none =>
            -- unreachable: requiresNewTextSegmentId none _ = true
            { textSegments := [], structures := [], parseHistory := [],
              idReplacements := oldIdReplacements, counter := counter }
      | none =>
        -- Raw text. Text segments must be wrapped.
        let r := parseRawPieces type attrs (splitStringIntoSentencesAndWhitespace t) counter
        { textSegments := r.1, structures := r.2.1, parseHistory := r.2.2.1,
          idReplacements := oldIdReplacements, counter := r.2.2.2 }
    | none =>
      match content with
      | none =>
        -- Leaf node without text (e.g., an empty paragraph): copied verbatim.
        { textSegments := [],
          structures := [JNode.mk type attrs text marks _tsid content],
          parseHistory := ["break"], idReplacements := oldIdReplacements,
          counter := counter }
      | some cs =>
        -- Not a leaf node.
        let r := parseChildren cs parseHistory oldIdReplacements counter
        { textSegments := mergeTextSegmentsWithSameId r.textSegments,
          structures :=
            [JNode.mk type attrs none none none (some (removeDuplicateTextNodes r.structures))],
          parseHistory := r.parseHistory ++ ["break"],
          idReplacements := r.idReplacements, counter := r.counter }

/-- The `content.forEach` loop of `parseEditorContentInternal`: each child is
parsed with the outer history extended by everything emitted so far. -/
def parseChildren : List JNode → List String → List (String × String) → Nat → ParseResult
  | [], _, reps, counter =>
    { textSegments := [], structures := [], parseHistory := [],
      idReplacements := reps, counter := counter }
  | child :: rest, parseHistory, reps, counter =>
    let r := parseNode child parseHistory reps counter
    let r2 := parseChildren rest (parseHistory ++ r.parseHistory) r.idReplacements r.counter
    { textSegments := r.textSegments ++ r2.textSegments,
      structures := r.structures ++ r2.structures,
      parseHistory := r.parseHistory ++ r2.parseHistory,
      idReplacements := r2.idReplacements, counter := r2.counter }

end

/-- `parseEditorContent` from `editorUtil.ts`: the root result is the first
structure (`structures[0]`, `none` when absent). -/
def parseEditorContent (editorContent : JNode) (counter : Nat) :
    List Translatable × Option JNode :=
  let r := parseNode editorContent [] [] counter
  (r.textSegments, r.structures.head?)

mutual

/-- `buildEditorContentWithMarksInternal` from `editorUtil.ts` (the source's
`structure` parameter is named `struc`; `structure` is a Lean keyword). -/
def buildNode (struc : JNode) (textSegments : List TextSegment) (takeSource : Bool) :
    Except String (List JNode) :=
  match struc with
  | JNode.mk type attrs text _marks textSegmentId content =>
    match text with
    | some t =>
      -- E.g., a text node with whitespace; copied unless empty.
      Except.ok (if t ≠ "" then [struc] else [])
    | none =>
      match textSegmentId with
      | some tsid =>
        match textSegments.find? (fun ts => ts._id = tsid) with
        | none =>
          Except.error
            ("Cannot build editor content because the text segment with the following id cannot be found: "
              ++ tsid ++ ".")
        | some textSegment =>
          let textSegmentMark : Mark :=
            ⟨textSegmentMarkName, some textSegment._id, some textSegment.suggestionIsActive⟩
          let suggestionMark : Mark := ⟨suggestionMarkName, some textSegment._id, none⟩
          let textSegmentRegions : List JNode :=
            if hasActiveSuggestion textSegment then
              if takeSource then
                [JNode.mk (some "text") none (some textSegment.srcText)
                  (some [textSegmentMark, suggestionMark]) none none]
              else
                textSegment.mtTextStructure.map (fun s =>
                  JNode.mk (some "text") none (some s.value)
                    (some (if s.highlight then [textSegmentMark, suggestionMark]
                      else [textSegmentMark])) none none)
            else
              [JNode.mk (some "text") none
                (some (if takeSource then textSegment.srcText else textSegment.hpeText))
                (some [textSegmentMark]) none none]
          -- Text nodes cannot be empty.
          Except.ok (textSegmentRegions.filter (fun x => x.text ≠ some ""))
      | none =>
        match content with
        | some cs =>
          match buildChildren cs textSegments takeSource with
          | Except.error e => Except.error e
          | Except.ok newContent =>
            Except.ok [JNode.mk type attrs none none none (some newContent)]
        | none =>
          -- A child without text: e.g. an empty paragraph.
          Except.ok [JNode.mk type attrs none none none none]

/-- The recursive `content.forEach` of the build pass. -/
def buildChildren (children : List JNode) (textSegments : List TextSegment)
    (takeSource : Bool) : Except String (List JNode) :=
  match children with
  | [] => Except.ok []
  | c :: cs =>
    match buildNode c textSegments takeSource with
    | Except.error e => Except.error e
    | Except.ok objs =>
      match buildChildren cs textSegments takeSource with
      | Except.error e => Except.error e
      | Except.ok rest => Except.ok (objs ++ rest)

end

/-- `buildEditorContentWithMarks` from `editorUtil.ts`: takes element `[0]`
of the internal result (`none` models JS `undefined`). -/
def buildEditorContentWithMarks (struc : JNode) (textSegments : List TextSegment)
    (takeSource : Bool) : Except String (Option JNode) :=
  match buildNode struc textSegments takeSource with
  | Except.error e => Except.error e
  | Except.ok targetObjects => Except.ok targetObjects.head?

mutual

/-- The visible leaf text of a document tree, in traversal order. -/
def leafText : JNode → String
  | JNode.mk _ _ text _ _ content =>
    match text with
    | some t => t
    | none =>
      match content with
      | some cs => leafTextList cs
      | none => ""

def leafTextList : List JNode → String
  | [] => ""
  | c :: cs => leafText c ++ leafTextList cs

end

/-! ## C8: build fails exactly on unresolved segment references -/

mutual

/-- The `textSegmentId` references that the build traversal resolves: the ids
of skeleton leaves that carry a `textSegmentId` (and no literal text). -/
def refIds : JNode → List String
  | JNode.mk _ _ text _ textSegmentId content =>
    match text with
    | some _ => []
    | none =>
      match textSegmentId with
      | some id => [id]
      | none =>
        match content with
        | some cs => refIdsList cs
        | none => []

def refIdsList : List JNode → List String
  | [] => []
  | c :: cs => refIds c ++ refIdsList cs

end

mutual

theorem buildNode_isOk_iff (struc : JNode) (segs : List TextSegment) (takeSource : Bool) :
    (buildNode struc segs takeSource).isOk =
      (refIds struc).all (fun id => (segs.find? (fun ts => ts._id = id)).isSome) := by
  match struc with
  | JNode.mk type attrs text marks textSegmentId content =>
    cases text with
    | some t => simp [buildNode, refIds, Except.isOk, Except.toBool]
    | none =>
      cases textSegmentId with
      | some tsid =>
        cases hf : segs.find? (fun ts => ts._id = tsid) with
        | none => simp [buildNode, refIds, Except.isOk, Except.toBool, hf]
        | some ts => simp [buildNode, refIds, Except.isOk, Except.toBool, hf]
      | none =>
        cases content with
        | some cs =>
          have ih := buildChildren_isOk_iff cs segs takeSource
          cases hb : buildChildren cs segs takeSource with
          | error e => simp [buildNode, refIds, Except.isOk, Except.toBool, hb, ← ih]
          | ok objs => simp [buildNode, refIds, Except.isOk, Except.toBool, hb, ← ih]
        | none => simp [buildNode, refIds, Except.isOk, Except.toBool]

theorem buildChildren_isOk_iff (children : List JNode) (segs : List TextSegment)
    (takeSource : Bool) :
    (buildChildren children segs takeSource).isOk =
      (refIdsList children).all (fun id => (segs.find? (fun ts => ts._id = id)).isSome) := by
  match children with
  | [] => simp [buildChildren, refIdsList, Except.isOk, Except.toBool]
  | c :: cs =>
    have ih1 := buildNode_isOk_iff c segs takeSource
    have ih2 := buildChildren_isOk_iff cs segs takeSource
    cases hb : buildNode c segs takeSource with
    | error e => simp [buildChildren, refIdsList, Except.isOk, Except.toBool, hb, ← ih1, ← ih2]
    | ok objs =>
      cases hb2 : buildChildren cs segs takeSource with
      | error e => simp [buildChildren, refIdsList, Except.isOk, Except.toBool, hb, hb2, ← ih1, ← ih2]
      | ok rest => simp [buildChildren, refIdsList, Except.isOk, Except.toBool, hb, hb2, ← ih1, ← ih2]

end

/-- C8 (claim theorem): `buildEditorContentWithMarks` raises an error exactly
when some skeleton leaf carries a `textSegmentId` with no matching `_id` in
the supplied segment collection; when every referenced id resolves it
returns a result without error. -/
theorem buildEditorContentWithMarks_error_iff (struc : JNode) (segs : List TextSegment)
    (takeSource : Bool) :
    (∃ e, buildEditorContentWithMarks struc segs takeSource = Except.error e) ↔
      ∃ id ∈ refIds struc, ∀ ts ∈ segs, ts._id ≠ id := by
  have h := buildNode_isOk_iff struc segs takeSource
  unfold buildEditorContentWithMarks
  cases hb : buildNode struc segs takeSource with
  | error e =>
    rw [hb] at h
    simp only [Except.isOk, Except.toBool] at h
    constructor
    · intro _
      have : ¬((refIds struc).all (fun id => (segs.find? (fun ts => ts._id = id)).isSome)) := by
        rw [← h]; simp
      rw [List.all_eq_true] at this
      push_neg at this
      obtain ⟨id, hid, hfind⟩ := this
      refine ⟨id, hid, ?_⟩
      intro ts hts
      by_contra heq
      have : (segs.find? (fun s => s._id = id)).isSome := by
        rw [List.find?_isSome]
        exact ⟨ts, hts, by simp [heq]⟩
      simp [this] at hfind
    · intro _
      exact ⟨e, rfl⟩
  | ok objs =>
    rw [hb] at h
    simp only [Except.isOk, Except.toBool] at h
    constructor
    · intro ⟨e, he⟩
      exact absurd he (by simp)
    · intro ⟨id, hid, hall⟩
      have hfind : (segs.find? (fun ts => ts._id = id)).isSome = false := by
        rw [Bool.eq_false_iff]
        intro hsome
        rw [List.find?_isSome] at hsome
        obtain ⟨ts, hts, hts2⟩ := hsome
        exact hall ts hts (by simpa using hts2)
      have hall2 := (List.all_eq_true.mp h.symm) id hid
      rw [hfind] at hall2
      exact absurd hall2 (by simp)

/-! ## C6: staleness remapping of segment ids -/

/-- A text-segment identity mark with the given id. -/
def markWithId (id : String) : Mark :=
  ⟨textSegmentMarkName, some id, none⟩

/-- A marked text leaf. -/
def markedLeaf (id t : String) : JNode :=
  JNode.mk (some "text") none (some t) (some [markWithId id]) none none

/-- An unmarked (raw) text leaf. -/
def rawLeaf (t : String) : JNode :=
  JNode.mk (some "text") none (some t) none none none

/-- A paragraph with the given inline children. -/
def paragraphNode (cs : List JNode) : JNode :=
  JNode.mk (some "paragraph") none none none none (some cs)

/-- A document root. -/
def docNode (cs : List JNode) : JNode :=
  JNode.mk (some "doc") none none none none (some cs)

theorem uuid_ne_empty (c : Nat) : uuid c ≠ "" := by
  unfold uuid
  intro h
  have := congrArg String.data h
  simp at this

theorem uuid_data_head (c : Nat) : (uuid c).data.head? = some '#' := by
  unfold uuid
  rfl

theorem ne_uuid_of_head {a : String} (h : a.data.head? ≠ some '#') (c : Nat) :
    a ≠ uuid c := by
  intro heq
  rw [heq] at h
  exact h (uuid_data_head c)

/-- C6 (counterexample): a marked segment split over three paragraphs.  The
first fragment keeps the stale id `"a"`, but the two later fragments do NOT
share a single fresh id — each non-adjacent later occurrence is reminted
separately (`uuid 0` then `uuid 1`). -/
theorem parse_split_fragments_get_distinct_fresh_ids :
    ((parseEditorContent (docNode [paragraphNode [markedLeaf "a" "t1"],
        paragraphNode [markedLeaf "a" "t2"], paragraphNode [markedLeaf "a" "t3"]]) 0).1 =
      [⟨"a", "t1"⟩, ⟨uuid 0, "t2"⟩, ⟨uuid 1, "t3"⟩]) ∧ uuid 0 ≠ uuid 1 := by
  decide

/-- C6 (amended claim theorem): when a marked leaf's id `a` is stale, a fresh
id is minted and recorded in the remap table, and later leaves still carrying
`a` resolve through the table to that fresh id, sharing it as long as they
directly continue the replacement chain (here: the two leaves of the second
paragraph both resolve to `uuid c` and are merged into one segment). -/
theorem parse_stale_id_remapped_to_shared_fresh_id (a t1 t2 t3 : String) (c : Nat)
    (ha0 : a ≠ "") (habr : a ≠ "break") (hahash : a.data.head? ≠ some '#')
    (ht1 : t1 ≠ "") (ht2 : t2 ≠ "") :
    (parseEditorContent (docNode [paragraphNode [markedLeaf a t1],
        paragraphNode [markedLeaf a t2, markedLeaf a t3]]) c).1 =
      [⟨a, t1⟩, ⟨uuid c, t2 ++ t3⟩] ∧
      (parseNode (docNode [paragraphNode [markedLeaf a t1],
          paragraphNode [markedLeaf a t2, markedLeaf a t3]]) [] [] c).idReplacements =
        [(a, uuid c)] := by
  have hu0 : uuid c ≠ "" := uuid_ne_empty c
  have hau : a ≠ uuid c := ne_uuid_of_head hahash c
  have ht23 : t2 ++ t3 ≠ "" := by
    intro h
    have := congrArg String.data h
    simp [String.data_append] at this
    exact ht2 (by cases t2 with | mk d => simp_all)
  simp [parseEditorContent, parseNode, parseChildren, markedLeaf, paragraphNode, docNode,
    markWithId, getTextSegmentIdFromMarksWithReplacement, getTextSegmentIdFromMarks,
    jsOrString, jsTruthyStr, requiresNewTextSegmentId, getLastElementInArray,
    repLookup, repInsert, mergeTextSegmentsWithSameId, mergeGo,
    removeDuplicateTextNodes, removeDuplicateTextNodesGo,
    ha0, habr, ht1, ht23, hu0, hau, Ne.symm habr, Ne.symm hau]

theorem parse_stale_id_remapped_to_shared_fresh_id_witness :
    (parseEditorContent (docNode [paragraphNode [markedLeaf "a" "x"],
        paragraphNode [markedLeaf "a" "y", markedLeaf "a" "z"]]) 0).1 =
      [⟨"a", "x"⟩, ⟨uuid 0, "y" ++ "z"⟩] ∧
      (parseNode (docNode [paragraphNode [markedLeaf "a" "x"],
          paragraphNode [markedLeaf "a" "y", markedLeaf "a" "z"]]) [] [] 0).idReplacements =
        [("a", uuid 0)] :=
  parse_stale_id_remapped_to_shared_fresh_id "a" "x" "y" "z" 0 (by decide) (by decide)
    (by decide) (by decide) (by decide)

/-! ## C3: uniqueness of emitted segment ids -/

/-- The parse-history sentinel entries (`'blank'` for whitespace runs,
`'break'` for paragraph/leaf breaks). -/
def isSentinel (s : String) : Bool :=
  s = "blank" || s = "break"

/-- A mark id that cannot collide with the engine's internals: it is not a
sentinel string and not in the range of the modelled id generator. -/
def goodId (s : String) : Bool :=
  decide (s.data.head? ≠ some '#') && !(s = "blank") && !(s = "break")

mutual

/-- All mark ids in the tree are good. -/
def goodMarkIds : JNode → Bool
  | JNode.mk _ _ _ marks _ content =>
    (match marks with
     | some ms =>
       ms.all (fun m => match m.textSegmentId with | some v => goodId v | none => true)
     | none => true) &&
    (match content with
     | some cs => goodMarkIdsList cs
     | none => true)

def goodMarkIdsList : List JNode → Bool
  | [] => true
  | c :: cs => goodMarkIds c && goodMarkIdsList cs

end

/-- A history is well-formed when no non-sentinel id recurs after a different
entry: there is no subsequence `[x, y, x]` with `y ≠ x` (occurrences of each
id are contiguous). -/
def HistOk (l : List String) : Prop :=
  ∀ x y, isSentinel x = false → y ≠ x → ¬ (List.Sublist [x, y, x] l)

/-- The sentinel-free variant for plain id sequences. -/
def IdsOk (l : List String) : Prop :=
  ∀ x y, y ≠ x → ¬ (List.Sublist [x, y, x] l)

theorem histOk_nil : HistOk [] := by
  intro x y _ _ hsub
  cases hsub

theorem histOk_sublist {l1 l2 : List String} (hs : l1.Sublist l2) (h : HistOk l2) :
    HistOk l1 := fun x y hx hy hsub => h x y hx hy (hsub.trans hs)

theorem idsOk_sublist {l1 l2 : List String} (hs : l1.Sublist l2) (h : IdsOk l2) :
    IdsOk l1 := fun x y hy hsub => h x y hy (hsub.trans hs)

theorem idsOk_of_histOk_filter {l : List String} (h : HistOk l) :
    IdsOk (l.filter (fun s => !isSentinel s)) := by
  intro x y hy hsub
  have hxmem : x ∈ l.filter (fun s => !isSentinel s) := hsub.mem (by simp)
  have hxs : isSentinel x = false := by
    have := List.of_mem_filter hxmem
    simpa using this
  exact h x y hxs hy (hsub.trans (List.filter_sublist l))

theorem sublist_single_cases {A : Type} {l : List A} {a : A} (h : l.Sublist [a]) :
    l = [] ∨ l = [a] := by
  rw [List.sublist_singleton] at h
  exact h

/-- Core extension step: appending an entry keeps the history well-formed
when the entry is a sentinel, has never occurred, or equals the last entry. -/
theorem histOk_append {H : List String} {k : String} (h : HistOk H)
    (hk : isSentinel k = true ∨ k ∉ H ∨ H.getLast? = some k) :
    HistOk (H ++ [k]) := by
  intro x y hx hy hsub
  rw [List.sublist_append_iff] at hsub
  obtain ⟨s, t, hst, hsH, htk⟩ := hsub
  rcases sublist_single_cases htk with rfl | rfl
  · rw [List.append_nil] at hst
    subst hst
    exact h x y hx hy hsH
  · -- the final x of the pattern is the appended k
    rcases s with _ | ⟨s1, s⟩
    · simp at hst
    rcases s with _ | ⟨s2, s⟩
    · simp at hst
    rcases s with _ | ⟨s3, s⟩
    case cons.cons.cons =>
      have := congrArg List.length hst
      simp at this
    simp only [List.cons_append, List.nil_append, List.cons.injEq, and_true] at hst
    obtain ⟨rfl, rfl, rfl⟩ := hst
    rcases hk with hk | hk | hk
    · rw [hk] at hx
      exact absurd hx (by simp)
    · exact hk (hsH.mem (by simp))
    · obtain ⟨H', rfl⟩ := List.getLast?_eq_some_iff.mp hk
      rw [List.sublist_append_iff] at hsH
      obtain ⟨s', t', hst', hsH', htk'⟩ := hsH
      rcases sublist_single_cases htk' with rfl | rfl
      · rw [List.append_nil] at hst'
        subst hst'
        exact h x y hx hy (hsH'.append (List.Sublist.refl [x]))
      · rcases s' with _ | ⟨u1, s'⟩
        · simp at hst'
        rcases s' with _ | ⟨u2, s'⟩
        · simp only [List.cons_append, List.nil_append, List.cons.injEq, and_true] at hst'
          obtain ⟨rfl, rfl⟩ := hst'
          exact hy rfl
        · have := congrArg List.length hst'
          simp at this

theorem uuid_inj {m n : Nat} (h : uuid m = uuid n) : m = n := by
  have := congrArg (fun s => s.data.length) h
  simpa [uuid] using this

theorem uuid_not_sentinel (c : Nat) : isSentinel (uuid c) = false := by
  have h := uuid_data_head c
  simp only [isSentinel, Bool.or_eq_false_iff]
  constructor <;>
    · simp only [decide_eq_false_iff_not]
      intro heq
      rw [heq] at h
      simp at h

theorem goodId_ne_uuid {s : String} (h : goodId s = true) (c : Nat) : s ≠ uuid c := by
  simp only [goodId, Bool.and_eq_true, decide_eq_true_eq] at h
  exact ne_uuid_of_head h.1.1 c

theorem goodId_not_sentinel {s : String} (h : goodId s = true) : isSentinel s = false := by
  simp only [goodId, Bool.and_eq_true, decide_eq_true_eq, Bool.not_eq_true',
    decide_eq_false_iff_not] at h
  simp [isSentinel, h.1.2, h.2]

theorem contains_iff_mem {l : List String} {a : String} : l.contains a = true ↔ a ∈ l := by
  rw [List.contains_iff_exists_mem_beq]
  constructor
  · rintro ⟨b, hb, hbeq⟩
    rwa [show a = b from by simpa using hbeq]
  · intro h
    exact ⟨a, h, by simp⟩

/-- What `requiresNewTextSegmentId = false` means. -/
theorem requiresNew_false {k : String} {ph : List String}
    (h : requiresNewTextSegmentId (some k) ph = false) :
    ph.getLast? = some k ∨ k ∉ ph := by
  unfold requiresNewTextSegmentId at h
  rw [Bool.and_eq_false_iff] at h
  rcases h with h | h
  · left
    have h2 := of_decide_eq_false h
    rw [not_not] at h2
    exact h2
  · right
    intro hmem
    rw [contains_iff_mem.mpr hmem] at h
    cases h

/-- The id found by `getTextSegmentIdFromMarks` is one of the marks' ids (or
the fold never found a truthy value). -/
theorem getTextSegmentIdFromMarks_provenance (ms : List Mark) (acc : Option String) :
    ms.foldl (fun t m => jsOrString t m.textSegmentId) acc = acc ∨
      ∃ m ∈ ms, ms.foldl (fun t m => jsOrString t m.textSegmentId) acc = m.textSegmentId := by
  induction ms generalizing acc with
  | nil => exact Or.inl rfl
  | cons m rest ih =>
    rw [List.foldl_cons]
    rcases ih (jsOrString acc m.textSegmentId) with h | h
    · rw [h]
      unfold jsOrString
      split
      · exact Or.inl rfl
      · exact Or.inr ⟨m, by simp, rfl⟩
    · obtain ⟨m', hm', hfold⟩ := h
      exact Or.inr ⟨m', by simp [hm'], hfold⟩

/-- Provenance of `getTextSegmentIdFromMarksWithReplacement`: a nonempty id
that is either a mark id of `ms` or a replacement value from `reps`. -/
theorem getTSIdWithReplacement_provenance (ms : List Mark)
    (reps : List (String × String)) {k : String}
    (h : getTextSegmentIdFromMarksWithReplacement ms reps = some k) :
    (∃ m ∈ ms, m.textSegmentId = some k) ∨ ∃ kv ∈ reps, kv.2 = k := by
  unfold getTextSegmentIdFromMarksWithReplacement at h
  cases hgm : getTextSegmentIdFromMarks ms with
  | none => rw [hgm] at h; simp [jsTruthyStr] at h
  | some tsid =>
    rw [hgm] at h
    by_cases ht : tsid = ""
    · subst ht
      simp [jsTruthyStr] at h
    · have hmarks : ∃ m ∈ ms, m.textSegmentId = some tsid := by
        rcases getTextSegmentIdFromMarks_provenance ms none with h0 | h0
        · unfold getTextSegmentIdFromMarks at hgm
          rw [h0] at hgm
          cases hgm
        · obtain ⟨m, hm, hf⟩ := h0
          refine ⟨m, hm, ?_⟩
          unfold getTextSegmentIdFromMarks at hgm
          rw [hf] at hgm
          exact hgm
      rw [if_neg (by simp [jsTruthyStr, ht])] at h
      dsimp only at h
      cases hrl : repLookup reps tsid with
      | none =>
        rw [hrl] at h
        dsimp only at h
        simp only [Option.some.injEq] at h
        subst h
        exact Or.inl hmarks
      | some rep =>
        rw [hrl] at h
        dsimp only at h
        by_cases hre : rep = ""
        · rw [if_neg (by simp [hre])] at h
          simp only [Option.some.injEq] at h
          subst h
          exact Or.inl hmarks
        · rw [if_pos hre] at h
          simp only [Option.some.injEq] at h
          right
          unfold repLookup at hrl
          cases hf : reps.find? (fun p => p.1 = tsid) with
          | none => rw [hf] at hrl; cases hrl
          | some p =>
            rw [hf] at hrl
            have hp2 : p.2 = rep := by simpa using hrl
            exact ⟨p, List.mem_of_find?_eq_some hf, by rw [hp2, h]⟩


/-- The id sequence represented by a `mergeGo` state: the open chain's id (if
any) followed by the ids still to be processed. -/
def idOfState (cid : Option String) (ids : List String) : List String :=
  cid.toList ++ ids

theorem jsTruthyStr_none : jsTruthyStr none = false := rfl

theorem mergeGo_push_nil {ts : Translatable} {cid ctext : Option String}
    (hc : some ts._id ≠ cid) :
    mergeGo cid ctext [ts] =
      (if jsTruthyStr ctext && jsTruthyStr cid then [⟨cid.getD "", ctext.getD ""⟩] else []) ++
        (if jsTruthyStr (some ts.srcText) then [⟨ts._id, ts.srcText⟩] else []) := by
  simp [mergeGo, hc]

theorem mergeGo_push_cons {ts ts2 : Translatable} {r : List Translatable}
    {cid ctext : Option String} (hc : some ts._id ≠ cid) :
    mergeGo cid ctext (ts :: ts2 :: r) =
      (if jsTruthyStr ctext && jsTruthyStr cid then [⟨cid.getD "", ctext.getD ""⟩] else []) ++
        mergeGo (some ts._id) (some ts.srcText) (ts2 :: r) := by
  simp [mergeGo, hc]

theorem mergeGo_cont_nil {ts : Translatable} {ctext : Option String} :
    mergeGo (some ts._id) ctext [ts] =
      (if jsTruthyStr (some (ctext.getD "" ++ ts.srcText)) then
        [⟨ts._id, ctext.getD "" ++ ts.srcText⟩] else []) := by
  simp [mergeGo]

theorem mergeGo_cont_cons {ts ts2 : Translatable} {r : List Translatable}
    {ctext : Option String} :
    mergeGo (some ts._id) ctext (ts :: ts2 :: r) =
      mergeGo (some ts._id) (some (ctext.getD "" ++ ts.srcText)) (ts2 :: r) := by
  simp [mergeGo]

theorem ite_single_ids_sublist (P : Prop) [Decidable P] (t : Translatable) :
    (List.map Translatable._id (if P then [t] else [])).Sublist [t._id] := by
  split <;> simp

theorem pushed_ids_sublist (cid ctext : Option String) :
    (List.map Translatable._id (if jsTruthyStr ctext && jsTruthyStr cid then
      [⟨cid.getD "", ctext.getD ""⟩] else [])).Sublist cid.toList := by
  cases cid with
  | none =>
    split
    · rename_i h
      simp [jsTruthyStr] at h
    · simp
  | some x => split <;> simp

theorem mergeGo_ids_sublist (l : List Translatable) : ∀ cid ctext : Option String,
    ((mergeGo cid ctext l).map Translatable._id).Sublist
      (idOfState cid (l.map Translatable._id)) := by
  induction l with
  | nil => intro cid ctext; exact List.nil_sublist _
  | cons ts rest ih =>
    intro cid ctext
    by_cases hc : some ts._id ≠ cid
    · cases rest with
      | nil =>
        rw [mergeGo_push_nil hc, List.map_append]
        exact (pushed_ids_sublist cid ctext).append
          (ite_single_ids_sublist _ ⟨ts._id, ts.srcText⟩)
      | cons ts2 r =>
        rw [mergeGo_push_cons hc, List.map_append]
        have ihr := ih (some ts._id) (some ts.srcText)
        simp only [idOfState, Option.toList_some, List.singleton_append] at ihr
        exact (pushed_ids_sublist cid ctext).append ihr
    · rw [not_not] at hc
      subst hc
      cases rest with
      | nil =>
        rw [mergeGo_cont_nil]
        simp only [idOfState, Option.toList_some, List.singleton_append, List.map_cons,
          List.map_nil]
        exact (ite_single_ids_sublist _ ⟨ts._id, _⟩).trans
          ((List.Sublist.refl [ts._id]).cons ts._id)
      | cons ts2 r =>
        rw [mergeGo_cont_cons]
        have ihr := ih (some ts._id) (some (ctext.getD "" ++ ts.srcText))
        simp only [idOfState, Option.toList_some, List.singleton_append] at ihr ⊢
        simp only [List.map_cons]
        exact ihr.trans (((List.Sublist.refl _).cons _).cons₂ _)

theorem mergeGo_ids_nodup (l : List Translatable) : ∀ cid ctext : Option String,
    IdsOk (idOfState cid (l.map Translatable._id)) →
    ((mergeGo cid ctext l).map Translatable._id).Nodup := by
  induction l with
  | nil => intro cid ctext _; simp [mergeGo]
  | cons ts rest ih =>
    intro cid ctext hok
    by_cases hc : some ts._id ≠ cid
    · cases rest with
      | nil =>
        rw [mergeGo_push_nil hc, List.map_append]
        cases cid with
        | none =>
          simp only [jsTruthyStr_none, Bool.and_false]
          simp only [Bool.false_eq_true, if_false, ite_false, List.map_nil, List.nil_append]
          split <;> simp
        | some x =>
          have hne : ts._id ≠ x := by simpa using hc
          split <;> split <;> simp_all <;> exact fun hh => hne hh.symm
      | cons ts2 r =>
        rw [mergeGo_push_cons hc, List.map_append]
        have hrec : ((mergeGo (some ts._id) (some ts.srcText) (ts2 :: r)).map
            Translatable._id).Nodup := by
          refine ih (some ts._id) (some ts.srcText) ?_
          refine idsOk_sublist ?_ hok
          simp only [idOfState, Option.toList_some, List.singleton_append, List.map_cons]
          cases cid with
          | none => exact List.Sublist.refl _
          | some x => exact (List.Sublist.refl _).cons x
        cases cid with
        | none =>
          simp only [jsTruthyStr_none, Bool.and_false]
          simp only [Bool.false_eq_true, if_false, ite_false, List.map_nil, List.nil_append]
          exact hrec
        | some x =>
          have hne : ts._id ≠ x := by simpa using hc
          split
          · simp only [List.map_cons, List.map_nil, Option.getD_some, List.singleton_append]
            refine List.nodup_cons.mpr ⟨?_, hrec⟩
            intro hxmem
            have hsub := mergeGo_ids_sublist (ts2 :: r) (some ts._id) (some ts.srcText)
            have hxin := hsub.mem hxmem
            simp only [idOfState, Option.toList_some, List.singleton_append,
              List.mem_cons] at hxin
            rcases hxin with hxin | hxin
            · exact hne hxin.symm
            · refine hok x ts._id hne ?_
              simp only [idOfState, Option.toList_some, List.singleton_append,
                List.map_cons]
              refine List.Sublist.cons₂ x ?_
              refine List.Sublist.cons₂ ts._id ?_
              exact List.singleton_sublist.mpr hxin
          · simp only [List.map_nil, List.nil_append]
            exact hrec
    · rw [not_not] at hc
      subst hc
      cases rest with
      | nil =>
        rw [mergeGo_cont_nil]
        split <;> simp
      | cons ts2 r =>
        rw [mergeGo_cont_cons]
        refine ih (some ts._id) (some (ctext.getD "" ++ ts.srcText)) ?_
        refine idsOk_sublist ?_ hok
        simp only [idOfState, Option.toList_some, List.singleton_append, List.map_cons]
        exact ((List.Sublist.refl _).cons _).cons₂ _

/-- The two facts about `mergeTextSegmentsWithSameId` used by the uniqueness
argument: the merged ids are a sublist of the input ids, and they are
pairwise distinct when each input id occurs in one contiguous run. -/
theorem mergeTextSegments_ids_sublist (l : List Translatable) :
    ((mergeTextSegmentsWithSameId l).map Translatable._id).Sublist
      (l.map Translatable._id) :=
  mergeGo_ids_sublist l none none

theorem mergeTextSegments_ids_nodup (l : List Translatable)
    (h : IdsOk (l.map Translatable._id)) :
    ((mergeTextSegmentsWithSameId l).map Translatable._id).Nodup :=
  mergeGo_ids_nodup l none none h

/-- History entries are sentinels, good tree ids, or already-minted ids. -/
def EntryOk (ctr : Nat) (e : String) : Prop :=
  isSentinel e = true ∨ goodId e = true ∨ ∃ m, m < ctr ∧ e = uuid m

/-- No id at or above the counter has been emitted yet. -/
def FreshOk (ctr : Nat) (ph : List String) : Prop :=
  ∀ m, ctr ≤ m → uuid m ∉ ph

/-- Replacement values have been emitted and come from the generator. -/
def RepsOk (ph : List String) (ctr : Nat) (reps : List (String × String)) : Prop :=
  ∀ kv ∈ reps, kv.2 ∈ ph ∧ ∃ m, m < ctr ∧ kv.2 = uuid m

theorem entryOk_mono {ctr ctr' : Nat} (h : ctr ≤ ctr') {e : String}
    (he : EntryOk ctr e) : EntryOk ctr' e := by
  rcases he with he | he | ⟨m, hm, he⟩
  · exact Or.inl he
  · exact Or.inr (Or.inl he)
  · exact Or.inr (Or.inr ⟨m, by omega, he⟩)

theorem freshOk_mono {ctr ctr' : Nat} (h : ctr ≤ ctr') {ph : List String}
    (hf : FreshOk ctr ph) : FreshOk ctr' ph :=
  fun m hm => hf m (by omega)

theorem repsOk_mono {ph ext : List String} {ctr ctr' : Nat}
    {reps : List (String × String)} (h : ctr ≤ ctr') (hr : RepsOk ph ctr reps) :
    RepsOk (ph ++ ext) ctr' reps := by
  intro kv hkv
  obtain ⟨hmem, m, hm, he⟩ := hr kv hkv
  exact ⟨List.mem_append_left _ hmem, m, by omega, he⟩

theorem freshOk_append {ctr : Nat} {ph : List String} {e : String}
    (hf : FreshOk ctr ph) (he : ∀ m, ctr ≤ m → uuid m ≠ e) :
    FreshOk ctr (ph ++ [e]) := by
  intro m hm hmem
  rcases List.mem_append.mp hmem with hmem | hmem
  · exact hf m hm hmem
  · simp only [List.mem_singleton] at hmem
    exact he m hm hmem

theorem uuid_ne_sentinel_entry {m : Nat} {e : String} (he : isSentinel e = true) :
    uuid m ≠ e := by
  intro heq
  rw [← heq] at he
  rw [uuid_not_sentinel] at he
  cases he

/-- Invariants of the raw-text piece loop. -/
theorem parseRawPieces_inv (ty attrs : Option String) (pieces : List String) :
    ∀ (ctr : Nat) (ph : List String), HistOk ph → FreshOk ctr ph →
    ctr ≤ (parseRawPieces ty attrs pieces ctr).2.2.2 ∧
    HistOk (ph ++ (parseRawPieces ty attrs pieces ctr).2.2.1) ∧
    (∀ e ∈ (parseRawPieces ty attrs pieces ctr).2.2.1,
      e = "blank" ∨ ∃ m, ctr ≤ m ∧ m < (parseRawPieces ty attrs pieces ctr).2.2.2 ∧
        e = uuid m) ∧
    FreshOk (parseRawPieces ty attrs pieces ctr).2.2.2
      (ph ++ (parseRawPieces ty attrs pieces ctr).2.2.1) ∧
    ((parseRawPieces ty attrs pieces ctr).1.map Translatable._id =
      (parseRawPieces ty attrs pieces ctr).2.2.1.filter (fun e => !isSentinel e)) ∧
    ((parseRawPieces ty attrs pieces ctr).1.map Translatable._id).Nodup := by
  induction pieces with
  | nil =>
    intro ctr ph hph hf
    simp only [parseRawPieces]
    exact ⟨le_refl ctr, by simpa using hph, by simp, by simpa using hf, by simp, by simp⟩
  | cons piece rest ih =>
    intro ctr ph hph hf
    by_cases hws : stringContainsOnlyWhitespace piece
    · simp only [parseRawPieces, hws, if_true, ite_true]
      have hph' : HistOk (ph ++ ["blank"]) :=
        histOk_append hph (Or.inl (by simp [isSentinel]))
      have hf' : FreshOk ctr (ph ++ ["blank"]) :=
        freshOk_append hf (fun m _ => uuid_ne_sentinel_entry (by simp [isSentinel]))
      obtain ⟨h1, h2, h3, h4, h5, h6⟩ := ih ctr (ph ++ ["blank"]) hph' hf'
      refine ⟨h1, by simpa using h2, ?_, by simpa using h4, ?_, h6⟩
      · intro e he
        rcases List.mem_cons.mp he with rfl | he
        · exact Or.inl rfl
        · exact h3 e he
      · simpa [isSentinel] using h5
    · simp only [parseRawPieces, hws, Bool.false_eq_true, Bool.true_eq_false, if_false,
        ite_false]
      have hnots : isSentinel (uuid ctr) = false := uuid_not_sentinel ctr
      have hph' : HistOk (ph ++ [uuid ctr]) :=
        histOk_append hph (Or.inr (Or.inl (hf ctr (le_refl ctr))))
      have hf' : FreshOk (ctr + 1) (ph ++ [uuid ctr]) := by
        refine freshOk_append (freshOk_mono (by omega) hf) ?_
        intro m hm heq
        have := uuid_inj heq
        omega
      obtain ⟨h1, h2, h3, h4, h5, h6⟩ := ih (ctr + 1) (ph ++ [uuid ctr]) hph' hf'
      refine ⟨by omega, by simpa using h2, ?_, by simpa using h4, ?_, ?_⟩
      · intro e he
        rcases List.mem_cons.mp he with rfl | he
        · exact Or.inr ⟨ctr, le_refl ctr, by omega, rfl⟩
        · rcases h3 e he with h | ⟨m, hm1, hm2, hm3⟩
          · exact Or.inl h
          · exact Or.inr ⟨m, by omega, hm2, hm3⟩
      · simpa [hnots] using h5
      · simp only [List.map_cons]
        refine List.nodup_cons.mpr ⟨?_, h6⟩
        rw [h5]
        intro hmem
        have hmem2 : uuid ctr ∈ (parseRawPieces ty attrs rest (ctr + 1)).2.2.1 :=
          (List.filter_sublist _).mem hmem
        rcases h3 _ hmem2 with h | ⟨m, hm1, hm2, hm3⟩
        · exact absurd h (by
            intro hcontra
            have := uuid_not_sentinel ctr
            rw [hcontra] at this
            simp [isSentinel] at this)
        · have := uuid_inj hm3
          omega

theorem goodMarkIds_marks {ty attrs text tsid content} {ms : List Mark}
    (hg : goodMarkIds (JNode.mk ty attrs text (some ms) tsid content) = true) :
    ms.all (fun m => match m.textSegmentId with | some v => goodId v | none => true) = true := by
  unfold goodMarkIds at hg
  rw [Bool.and_eq_true] at hg
  exact hg.1

theorem goodMarkIds_content {ty attrs text marks tsid} {cs : List JNode}
    (hg : goodMarkIds (JNode.mk ty attrs text marks tsid (some cs)) = true) :
    goodMarkIdsList cs = true := by
  unfold goodMarkIds at hg
  rw [Bool.and_eq_true] at hg
  exact hg.2

theorem goodMarkIdsList_cons {c : JNode} {cs : List JNode}
    (hg : goodMarkIdsList (c :: cs) = true) :
    goodMarkIds c = true ∧ goodMarkIdsList cs = true := by
  unfold goodMarkIdsList at hg
  rw [Bool.and_eq_true] at hg
  exact hg

mutual

/-- The central invariant of the parse pass: the history stays well-formed
(each non-sentinel id occurs in one contiguous run), counters only grow,
all history entries are accounted for, replacement values are minted ids
that were already emitted, emitted segment ids embed into the non-sentinel
history, and each node's merged segment ids are pairwise distinct. -/
theorem parseNode_inv (n : JNode) (ph : List String) (reps : List (String × String))
    (ctr : Nat) (hg : goodMarkIds n = true) (hph : HistOk ph) (hf : FreshOk ctr ph)
    (hr : RepsOk ph ctr reps) :
    ctr ≤ (parseNode n ph reps ctr).counter ∧
    HistOk (ph ++ (parseNode n ph reps ctr).parseHistory) ∧
    (∀ e ∈ (parseNode n ph reps ctr).parseHistory,
      EntryOk (parseNode n ph reps ctr).counter e) ∧
    FreshOk (parseNode n ph reps ctr).counter
      (ph ++ (parseNode n ph reps ctr).parseHistory) ∧
    RepsOk (ph ++ (parseNode n ph reps ctr).parseHistory)
      (parseNode n ph reps ctr).counter (parseNode n ph reps ctr).idReplacements ∧
    ((parseNode n ph reps ctr).textSegments.map Translatable._id).Sublist
      ((parseNode n ph reps ctr).parseHistory.filter (fun e => !isSentinel e)) ∧
    ((parseNode n ph reps ctr).textSegments.map Translatable._id).Nodup := by
  match n with
  | JNode.mk ty attrs text marks tsid content =>
    cases text with
    | some t =>
      cases marks with
      | some ms =>
        -- marked leaf
        have hall : ms.all (fun m => match m.textSegmentId with
            | some v => goodId v | none => true) = true := goodMarkIds_marks hg
        by_cases hreq :
          requiresNewTextSegmentId (getTextSegmentIdFromMarksWithReplacement ms reps) ph = true
        · -- mint a fresh id
          simp only [parseNode, hreq, if_true, ite_true]
          have hnew : uuid ctr ∉ ph := hf ctr (le_refl ctr)
          have hph' : HistOk (ph ++ [uuid ctr]) := histOk_append hph (Or.inr (Or.inl hnew))
          have hf' : FreshOk (ctr + 1) (ph ++ [uuid ctr]) := by
            refine freshOk_append (freshOk_mono (by omega) hf) ?_
            intro m hm heq
            have := uuid_inj heq
            omega
          refine ⟨by omega, hph', ?_, hf', ?_, ?_, by simp⟩
          · intro e he
            simp only [List.mem_singleton] at he
            subst he
            exact Or.inr (Or.inr ⟨ctr, by omega, rfl⟩)
          · cases htid : getTextSegmentIdFromMarksWithReplacement ms reps with
            | none =>
              simp only [htid]
              exact repsOk_mono (by omega) hr
            | some old =>
              simp only [htid, repInsert]
              intro kv hkv
              rcases List.mem_cons.mp hkv with rfl | hkv
              · exact ⟨List.mem_append_right _ (by simp), ctr, by omega, rfl⟩
              · exact repsOk_mono (by omega) hr kv hkv
          · simp [uuid_not_sentinel]
        · -- keep the resolved id
          rw [Bool.not_eq_true] at hreq
          cases htid : getTextSegmentIdFromMarksWithReplacement ms reps with
          | none => rw [htid] at hreq; cases hreq
          | some k =>
            rw [htid] at hreq
            simp only [parseNode, htid, hreq, Bool.false_eq_true, if_false, ite_false]
            have hkprov := getTSIdWithReplacement_provenance ms reps htid
            have hk : goodId k = true ∨ (k ∈ ph ∧ ∃ m, m < ctr ∧ k = uuid m) := by
              rcases hkprov with ⟨m, hm, hmk⟩ | ⟨kv, hkv, hkvk⟩
              · left
                have := List.all_eq_true.mp hall m hm
                rw [hmk] at this
                exact this
              · right
                obtain ⟨hmem, mm, hmm, heq⟩ := hr kv hkv
                rw [← hkvk]
                exact ⟨hmem, mm, hmm, heq⟩
            have hksent : isSentinel k = false := by
              rcases hk with hk | ⟨_, m, _, rfl⟩
              · exact goodId_not_sentinel hk
              · exact uuid_not_sentinel m
            have hph' : HistOk (ph ++ [k]) := by
              refine histOk_append hph ?_
              rcases requiresNew_false hreq with h | h
              · exact Or.inr (Or.inr h)
              · exact Or.inr (Or.inl h)
            refine ⟨le_refl ctr, hph', ?_, ?_, ?_, ?_, by simp⟩
            · intro e he
              simp only [List.mem_singleton] at he
              subst he
              rcases hk with hk | ⟨_, m, hm, rfl⟩
              · exact Or.inr (Or.inl hk)
              · exact Or.inr (Or.inr ⟨m, hm, rfl⟩)
            · refine freshOk_append hf ?_
              intro m hm heq
              rcases hk with hk | ⟨_, m', hm', rfl⟩
              · exact goodId_ne_uuid hk m heq.symm
              · have := uuid_inj heq
                omega
            · exact repsOk_mono (le_refl ctr) hr
            · simp [hksent]
      | none =>
        -- raw text leaf
        simp only [parseNode]
        obtain ⟨h1, h2, h3, h4, h5, h6⟩ :=
          parseRawPieces_inv ty attrs (splitStringIntoSentencesAndWhitespace t) ctr ph hph hf
        refine ⟨h1, h2, ?_, h4, ?_, ?_, h6⟩
        · intro e he
          rcases h3 e he with rfl | ⟨m, hm1, hm2, rfl⟩
          · exact Or.inl (by simp [isSentinel])
          · exact Or.inr (Or.inr ⟨m, hm2, rfl⟩)
        · exact repsOk_mono h1 hr
        · rw [h5]
    | none =>
      cases content with
      | none =>
        -- empty leaf (e.g. an empty paragraph), copied verbatim
        simp only [parseNode]
        refine ⟨le_refl ctr, histOk_append hph (Or.inl (by simp [isSentinel])), ?_,
          ?_, repsOk_mono (le_refl ctr) hr, by simp, by simp⟩
        · intro e he
          simp only [List.mem_singleton] at he
          subst he
          exact Or.inl (by simp [isSentinel])
        · exact freshOk_append hf (fun m _ => uuid_ne_sentinel_entry (by simp [isSentinel]))
      | some cs =>
        -- content node
        have hgl : goodMarkIdsList cs = true := goodMarkIds_content hg
        obtain ⟨h1, h2, h3, h4, h5, h6⟩ := parseChildren_inv cs ph reps ctr hgl hph hf hr
        simp only [parseNode]
        have hbrk : HistOk (ph ++ ((parseChildren cs ph reps ctr).parseHistory ++ ["break"])) := by
          rw [← List.append_assoc]
          exact histOk_append h2 (Or.inl (by simp [isSentinel]))
        refine ⟨h1, hbrk, ?_, ?_, ?_, ?_, ?_⟩
        · intro e he
          rcases List.mem_append.mp he with he | he
          · exact h3 e he
          · simp only [List.mem_singleton] at he
            subst he
            exact Or.inl (by simp [isSentinel])
        · rw [← List.append_assoc]
          exact freshOk_append h4 (fun m _ => uuid_ne_sentinel_entry (by simp [isSentinel]))
        · intro kv hkv
          obtain ⟨hmem, hm⟩ := h5 kv hkv
          refine ⟨?_, hm⟩
          rw [← List.append_assoc]
          exact List.mem_append_left _ hmem
        · have hsub := mergeTextSegments_ids_sublist (parseChildren cs ph reps ctr).textSegments
          refine (hsub.trans h6).trans ?_
          rw [List.filter_append]
          simp [isSentinel]
        · refine mergeTextSegments_ids_nodup _ ?_
          have hids := idsOk_of_histOk_filter h2
          refine idsOk_sublist ?_ hids
          refine h6.trans ?_
          rw [List.filter_append]
          exact List.sublist_append_right _ _

theorem parseChildren_inv (cs : List JNode) (ph : List String)
    (reps : List (String × String)) (ctr : Nat) (hg : goodMarkIdsList cs = true)
    (hph : HistOk ph) (hf : FreshOk ctr ph) (hr : RepsOk ph ctr reps) :
    ctr ≤ (parseChildren cs ph reps ctr).counter ∧
    HistOk (ph ++ (parseChildren cs ph reps ctr).parseHistory) ∧
    (∀ e ∈ (parseChildren cs ph reps ctr).parseHistory,
      EntryOk (parseChildren cs ph reps ctr).counter e) ∧
    FreshOk (parseChildren cs ph reps ctr).counter
      (ph ++ (parseChildren cs ph reps ctr).parseHistory) ∧
    RepsOk (ph ++ (parseChildren cs ph reps ctr).parseHistory)
      (parseChildren cs ph reps ctr).counter (parseChildren cs ph reps ctr).idReplacements ∧
    ((parseChildren cs ph reps ctr).textSegments.map Translatable._id).Sublist
      ((parseChildren cs ph reps ctr).parseHistory.filter (fun e => !isSentinel e)) := by
  match cs with
  | [] =>
    simp only [parseChildren]
    exact ⟨le_refl ctr, by simpa using hph, by simp, by simpa using hf,
      by simpa using (repsOk_mono (le_refl ctr) hr : RepsOk (ph ++ []) ctr reps), by simp⟩
  | c :: rest =>
    have hgc : goodMarkIds c = true := (goodMarkIdsList_cons hg).1
    have hgrest : goodMarkIdsList rest = true := (goodMarkIdsList_cons hg).2
    obtain ⟨h1, h2, h3, h4, h5, h6, _⟩ := parseNode_inv c ph reps ctr hgc hph hf hr
    obtain ⟨g1, g2, g3, g4, g5, g6⟩ :=
      parseChildren_inv rest (ph ++ (parseNode c ph reps ctr).parseHistory)
        (parseNode c ph reps ctr).idReplacements (parseNode c ph reps ctr).counter
        hgrest h2 h4 h5
    simp only [parseChildren]
    refine ⟨by omega, ?_, ?_, ?_, ?_, ?_⟩
    · rw [← List.append_assoc]
      exact g2
    · intro e he
      rcases List.mem_append.mp he with he | he
      · exact entryOk_mono g1 (h3 e he)
      · exact g3 e he
    · rw [← List.append_assoc]
      exact g4
    · intro kv hkv
      obtain ⟨hmem, hm⟩ := g5 kv hkv
      rw [List.append_assoc] at hmem
      exact ⟨hmem, hm⟩
    · rw [List.map_append, List.filter_append]
      exact h6.append g6
end

/-- C3 counterexample input: a paragraph whose marks carry the reserved id
`"blank"`, which the parse's duplicate check treats as always-fresh. -/
def c3Tree : JNode :=
  docNode [paragraphNode
    [rawLeaf " ", markedLeaf "blank" "b1", markedLeaf "other" "o",
     rawLeaf " ", markedLeaf "blank" "b2"]]

/-- C3 (counterexample): `parseEditorContent` can return two distinct segments
with the same `_id`: marks whose id is the reserved word `"blank"` pass
`requiresNewTextSegmentId` unchanged each time, so two separated `"blank"`
leaves yield the id sequence `["blank", "other", "blank"]`, which is not
pairwise distinct. -/
theorem parse_can_emit_duplicate_ids :
    ((parseEditorContent c3Tree 0).1.map Translatable._id)
        = ["blank", "other", "blank"] ∧
      ¬ ((parseEditorContent c3Tree 0).1.map Translatable._id).Nodup := by
  constructor
  · rfl
  · decide

/-- C3 (amended): if every mark id in the tree is an ordinary id (nonempty,
not starting with the generator's marker, and not one of the reserved words
`"blank"` and `"break"`), the segment list returned by `parseEditorContent`
has pairwise-distinct `_id` values. -/
theorem parse_good_tree_ids_nodup (T : JNode) (ctr : Nat)
    (hg : goodMarkIds T = true) :
    ((parseEditorContent T ctr).1.map Translatable._id).Nodup := by
  have hf : FreshOk ctr [] := by intro m _ hm; cases hm
  have hr : RepsOk [] ctr [] := by intro kv hkv; cases hkv
  obtain ⟨-, -, -, -, -, -, h7⟩ := parseNode_inv T [] [] ctr hg histOk_nil hf hr
  exact h7

theorem parse_good_tree_ids_nodup_witness :
    goodMarkIds (docNode [paragraphNode
        [markedLeaf "a" "Hi. ", markedLeaf "b" "there"]]) = true ∧
      ((parseEditorContent (docNode [paragraphNode
          [markedLeaf "a" "Hi. ", markedLeaf "b" "there"]]) 0).1.map
        Translatable._id).Nodup :=
  ⟨by decide, parse_good_tree_ids_nodup _ 0 (by decide)⟩

/-! ## C1: the sentence split loses no characters except pipes -/

/-- Concatenation of character-list pieces. -/
def joinPieces (ps : List (List Char)) : List Char :=
  ps.foldr (fun p acc => p ++ acc) []

/-- Concatenation of string pieces. -/
def joinStrings (ps : List String) : String :=
  ps.foldr (fun p acc => p ++ acc) ""

theorem joinStrings_map_mk (ps : List (List Char)) :
    joinStrings (ps.map (fun s => (⟨s⟩ : String))) = ⟨joinPieces ps⟩ := by
  induction ps with
  | nil => rfl
  | cons p rest ih =>
    show (⟨p⟩ : String) ++ joinStrings (rest.map _) = _
    rw [ih]
    rfl

theorem splitOnPipe_ne_nil (l : List Char) : splitOnPipe l ≠ [] := by
  induction l with
  | nil => simp [splitOnPipe]
  | cons c rest ih =>
    unfold splitOnPipe
    by_cases hc : c = '|'
    · simp [hc]
    · simp only [hc, if_false]
      cases h : splitOnPipe rest with
      | nil => simp
      | cons piece pieces => simp

theorem splitOnPipe_join (l : List Char) :
    joinPieces (splitOnPipe l) = l.filter (fun c => c ≠ '|') := by
  induction l with
  | nil => rfl
  | cons c rest ih =>
    unfold splitOnPipe
    by_cases hc : c = '|'
    · subst hc
      simp only [if_true, ite_true]
      show joinPieces (splitOnPipe rest) = _
      rw [ih, List.filter_cons]
      simp
    · simp only [hc, if_false, ite_false]
      cases h : splitOnPipe rest with
      | nil => exact absurd h (splitOnPipe_ne_nil rest)
      | cons piece pieces =>
        rw [h] at ih
        show c :: joinPieces (piece :: pieces) = _
        rw [List.filter_cons, ih]
        simp [hc]

theorem joinPieces_filter_nonempty (ps : List (List Char)) :
    joinPieces (ps.filter (fun s => 0 < s.length)) = joinPieces ps := by
  induction ps with
  | nil => rfl
  | cons p rest ih =>
    rw [List.filter_cons]
    by_cases hp : 0 < p.length
    · rw [if_pos (by simpa using hp)]
      show p ++ joinPieces (rest.filter _) = p ++ joinPieces rest
      rw [ih]
    · rw [if_neg (by simpa using hp)]
      have hpn : p = [] := List.eq_nil_of_length_eq_zero (by omega)
      subst hpn
      show joinPieces (rest.filter _) = [] ++ joinPieces rest
      rw [ih]
      rfl

theorem replaceSBFuel_filter_pipe (fuel : Nat) :
    ∀ l : List Char,
      (replaceSBFuel fuel l).filter (fun c => c ≠ '|')
        = l.filter (fun c => c ≠ '|') := by
  induction fuel with
  | zero => intro l; rfl
  | succ fuel ih =>
    intro l
    match l with
    | [] => rfl
    | c :: rest =>
      unfold replaceSBFuel
      by_cases hc : termChar c
      · simp only [hc, if_true, ite_true]
        by_cases hws :
            (((rest.dropWhile termChar).dropWhile quoteChar).dropWhile
              termChar).takeWhile jsWhitespace = []
        · simp only [hws, List.isEmpty_nil, if_true, ite_true]
          rw [List.filter_cons, List.filter_cons, ih rest]
        · have hne : ((((rest.dropWhile termChar).dropWhile quoteChar).dropWhile
              termChar).takeWhile jsWhitespace).isEmpty = false := by
            cases h : (((rest.dropWhile termChar).dropWhile quoteChar).dropWhile
              termChar).takeWhile jsWhitespace with
            | nil => exact absurd h hws
            | cons a b => rfl
          simp only [hne, Bool.false_eq_true, if_false, ite_false]
          conv_rhs =>
            rw [← List.takeWhile_append_dropWhile termChar rest,
              ← List.takeWhile_append_dropWhile quoteChar (rest.dropWhile termChar),
              ← List.takeWhile_append_dropWhile termChar
                ((rest.dropWhile termChar).dropWhile quoteChar),
              ← List.takeWhile_append_dropWhile jsWhitespace
                (((rest.dropWhile termChar).dropWhile quoteChar).dropWhile termChar)]
          simp only [List.filter_append, List.filter_cons]
          rw [ih]
          by_cases hcp : c = '|' <;> simp [hcp]
      · simp only [hc, Bool.false_eq_true, if_false, ite_false]
        rw [List.filter_cons, List.filter_cons, ih rest]

/-- On pipe-free input the sentence split is a partition: joining the pieces
returns the original string. -/
theorem splitStringIntoSentencesAndWhitespace_join (t : String)
    (h : ∀ c ∈ t.data, c ≠ '|') :
    joinStrings (splitStringIntoSentencesAndWhitespace t) = t := by
  unfold splitStringIntoSentencesAndWhitespace
  rw [joinStrings_map_mk, joinPieces_filter_nonempty, splitOnPipe_join,
    replaceSentenceBoundaries, replaceSBFuel_filter_pipe,
    List.filter_eq_self.mpr (fun c hc => by simpa using h c hc)]

/-- Every piece of the sentence split is a nonempty string. -/
theorem splitStringIntoSentencesAndWhitespace_ne_empty (t : String) :
    ∀ s ∈ splitStringIntoSentencesAndWhitespace t, s ≠ "" := by
  intro s hs
  unfold splitStringIntoSentencesAndWhitespace at hs
  obtain ⟨piece, hp, rfl⟩ := List.mem_map.mp hs
  have := List.of_mem_filter hp
  intro hemp
  have hd : piece = [] := by
    have : (⟨piece⟩ : String).data = ("" : String).data := by rw [hemp]
    simpa using this
  subst hd
  simp at this

/-- A nonempty string stays nonempty under right-concatenation. -/
theorem strAppend_ne_empty_left (a b : String) (ha : a ≠ "") : a ++ b ≠ "" := by
  intro hc
  apply ha
  have hd : a.data ++ b.data = [] := by
    have := congrArg String.data hc
    simpa using this
  rcases List.append_eq_nil.mp hd with ⟨h1, _⟩
  cases a
  exact congrArg String.mk h1

/-- Collapsing adjacent segments with equal ids by concatenating their texts
(a right fold); the specification that `mergeTextSegmentsWithSameId`
realises on truthy inputs. -/
def collapseSegs : List Translatable → List Translatable
  | [] => []
  | t :: rest =>
    match collapseSegs rest with
    | [] => [t]
    | u :: us =>
      if u._id = t._id then ⟨t._id, t.srcText ++ u.srcText⟩ :: us else t :: u :: us

theorem collapseSegs_ne_nil (x : Translatable) (rest : List Translatable) :
    collapseSegs (x :: rest) ≠ [] := by
  unfold collapseSegs
  cases collapseSegs rest with
  | nil => simp
  | cons u us =>
    by_cases h : u._id = x._id <;> simp [h]

theorem collapseSegs_head_id (x : Translatable) (rest : List Translatable)
    {u : Translatable} {us : List Translatable}
    (h : collapseSegs (x :: rest) = u :: us) : u._id = x._id := by
  have h2 := h
  unfold collapseSegs at h2
  revert h2
  cases collapseSegs rest with
  | nil => intro h2; cases h2; rfl
  | cons v vs =>
    dsimp only
    by_cases hv : v._id = x._id
    · rw [if_pos hv]
      intro h2
      cases h2
      rfl
    · rw [if_neg hv]
      intro h2
      cases h2
      rfl

theorem collapseSegs_cons_nil (t : Translatable) (rest : List Translatable)
    (h : collapseSegs rest = []) : collapseSegs (t :: rest) = [t] := by
  unfold collapseSegs
  rw [h]

theorem collapseSegs_cons_eq (t u : Translatable) (us rest : List Translatable)
    (h : collapseSegs rest = u :: us) (he : u._id = t._id) :
    collapseSegs (t :: rest) = (⟨t._id, t.srcText ++ u.srcText⟩ : Translatable) :: us := by
  unfold collapseSegs
  rw [h]
  dsimp only
  rw [if_pos he]

theorem collapseSegs_cons_ne (t u : Translatable) (us rest : List Translatable)
    (h : collapseSegs rest = u :: us) (hne : u._id ≠ t._id) :
    collapseSegs (t :: rest) = t :: u :: us := by
  unfold collapseSegs
  rw [h]
  dsimp only
  rw [if_neg hne]

theorem mergeGo_collapseSegs :
    ∀ (rest : List Translatable) (x : Translatable) (i tx : String),
      i ≠ "" → tx ≠ "" → (∀ t ∈ x :: rest, t._id ≠ "" ∧ t.srcText ≠ "") →
      ∀ (u : Translatable) (us : List Translatable),
        collapseSegs (x :: rest) = u :: us →
        mergeGo (some i) (some tx) (x :: rest)
          = if u._id = i then (⟨i, tx ++ u.srcText⟩ : Translatable) :: us
            else (⟨i, tx⟩ : Translatable) :: u :: us := by
  intro rest
  induction rest with
  | nil =>
    intro x i tx hi htx hall u us h
    rw [collapseSegs_cons_nil x [] rfl] at h
    injection h with h1 h2
    subst h1
    subst h2
    by_cases hx : x._id = i
    · rw [← hx, mergeGo_cont_nil]
      have hts : jsTruthyStr (some ((some tx).getD "" ++ x.srcText)) = true := by
        simp only [jsTruthyStr, Option.getD_some]
        simpa using strAppend_ne_empty_left tx x.srcText htx
      rw [if_pos hts, if_pos rfl]
      simp
    · rw [mergeGo_push_nil (by simpa using fun h => hx h)]
      have h1 : (jsTruthyStr (some tx) && jsTruthyStr (some i)) = true := by
        simp [jsTruthyStr, hi, htx]
      have h2 : jsTruthyStr (some x.srcText) = true := by
        simp [jsTruthyStr, (hall x (by simp)).2]
      rw [if_pos h1, if_pos h2, if_neg hx]
      rfl
  | cons y rest2 ih =>
    intro x i tx hi htx hall u us h
    have hally : ∀ t ∈ y :: rest2, t._id ≠ "" ∧ t.srcText ≠ "" := by
      intro t ht
      exact hall t (by simp [ht, List.mem_cons])
    cases hcy : collapseSegs (y :: rest2) with
    | nil => exact absurd hcy (collapseSegs_ne_nil y rest2)
    | cons v vs =>
      by_cases hx : x._id = i
      · rw [← hx, mergeGo_cont_cons]
        have hx1 : x._id ≠ "" := (hall x (by simp)).1
        have htx2 : (some tx).getD "" ++ x.srcText ≠ "" := by
          simpa using strAppend_ne_empty_left tx x.srcText htx
        rw [ih y x._id ((some tx).getD "" ++ x.srcText) hx1 htx2 hally v vs hcy]
        by_cases hv : v._id = x._id
        · have hu := (collapseSegs_cons_eq x v vs (y :: rest2) hcy hv).symm.trans h
          injection hu with h1 h2
          subst h2
          rw [← h1]
          rw [if_pos hv, if_pos rfl]
          simp [String.append_assoc]
        · have hu := (collapseSegs_cons_ne x v vs (y :: rest2) hcy hv).symm.trans h
          injection hu with h1 h2
          subst h2
          rw [← h1]
          rw [if_neg hv, if_pos rfl]
          simp
      · rw [mergeGo_push_cons (by simpa using fun h => hx h)]
        have h1 : (jsTruthyStr (some tx) && jsTruthyStr (some i)) = true := by
          simp [jsTruthyStr, hi, htx]
        rw [if_pos h1]
        have hx1 : x._id ≠ "" := (hall x (by simp)).1
        have hx2 : x.srcText ≠ "" := (hall x (by simp)).2
        rw [ih y x._id x.srcText hx1 hx2 hally v vs hcy]
        by_cases hv : v._id = x._id
        · have hu := (collapseSegs_cons_eq x v vs (y :: rest2) hcy hv).symm.trans h
          injection hu with h1 h2
          subst h2
          rw [← h1]
          have : (⟨x._id, x.srcText ++ v.srcText⟩ : Translatable)._id ≠ i := by
            simpa using hx
          rw [if_pos hv, if_neg this]
          rfl
        · have hu := (collapseSegs_cons_ne x v vs (y :: rest2) hcy hv).symm.trans h
          injection hu with h1 h2
          subst h2
          rw [← h1]
          rw [if_neg hv, if_neg hx]
          rfl

/-- On lists of truthy segments, `mergeTextSegmentsWithSameId` is exactly
the adjacent-run collapse. -/
theorem mergeTextSegments_collapse (l : List Translatable)
    (hall : ∀ t ∈ l, t._id ≠ "" ∧ t.srcText ≠ "") :
    mergeTextSegmentsWithSameId l = collapseSegs l := by
  match l with
  | [] => rfl
  | x :: rest =>
    show mergeGo none none (x :: rest) = _
    match rest with
    | [] =>
      rw [mergeGo_push_nil (by simp)]
      have h2 : jsTruthyStr (some x.srcText) = true := by
        simp [jsTruthyStr, (hall x (by simp)).2]
      rw [if_pos h2, if_neg (by simp [jsTruthyStr]), collapseSegs_cons_nil x [] rfl]
      rfl
    | y :: rest2 =>
      rw [mergeGo_push_cons (by simp), if_neg (by simp [jsTruthyStr])]
      have hx1 : x._id ≠ "" := (hall x (by simp)).1
      have hx2 : x.srcText ≠ "" := (hall x (by simp)).2
      cases hcy : collapseSegs (y :: rest2) with
      | nil => exact absurd hcy (collapseSegs_ne_nil y rest2)
      | cons v vs =>
        rw [mergeGo_collapseSegs rest2 y x._id x.srcText hx1 hx2
          (fun t ht => hall t (by simp [ht, List.mem_cons])) v vs hcy]
        by_cases hv : v._id = x._id
        · rw [collapseSegs_cons_eq x v vs (y :: rest2) hcy hv, if_pos hv]
          rfl
        · rw [collapseSegs_cons_ne x v vs (y :: rest2) hcy hv, if_neg hv]
          rfl

/-- The adjacent-run collapse is the identity on adjacent-distinct lists. -/
theorem collapseSegs_eq_self (l : List Translatable)
    (hc : List.Chain' (fun a b => a._id ≠ b._id) l) : collapseSegs l = l := by
  induction l with
  | nil => rfl
  | cons x rest ih =>
    have hrest := List.Chain'.tail hc
    cases rest with
    | nil => rfl
    | cons y rest2 =>
      have hxy : x._id ≠ y._id := (List.chain'_cons.mp hc).1
      cases hcy : collapseSegs (y :: rest2) with
      | nil => exact absurd hcy (collapseSegs_ne_nil y rest2)
      | cons v vs =>
        have hcr := ih hrest
        rw [hcy] at hcr
        have hvy : v._id = y._id := collapseSegs_head_id y rest2 hcy
        have hvx : v._id ≠ x._id := by
          rw [hvy]
          exact fun hcontra => hxy hcontra.symm
        rw [collapseSegs_cons_ne x v vs (y :: rest2) hcy hvx, hcr]

/-- `mergeTextSegmentsWithSameId` keeps a truthy adjacent-distinct list
unchanged. -/
theorem mergeTextSegments_eq_self (l : List Translatable)
    (hall : ∀ t ∈ l, t._id ≠ "" ∧ t.srcText ≠ "")
    (hc : List.Chain' (fun a b => a._id ≠ b._id) l) :
    mergeTextSegmentsWithSameId l = l := by
  rw [mergeTextSegments_collapse l hall, collapseSegs_eq_self l hc]

/-! ## C1: itemised view of one flat run of parsed inline leaves -/

/-- A flattened inline item produced by the parse pass: a literal
(whitespace) skeleton leaf, or a reference to an emitted segment. -/
inductive PItem where
  | lit (type attrs : Option String) (s : String)
  | ref (type attrs : Option String) (id s : String)
  deriving Repr, DecidableEq

def itemSegs : PItem → List Translatable
  | PItem.lit _ _ _ => []
  | PItem.ref _ _ id s => [⟨id, s⟩]

def itemsSegs : List PItem → List Translatable
  | [] => []
  | it :: rest => itemSegs it ++ itemsSegs rest

def itemStruct : PItem → JNode
  | PItem.lit ty attrs s => JNode.mk ty attrs (some s) none none none
  | PItem.ref ty attrs id _ => JNode.mk ty attrs none none (some id) none

def itemsStructs : List PItem → List JNode
  | [] => []
  | it :: rest => itemStruct it :: itemsStructs rest

def itemHist : PItem → String
  | PItem.lit _ _ _ => "blank"
  | PItem.ref _ _ id _ => id

def itemsHist : List PItem → List String
  | [] => []
  | it :: rest => itemHist it :: itemsHist rest

def itemText : PItem → String
  | PItem.lit _ _ s => s
  | PItem.ref _ _ _ s => s

def itemsText : List PItem → String
  | [] => ""
  | it :: rest => itemText it ++ itemsText rest

/-- The side conditions on a run of items: reference ids are ordinary
(non-sentinel, truthy) and all texts are nonempty. -/
def ItemsRefOk (items : List PItem) : Prop :=
  ∀ ty attrs id s, PItem.ref ty attrs id s ∈ items →
    isSentinel id = false ∧ id ≠ ""

def ItemsTextOk (items : List PItem) : Prop :=
  ∀ it ∈ items, itemText it ≠ ""

/-- Collapse adjacent references with equal ids into one reference carrying
the concatenated text (keeping the first reference's node metadata): the
joint effect of `mergeTextSegmentsWithSameId` on the segments and
`removeDuplicateTextNodes` on the skeleton leaves. -/
def collapseItems : List PItem → List PItem
  | [] => []
  | PItem.lit ty attrs s :: rest => PItem.lit ty attrs s :: collapseItems rest
  | PItem.ref ty attrs id s :: rest =>
    match collapseItems rest with
    | PItem.ref _ _ id2 s2 :: r =>
      if id2 = id then PItem.ref ty attrs id (s ++ s2) :: r
      else PItem.ref ty attrs id s :: collapseItems rest
    | _ => PItem.ref ty attrs id s :: collapseItems rest

theorem collapseItems_lit_cons (ty attrs : Option String) (s : String)
    (rest : List PItem) :
    collapseItems (PItem.lit ty attrs s :: rest)
      = PItem.lit ty attrs s :: collapseItems rest := rfl

theorem collapseItems_ref_merge {ty2 attrs2 : Option String} {id2 s2 : String}
    {r rest : List PItem} (ty attrs : Option String) (id s : String)
    (h : collapseItems rest = PItem.ref ty2 attrs2 id2 s2 :: r) (he : id2 = id) :
    collapseItems (PItem.ref ty attrs id s :: rest)
      = PItem.ref ty attrs id (s ++ s2) :: r := by
  conv_lhs => unfold collapseItems
  rw [h]
  dsimp only
  rw [if_pos he]

theorem collapseItems_ref_keep {ty2 attrs2 : Option String} {id2 s2 : String}
    {r rest : List PItem} (ty attrs : Option String) (id s : String)
    (h : collapseItems rest = PItem.ref ty2 attrs2 id2 s2 :: r) (hne : id2 ≠ id) :
    collapseItems (PItem.ref ty attrs id s :: rest)
      = PItem.ref ty attrs id s :: collapseItems rest := by
  conv_lhs => unfold collapseItems
  rw [h]
  dsimp only
  rw [if_neg hne, ← h]

theorem collapseItems_ref_nil {rest : List PItem} (ty attrs : Option String)
    (id s : String) (h : collapseItems rest = []) :
    collapseItems (PItem.ref ty attrs id s :: rest)
      = [PItem.ref ty attrs id s] := by
  conv_lhs => unfold collapseItems
  rw [h]

theorem collapseItems_ref_lit {ty2 attrs2 : Option String} {s2 : String}
    {r rest : List PItem} (ty attrs : Option String) (id s : String)
    (h : collapseItems rest = PItem.lit ty2 attrs2 s2 :: r) :
    collapseItems (PItem.ref ty attrs id s :: rest)
      = PItem.ref ty attrs id s :: collapseItems rest := by
  conv_lhs => unfold collapseItems
  rw [h]

theorem collapseItems_eq_nil {items : List PItem}
    (h : collapseItems items = []) : items = [] := by
  match items with
  | [] => rfl
  | PItem.lit ty attrs s :: rest =>
    rw [collapseItems_lit_cons] at h
    cases h
  | PItem.ref ty attrs id s :: rest =>
    exfalso
    cases hcr : collapseItems rest with
    | nil => rw [collapseItems_ref_nil ty attrs id s hcr] at h; cases h
    | cons it2 r =>
      cases it2 with
      | lit ty2 attrs2 s2 =>
        rw [collapseItems_ref_lit ty attrs id s hcr] at h
        cases h
      | ref ty2 attrs2 id2 s2 =>
        by_cases he : id2 = id
        · rw [collapseItems_ref_merge ty attrs id s hcr he] at h; cases h
        · rw [collapseItems_ref_keep ty attrs id s hcr he] at h; cases h

theorem itemsText_collapse (items : List PItem) :
    itemsText (collapseItems items) = itemsText items := by
  match items with
  | [] => rfl
  | PItem.lit ty attrs s :: rest =>
    rw [collapseItems_lit_cons]
    show s ++ itemsText (collapseItems rest) = s ++ itemsText rest
    rw [itemsText_collapse rest]
  | PItem.ref ty attrs id s :: rest =>
    have ih := itemsText_collapse rest
    cases hcr : collapseItems rest with
    | nil =>
      rw [collapseItems_ref_nil ty attrs id s hcr]
      rw [hcr] at ih
      show s ++ "" = s ++ itemsText rest
      rw [← ih]
      rfl
    | cons it2 rr =>
      cases it2 with
      | lit ty2 attrs2 s2 =>
        rw [collapseItems_ref_lit ty attrs id s hcr]
        show s ++ itemsText (collapseItems rest) = s ++ itemsText rest
        rw [ih]
      | ref ty2 attrs2 id2 s2 =>
        by_cases he : id2 = id
        · rw [collapseItems_ref_merge ty attrs id s hcr he]
          rw [hcr] at ih
          show (s ++ s2) ++ itemsText rr = s ++ itemsText rest
          rw [← ih]
          show (s ++ s2) ++ itemsText rr = s ++ (s2 ++ itemsText rr)
          rw [String.append_assoc]
        · rw [collapseItems_ref_keep ty attrs id s hcr he]
          show s ++ itemsText (collapseItems rest) = s ++ itemsText rest
          rw [ih]

/-- Left-to-right run skipper: drops a leading run of references with the
given id (the references that `removeDuplicateTextNodes` deletes after
keeping the first one). -/
def dropRun (a : String) : List PItem → List PItem
  | [] => []
  | PItem.lit ty attrs s :: rest => PItem.lit ty attrs s :: rest
  | PItem.ref ty attrs id s :: rest =>
    if id = a then dropRun a rest else PItem.ref ty attrs id s :: rest

theorem dropRun_ref_eq (a : String) (ty attrs : Option String) (s : String)
    (rest : List PItem) :
    dropRun a (PItem.ref ty attrs a s :: rest) = dropRun a rest := by
  conv_lhs => unfold dropRun
  rw [if_pos rfl]

theorem dropRun_ref_ne (a : String) (ty attrs : Option String) (id s : String)
    (rest : List PItem) (h : id ≠ a) :
    dropRun a (PItem.ref ty attrs id s :: rest) = PItem.ref ty attrs id s :: rest := by
  conv_lhs => unfold dropRun
  rw [if_neg h]

theorem collapseItems_ref_run (rest : List PItem) (ty attrs : Option String)
    (a s : String) :
    ∃ T, collapseItems (PItem.ref ty attrs a s :: rest)
      = PItem.ref ty attrs a T :: collapseItems (dropRun a rest) := by
  match rest with
  | [] =>
    refine ⟨s, ?_⟩
    rw [collapseItems_ref_nil ty attrs a s (rfl : collapseItems [] = [])]
    rfl
  | PItem.lit ty2 attrs2 s2 :: rest2 =>
    refine ⟨s, ?_⟩
    rw [collapseItems_ref_lit ty attrs a s (collapseItems_lit_cons ty2 attrs2 s2 rest2)]
    rfl
  | PItem.ref ty2 attrs2 b s2 :: rest2 =>
    obtain ⟨T2, hT2⟩ := collapseItems_ref_run rest2 ty2 attrs2 b s2
    by_cases hb : b = a
    · subst hb
      refine ⟨s ++ T2, ?_⟩
      rw [collapseItems_ref_merge ty attrs b s hT2 rfl, dropRun_ref_eq]
    · refine ⟨s, ?_⟩
      rw [collapseItems_ref_keep ty attrs a s hT2 hb, dropRun_ref_ne a ty2 attrs2 b s2 rest2 hb]

theorem segIds_sublist_itemsHist (items : List PItem) :
    ((itemsSegs items).map Translatable._id).Sublist (itemsHist items) := by
  induction items with
  | nil => simp [itemsSegs, itemsHist]
  | cons it rest ih =>
    cases it with
    | lit ty attrs s =>
      show ((itemsSegs rest).map Translatable._id).Sublist ("blank" :: itemsHist rest)
      exact ih.trans (List.sublist_cons_self _ _)
    | ref ty attrs id s =>
      show (id :: (itemsSegs rest).map Translatable._id).Sublist (id :: itemsHist rest)
      exact List.Sublist.cons₂ id ih

/-- The adjacency condition: no two consecutive items are references with
the same id. -/
def itemRel : PItem → PItem → Prop := fun a b =>
  match a, b with
  | PItem.ref _ _ i _, PItem.ref _ _ j _ => i ≠ j
  | _, _ => True

def AdjOk (items : List PItem) : Prop := List.Chain' itemRel items

theorem itemRel_of_lit {ty attrs : Option String} {s : String} (b : PItem) :
    itemRel (PItem.lit ty attrs s) b := by
  cases b <;> trivial

theorem itemRel_ref_congr {ty ty2 attrs attrs2 : Option String}
    {id s s2 : String} (b : PItem)
    (h : itemRel (PItem.ref ty attrs id s) b) :
    itemRel (PItem.ref ty2 attrs2 id s2) b := by
  cases b with
  | lit _ _ _ => trivial
  | ref _ _ j _ => exact h

theorem collapseItems_adjOk (items : List PItem) :
    AdjOk (collapseItems items) := by
  match items with
  | [] => exact List.chain'_nil
  | PItem.lit ty attrs s :: rest =>
    rw [collapseItems_lit_cons]
    refine List.chain'_cons'.mpr ⟨?_, collapseItems_adjOk rest⟩
    intro b _
    exact itemRel_of_lit b
  | PItem.ref ty attrs id s :: rest =>
    have ih := collapseItems_adjOk rest
    cases hcr : collapseItems rest with
    | nil =>
      rw [collapseItems_ref_nil ty attrs id s hcr]
      exact List.chain'_singleton _
    | cons it2 rr =>
      rw [hcr] at ih
      cases it2 with
      | lit ty2 attrs2 s2 =>
        rw [collapseItems_ref_lit ty attrs id s hcr, hcr]
        refine List.chain'_cons.mpr ⟨trivial, ih⟩
      | ref ty2 attrs2 id2 s2 =>
        by_cases he : id2 = id
        · rw [collapseItems_ref_merge ty attrs id s hcr he]
          refine List.chain'_cons'.mpr ⟨?_, (List.chain'_cons'.mp ih).2⟩
          intro b hb
          have hrel := (List.chain'_cons'.mp ih).1 b hb
          subst he
          exact itemRel_ref_congr b hrel
        · rw [collapseItems_ref_keep ty attrs id s hcr he, hcr]
          refine List.chain'_cons.mpr ⟨fun hcontra => he hcontra.symm, ih⟩

theorem itemsRefOk_tail {it : PItem} {rest : List PItem}
    (h : ItemsRefOk (it :: rest)) : ItemsRefOk rest := by
  intro ty attrs id s hmem
  exact h ty attrs id s (List.mem_cons_of_mem it hmem)

theorem histOk_itemsHist_tail {it : PItem} {rest : List PItem}
    (h : HistOk (itemsHist (it :: rest))) : HistOk (itemsHist rest) :=
  histOk_sublist (List.sublist_cons_self _ _) h

/-- Under a well-formed history, the reference ids of an adjacent-distinct
item run are pairwise distinct. -/
theorem segIds_nodup (items : List PItem) (hph : HistOk (itemsHist items))
    (hadj : AdjOk items) (href : ItemsRefOk items) :
    ((itemsSegs items).map Translatable._id).Nodup := by
  match items with
  | [] => simp [itemsSegs]
  | PItem.lit ty attrs s :: rest =>
    show ((itemsSegs rest).map Translatable._id).Nodup
    exact segIds_nodup rest (histOk_itemsHist_tail hph) (List.Chain'.tail hadj)
      (itemsRefOk_tail href)
  | PItem.ref ty attrs id s :: rest =>
    show (id :: (itemsSegs rest).map Translatable._id).Nodup
    rw [List.nodup_cons]
    refine ⟨?_, segIds_nodup rest (histOk_itemsHist_tail hph) (List.Chain'.tail hadj)
      (itemsRefOk_tail href)⟩
    intro hmem
    have hns : isSentinel id = false :=
      (href ty attrs id s (List.mem_cons_self _ _)).1
    have hhist : id ∈ itemsHist rest :=
      (segIds_sublist_itemsHist rest).mem hmem
    match rest with
    | [] => cases hhist
    | it2 :: rest2 =>
      by_cases hh : itemHist it2 = id
      · cases it2 with
        | lit ty2 attrs2 s2 =>
          have : isSentinel id = true := by
            rw [← hh]
            rfl
          rw [this] at hns
          cases hns
        | ref ty2 attrs2 id2 s2 =>
          have hrel : id ≠ id2 := List.chain'_cons.mp hadj |>.1
          exact hrel (hh.symm)
      · have hmem2 : id ∈ itemsHist rest2 := by
          cases List.mem_cons.mp hhist with
          | inl h => exact absurd h.symm hh
          | inr h => exact h
        have hsub : List.Sublist [id, itemHist it2, id]
            (itemsHist (PItem.ref ty attrs id s :: it2 :: rest2)) := by
          show List.Sublist [id, itemHist it2, id]
            (id :: itemHist it2 :: itemsHist rest2)
          exact List.Sublist.cons₂ id (List.Sublist.cons₂ (itemHist it2)
            (List.singleton_sublist.mpr hmem2))
        exact hph id (itemHist it2) hns hh hsub

theorem collapseItems_lit_mem {items : List PItem} {ty attrs : Option String}
    {s : String} (h : PItem.lit ty attrs s ∈ collapseItems items) :
    PItem.lit ty attrs s ∈ items := by
  match items with
  | [] => cases h
  | PItem.lit ty0 attrs0 s0 :: rest =>
    rw [collapseItems_lit_cons] at h
    cases List.mem_cons.mp h with
    | inl heq => rw [heq]; exact List.mem_cons_self _ _
    | inr hmem => exact List.mem_cons_of_mem _ (collapseItems_lit_mem hmem)
  | PItem.ref ty0 attrs0 id0 s0 :: rest =>
    cases hcr : collapseItems rest with
    | nil =>
      rw [collapseItems_ref_nil ty0 attrs0 id0 s0 hcr] at h
      rcases List.mem_singleton.mp h with h2
      cases h2
    | cons it2 rr =>
      cases it2 with
      | lit ty2 attrs2 s2 =>
        rw [collapseItems_ref_lit ty0 attrs0 id0 s0 hcr] at h
        cases List.mem_cons.mp h with
        | inl heq => cases heq
        | inr hmem => exact List.mem_cons_of_mem _ (collapseItems_lit_mem hmem)
      | ref ty2 attrs2 id2 s2 =>
        by_cases he : id2 = id0
        · rw [collapseItems_ref_merge ty0 attrs0 id0 s0 hcr he] at h
          cases List.mem_cons.mp h with
          | inl heq => cases heq
          | inr hmem =>
            have : PItem.lit ty attrs s ∈ collapseItems rest := by
              rw [hcr]
              exact List.mem_cons_of_mem _ hmem
            exact List.mem_cons_of_mem _ (collapseItems_lit_mem this)
        · rw [collapseItems_ref_keep ty0 attrs0 id0 s0 hcr he] at h
          cases List.mem_cons.mp h with
          | inl heq => cases heq
          | inr hmem => exact List.mem_cons_of_mem _ (collapseItems_lit_mem hmem)

theorem collapseItems_ref_ids {items : List PItem} {ty attrs : Option String}
    {id s : String} (h : PItem.ref ty attrs id s ∈ collapseItems items) :
    ∃ ty0 attrs0 s0, PItem.ref ty0 attrs0 id s0 ∈ items := by
  match items with
  | [] => cases h
  | PItem.lit ty0 attrs0 s0 :: rest =>
    rw [collapseItems_lit_cons] at h
    cases List.mem_cons.mp h with
    | inl heq => cases heq
    | inr hmem =>
      obtain ⟨a, b, c, hm⟩ := collapseItems_ref_ids hmem
      exact ⟨a, b, c, List.mem_cons_of_mem _ hm⟩
  | PItem.ref ty0 attrs0 id0 s0 :: rest =>
    cases hcr : collapseItems rest with
    | nil =>
      rw [collapseItems_ref_nil ty0 attrs0 id0 s0 hcr] at h
      have h2 := List.mem_singleton.mp h
      injection h2 with e1 e2 e3 e4
      subst e3
      exact ⟨ty0, attrs0, s0, List.mem_cons_self _ _⟩
    | cons it2 rr =>
      cases it2 with
      | lit ty2 attrs2 s2 =>
        rw [collapseItems_ref_lit ty0 attrs0 id0 s0 hcr] at h
        cases List.mem_cons.mp h with
        | inl heq =>
          injection heq with e1 e2 e3 e4
          subst e3
          exact ⟨ty0, attrs0, s0, List.mem_cons_self _ _⟩
        | inr hmem =>
          obtain ⟨a, b, c, hm⟩ := collapseItems_ref_ids hmem
          exact ⟨a, b, c, List.mem_cons_of_mem _ hm⟩
      | ref ty2 attrs2 id2 s2 =>
        by_cases he : id2 = id0
        · rw [collapseItems_ref_merge ty0 attrs0 id0 s0 hcr he] at h
          cases List.mem_cons.mp h with
          | inl heq =>
            injection heq with e1 e2 e3 e4
            subst e3
            exact ⟨ty0, attrs0, s0, List.mem_cons_self _ _⟩
          | inr hmem =>
            have : PItem.ref ty attrs id s ∈ collapseItems rest := by
              rw [hcr]
              exact List.mem_cons_of_mem _ hmem
            obtain ⟨a, b, c, hm⟩ := collapseItems_ref_ids this
            exact ⟨a, b, c, List.mem_cons_of_mem _ hm⟩
        · rw [collapseItems_ref_keep ty0 attrs0 id0 s0 hcr he] at h
          cases List.mem_cons.mp h with
          | inl heq =>
            injection heq with e1 e2 e3 e4
            subst e3
            exact ⟨ty0, attrs0, s0, List.mem_cons_self _ _⟩
          | inr hmem =>
            obtain ⟨a, b, c, hm⟩ := collapseItems_ref_ids hmem
            exact ⟨a, b, c, List.mem_cons_of_mem _ hm⟩

theorem itemsRefOk_collapse {items : List PItem} (h : ItemsRefOk items) :
    ItemsRefOk (collapseItems items) := by
  intro ty attrs id s hmem
  obtain ⟨a, b, c, hm⟩ := collapseItems_ref_ids hmem
  exact h a b id c hm

theorem itemsTextOk_collapse {items : List PItem} (h : ItemsTextOk items) :
    ItemsTextOk (collapseItems items) := by
  match items with
  | [] => intro it hmem; cases hmem
  | PItem.lit ty attrs s :: rest =>
    rw [collapseItems_lit_cons]
    intro it hmem
    cases List.mem_cons.mp hmem with
    | inl heq => rw [heq]; exact h _ (List.mem_cons_self _ _)
    | inr hm =>
      exact itemsTextOk_collapse (fun x hx => h x (List.mem_cons_of_mem _ hx)) it hm
  | PItem.ref ty attrs id s :: rest =>
    have htail : ItemsTextOk rest := fun x hx => h x (List.mem_cons_of_mem _ hx)
    have hs : s ≠ "" := h (PItem.ref ty attrs id s) (List.mem_cons_self _ _)
    cases hcr : collapseItems rest with
    | nil =>
      rw [collapseItems_ref_nil ty attrs id s hcr]
      intro it hmem
      rw [List.mem_singleton.mp hmem]
      exact hs
    | cons it2 rr =>
      have hcoll := itemsTextOk_collapse htail
      rw [hcr] at hcoll
      cases it2 with
      | lit ty2 attrs2 s2 =>
        rw [collapseItems_ref_lit ty attrs id s hcr, hcr]
        intro it hmem
        cases List.mem_cons.mp hmem with
        | inl heq => rw [heq]; exact hs
        | inr hm => exact hcoll it hm
      | ref ty2 attrs2 id2 s2 =>
        by_cases he : id2 = id
        · rw [collapseItems_ref_merge ty attrs id s hcr he]
          intro it hmem
          cases List.mem_cons.mp hmem with
          | inl heq =>
            rw [heq]
            show s ++ s2 ≠ ""
            exact strAppend_ne_empty_left s s2 hs
          | inr hm => exact hcoll it (List.mem_cons_of_mem _ hm)
        · rw [collapseItems_ref_keep ty attrs id s hcr he, hcr]
          intro it hmem
          cases List.mem_cons.mp hmem with
          | inl heq => rw [heq]; exact hs
          | inr hm => exact hcoll it hm

theorem collapseItems_head_lit {items r : List PItem} {ty attrs : Option String}
    {s : String} (h : collapseItems items = PItem.lit ty attrs s :: r) :
    ∃ rest, items = PItem.lit ty attrs s :: rest := by
  match items with
  | [] => cases h
  | PItem.lit ty0 attrs0 s0 :: rest =>
    rw [collapseItems_lit_cons] at h
    injection h with h1 h2
    cases h1
    exact ⟨rest, rfl⟩
  | PItem.ref ty0 attrs0 id0 s0 :: rest =>
    exfalso
    cases hcr : collapseItems rest with
    | nil =>
      rw [collapseItems_ref_nil ty0 attrs0 id0 s0 hcr] at h
      injection h with h1
      cases h1
    | cons it2 rr =>
      cases it2 with
      | lit ty2 attrs2 s2 =>
        rw [collapseItems_ref_lit ty0 attrs0 id0 s0 hcr] at h
        injection h with h1
        cases h1
      | ref ty2 attrs2 id2 s2 =>
        by_cases he : id2 = id0
        · rw [collapseItems_ref_merge ty0 attrs0 id0 s0 hcr he] at h
          injection h with h1
          cases h1
        · rw [collapseItems_ref_keep ty0 attrs0 id0 s0 hcr he] at h
          injection h with h1
          cases h1

/-- Collapsing items commutes with collapsing their segment projection:
under a well-formed history no two references with the same id are
separated by literals alone, so adjacent equal-id segments always come
from adjacent references. -/
theorem itemsSegs_collapse (items : List PItem) (hph : HistOk (itemsHist items))
    (href : ItemsRefOk items) :
    itemsSegs (collapseItems items) = collapseSegs (itemsSegs items) := by
  match items with
  | [] => rfl
  | PItem.lit ty attrs s :: rest =>
    rw [collapseItems_lit_cons]
    show itemsSegs (collapseItems rest) = collapseSegs (itemsSegs rest)
    exact itemsSegs_collapse rest (histOk_itemsHist_tail hph) (itemsRefOk_tail href)
  | PItem.ref ty attrs id s :: rest =>
    have ih := itemsSegs_collapse rest (histOk_itemsHist_tail hph) (itemsRefOk_tail href)
    have hns : isSentinel id = false := (href ty attrs id s (List.mem_cons_self _ _)).1
    cases hcr : collapseItems rest with
    | nil =>
      have hrest : rest = [] := collapseItems_eq_nil hcr
      subst hrest
      rw [collapseItems_ref_nil ty attrs id s hcr]
      rfl
    | cons it2 rr =>
      cases it2 with
      | lit ty2 attrs2 s2 =>
        rw [collapseItems_ref_lit ty attrs id s hcr]
        show (⟨id, s⟩ : Translatable) :: itemsSegs (collapseItems rest)
          = collapseSegs ((⟨id, s⟩ : Translatable) :: itemsSegs rest)
        rw [ih]
        cases hs : collapseSegs (itemsSegs rest) with
        | nil =>
          rw [collapseSegs_cons_nil _ _ hs]
        | cons u us =>
          have hune : u._id ≠ (⟨id, s⟩ : Translatable)._id := by
            intro heq
            obtain ⟨rest2, hrest⟩ := collapseItems_head_lit hcr
            subst hrest
            have hsr2 : itemsSegs (PItem.lit ty2 attrs2 s2 :: rest2)
                = itemsSegs rest2 := rfl
            rw [hsr2] at hs
            cases hsr : itemsSegs rest2 with
            | nil => rw [hsr] at hs; cases hs
            | cons w ws =>
              rw [hsr] at hs
              have hw : u._id = w._id := collapseSegs_head_id w ws hs
              have hwmem : w._id ∈ itemsHist rest2 := by
                refine (segIds_sublist_itemsHist rest2).mem ?_
                rw [hsr]
                exact List.mem_cons_self _ _
              have hwid : w._id = id := by
                rw [← hw, heq]
              rw [hwid] at hwmem
              have hsub : List.Sublist [id, "blank", id]
                  (itemsHist (PItem.ref ty attrs id s ::
                    PItem.lit ty2 attrs2 s2 :: rest2)) := by
                show List.Sublist [id, "blank", id]
                  (id :: "blank" :: itemsHist rest2)
                exact List.Sublist.cons₂ id (List.Sublist.cons₂ "blank"
                  (List.singleton_sublist.mpr hwmem))
              have hbid : "blank" ≠ id := by
                intro hcontra
                rw [← hcontra] at hns
                exact absurd hns (by decide)
              exact hph id "blank" hns hbid hsub
          rw [collapseSegs_cons_ne ⟨id, s⟩ u us (itemsSegs rest) hs hune]
      | ref ty2 attrs2 id2 s2 =>
        have h2 : collapseSegs (itemsSegs rest)
            = (⟨id2, s2⟩ : Translatable) :: itemsSegs rr := by
          rw [← ih, hcr]
          rfl
        by_cases he : id2 = id
        · rw [collapseItems_ref_merge ty attrs id s hcr he]
          show (⟨id, s ++ s2⟩ : Translatable) :: itemsSegs rr
            = collapseSegs ((⟨id, s⟩ : Translatable) :: itemsSegs rest)
          rw [collapseSegs_cons_eq ⟨id, s⟩ ⟨id2, s2⟩ (itemsSegs rr) (itemsSegs rest) h2 he]
        · rw [collapseItems_ref_keep ty attrs id s hcr he]
          show (⟨id, s⟩ : Translatable) :: itemsSegs (collapseItems rest)
            = collapseSegs ((⟨id, s⟩ : Translatable) :: itemsSegs rest)
          rw [ih, collapseSegs_cons_ne ⟨id, s⟩ ⟨id2, s2⟩ (itemsSegs rr) (itemsSegs rest) h2 he, h2]

theorem dedupGo_lit_step (lastId : Option String) (ty attrs : Option String)
    (s : String) (l : List JNode) :
    removeDuplicateTextNodesGo lastId (JNode.mk ty attrs (some s) none none none :: l)
      = JNode.mk ty attrs (some s) none none none :: removeDuplicateTextNodesGo none l := by
  simp [removeDuplicateTextNodesGo, JNode.textSegmentId, jsTruthyStr]

theorem dedupGo_ref_keep (lastId : Option String) (ty attrs : Option String)
    (id : String) (l : List JNode) (h : lastId ≠ some id) :
    removeDuplicateTextNodesGo lastId (JNode.mk ty attrs none none (some id) none :: l)
      = JNode.mk ty attrs none none (some id) none ::
          removeDuplicateTextNodesGo (some id) l := by
  simp [removeDuplicateTextNodesGo, JNode.textSegmentId, h]

theorem dedupGo_ref_drop (ty attrs : Option String) (id : String) (l : List JNode)
    (hid : id ≠ "") :
    removeDuplicateTextNodesGo (some id) (JNode.mk ty attrs none none (some id) none :: l)
      = removeDuplicateTextNodesGo (some id) l := by
  simp [removeDuplicateTextNodesGo, JNode.textSegmentId, jsTruthyStr, hid]

/-- The two halves of the duplicate-node removal on an item run: with no
pending id the result is exactly the collapsed skeleton, and with a pending
id `a` the result is the collapsed skeleton of the run with its leading
`a`-references dropped. -/
theorem removeDuplicateTextNodesGo_items (items : List PItem)
    (href : ItemsRefOk items) :
    removeDuplicateTextNodesGo none (itemsStructs items)
        = itemsStructs (collapseItems items)
      ∧ ∀ a : String, a ≠ "" →
        removeDuplicateTextNodesGo (some a) (itemsStructs items)
          = itemsStructs (collapseItems (dropRun a items)) := by
  match items with
  | [] => exact ⟨rfl, fun a _ => rfl⟩
  | PItem.lit ty attrs s :: rest =>
    obtain ⟨ih1, ih2⟩ := removeDuplicateTextNodesGo_items rest (itemsRefOk_tail href)
    constructor
    · show removeDuplicateTextNodesGo none
        (JNode.mk ty attrs (some s) none none none :: itemsStructs rest) = _
      rw [dedupGo_lit_step, ih1, collapseItems_lit_cons]
      rfl
    · intro a _
      show removeDuplicateTextNodesGo (some a)
        (JNode.mk ty attrs (some s) none none none :: itemsStructs rest) = _
      rw [dedupGo_lit_step, ih1]
      show _ = itemsStructs (collapseItems (PItem.lit ty attrs s :: rest))
      rw [collapseItems_lit_cons]
      rfl
  | PItem.ref ty attrs id s :: rest =>
    obtain ⟨ih1, ih2⟩ := removeDuplicateTextNodesGo_items rest (itemsRefOk_tail href)
    have hid : id ≠ "" := (href ty attrs id s (List.mem_cons_self _ _)).2
    obtain ⟨T, hT⟩ := collapseItems_ref_run rest ty attrs id s
    constructor
    · show removeDuplicateTextNodesGo none
        (JNode.mk ty attrs none none (some id) none :: itemsStructs rest) = _
      rw [dedupGo_ref_keep none ty attrs id (itemsStructs rest) (by simp),
        ih2 id hid, hT]
      rfl
    · intro a ha
      by_cases hia : id = a
      · subst hia
        show removeDuplicateTextNodesGo (some id)
          (JNode.mk ty attrs none none (some id) none :: itemsStructs rest) = _
        rw [dedupGo_ref_drop ty attrs id (itemsStructs rest) hid, ih2 id hid,
          dropRun_ref_eq]
      · show removeDuplicateTextNodesGo (some a)
          (JNode.mk ty attrs none none (some id) none :: itemsStructs rest) = _
        rw [dedupGo_ref_keep (some a) ty attrs id (itemsStructs rest)
          (by simpa using fun h => hia h.symm), ih2 id hid,
          dropRun_ref_ne a ty attrs id s rest hia, hT]
        rfl

/-- `removeDuplicateTextNodes` on the skeleton of an item run is the
skeleton of the collapsed run. -/
theorem removeDuplicateTextNodes_items (items : List PItem)
    (href : ItemsRefOk items) :
    removeDuplicateTextNodes (itemsStructs items)
      = itemsStructs (collapseItems items) :=
  (removeDuplicateTextNodesGo_items items href).1

theorem removeDuplicateTextNodesGo_all_none :
    ∀ (l : List JNode) (lastId : Option String),
      (∀ n ∈ l, n.textSegmentId = none) →
      removeDuplicateTextNodesGo lastId l = l := by
  intro l
  induction l with
  | nil => intro lastId _; rfl
  | cons n rest ih =>
    intro lastId h
    have hn : n.textSegmentId = none := h n (List.mem_cons_self _ _)
    show (if !jsTruthyStr n.textSegmentId || lastId ≠ n.textSegmentId then [n] else []) ++
      removeDuplicateTextNodesGo n.textSegmentId rest = n :: rest
    rw [hn]
    simp only [jsTruthyStr, Bool.not_false, Bool.true_or, if_true, ite_true]
    rw [ih none (fun m hm => h m (List.mem_cons_of_mem _ hm))]
    rfl

/-- `removeDuplicateTextNodes` leaves a list of nodes without
`textSegmentId` (e.g. wrapped paragraph skeletons) unchanged. -/
theorem removeDuplicateTextNodes_all_none (l : List JNode)
    (h : ∀ n ∈ l, n.textSegmentId = none) :
    removeDuplicateTextNodes l = l :=
  removeDuplicateTextNodesGo_all_none l none h

/-! ## C1: rebuilding from non-suggesting segments -/

/-- The claim's conversion of a parsed `Translatable` into a `TextSegment`
with no active suggestion and displayed text equal to its source text. -/
def asNonSuggesting (t : Translatable) : TextSegment :=
  { _id := t._id, srcText := t.srcText, hpeText := t.srcText }

theorem find?_map_asNonSuggesting (l : List Translatable) (a s : String)
    (hnodup : (l.map Translatable._id).Nodup)
    (hmem : (⟨a, s⟩ : Translatable) ∈ l) :
    (l.map asNonSuggesting).find? (fun t => t._id = a)
      = some (asNonSuggesting ⟨a, s⟩) := by
  induction l with
  | nil => cases hmem
  | cons x rest ih =>
    show ((asNonSuggesting x :: rest.map asNonSuggesting).find? (fun t => t._id = a)) = _
    cases List.mem_cons.mp hmem with
    | inl heq =>
      subst heq
      exact List.find?_cons_of_pos _ (by simp [asNonSuggesting])
    | inr hmem2 =>
      have hxa : x._id ≠ a := by
        intro hcontra
        have h1 : x._id ∉ rest.map Translatable._id := (List.nodup_cons.mp hnodup).1
        apply h1
        rw [hcontra]
        exact List.mem_map_of_mem Translatable._id hmem2
      rw [List.find?_cons_of_neg _ (by simp [asNonSuggesting, hxa])]
      exact ih (List.nodup_cons.mp hnodup).2 hmem2

theorem chain'_ne_of_nodup (l : List Translatable)
    (h : (l.map Translatable._id).Nodup) :
    List.Chain' (fun a b => a._id ≠ b._id) l :=
  (List.chain'_map Translatable._id).mp (List.Pairwise.chain' h)

theorem buildNode_lit (ty attrs : Option String) (s : String)
    (S : List TextSegment) (ts : Bool) (hs : s ≠ "") :
    buildNode (JNode.mk ty attrs (some s) none none none) S ts
      = Except.ok [JNode.mk ty attrs (some s) none none none] := by
  simp [buildNode, hs]

theorem buildNode_ref (ty attrs : Option String) (id s : String)
    (S : List Translatable) (ts : Bool)
    (hfind : (S.map asNonSuggesting).find? (fun t => t._id = id)
      = some (asNonSuggesting ⟨id, s⟩))
    (hs : s ≠ "") :
    buildNode (JNode.mk ty attrs none none (some id) none)
        (S.map asNonSuggesting) ts
      = Except.ok [JNode.mk (some "text") none (some s)
          (some [⟨textSegmentMarkName, some id, some false⟩]) none none] := by
  simp only [buildNode, hfind]
  have hact : hasActiveSuggestion (asNonSuggesting ⟨id, s⟩) = false := rfl
  rw [hact]
  simp only [Bool.false_eq_true, if_false, ite_false]
  have htext : (if ts then (asNonSuggesting ⟨id, s⟩).srcText
      else (asNonSuggesting ⟨id, s⟩).hpeText) = s := by
    cases ts <;> rfl
  rw [htext]
  rw [List.filter_cons]
  simp [JNode.text, hs, asNonSuggesting]

theorem leafText_lit (ty attrs : Option String) (s : String) :
    leafText (JNode.mk ty attrs (some s) none none none) = s := rfl

/-- Building the skeleton of an item run against any segment pool that
resolves each referenced id to its item text reproduces the run text. -/
theorem buildChildren_items (items : List PItem) (S : List Translatable) (ts : Bool)
    (hlit : ∀ ty attrs s, PItem.lit ty attrs s ∈ items → s ≠ "")
    (hfind : ∀ ty attrs id s, PItem.ref ty attrs id s ∈ items →
      ((S.map asNonSuggesting).find? (fun t => t._id = id)
          = some (asNonSuggesting ⟨id, s⟩)) ∧ s ≠ "") :
    ∃ L, buildChildren (itemsStructs items) (S.map asNonSuggesting) ts = Except.ok L ∧
      leafTextList L = itemsText items := by
  match items with
  | [] => exact ⟨[], rfl, rfl⟩
  | PItem.lit ty attrs s :: rest =>
    have hs : s ≠ "" := hlit ty attrs s (List.mem_cons_self _ _)
    obtain ⟨L, hL, hLt⟩ := buildChildren_items rest S ts
      (fun a b c hm => hlit a b c (List.mem_cons_of_mem _ hm))
      (fun a b c d hm => hfind a b c d (List.mem_cons_of_mem _ hm))
    refine ⟨JNode.mk ty attrs (some s) none none none :: L, ?_, ?_⟩
    · show buildChildren (JNode.mk ty attrs (some s) none none none :: itemsStructs rest) _ _ = _
      simp only [buildChildren]
      rw [buildNode_lit ty attrs s (S.map asNonSuggesting) ts hs, hL]
      rfl
    · show leafText (JNode.mk ty attrs (some s) none none none) ++ leafTextList L
        = s ++ itemsText rest
      rw [leafText_lit, hLt]
  | PItem.ref ty attrs id s :: rest =>
    obtain ⟨hf, hs⟩ := hfind ty attrs id s (List.mem_cons_self _ _)
    obtain ⟨L, hL, hLt⟩ := buildChildren_items rest S ts
      (fun a b c hm => hlit a b c (List.mem_cons_of_mem _ hm))
      (fun a b c d hm => hfind a b c d (List.mem_cons_of_mem _ hm))
    refine ⟨JNode.mk (some "text") none (some s)
      (some [⟨textSegmentMarkName, some id, some false⟩]) none none :: L, ?_, ?_⟩
    · show buildChildren (JNode.mk ty attrs none none (some id) none :: itemsStructs rest) _ _ = _
      simp only [buildChildren]
      rw [buildNode_ref ty attrs id s S ts hf hs, hL]
      rfl
    · show leafText _ ++ leafTextList L = s ++ itemsText rest
      rw [hLt]
      rfl

/-! ## C1: itemising the parse of inline leaves and paragraphs -/

/-- The items that the raw-text piece loop emits. -/
def rawItems (type attrs : Option String) : List String → Nat → List PItem
  | [], _ => []
  | str :: rest, counter =>
    if stringContainsOnlyWhitespace str then
      PItem.lit type attrs str :: rawItems type attrs rest counter
    else
      PItem.ref type attrs (uuid counter) str :: rawItems type attrs rest (counter + 1)

theorem parseRawPieces_eq_items (type attrs : Option String) :
    ∀ (l : List String) (c : Nat),
      parseRawPieces type attrs l c
        = (itemsSegs (rawItems type attrs l c),
           itemsStructs (rawItems type attrs l c),
           itemsHist (rawItems type attrs l c),
           (parseRawPieces type attrs l c).2.2.2) := by
  intro l
  induction l with
  | nil => intro c; rfl
  | cons str rest ih =>
    intro c
    by_cases hws : stringContainsOnlyWhitespace str = true
    · show parseRawPieces type attrs (str :: rest) c = _
      unfold parseRawPieces rawItems
      rw [if_pos hws, if_pos hws, ih c]
      rfl
    · rw [Bool.not_eq_true] at hws
      show parseRawPieces type attrs (str :: rest) c = _
      unfold parseRawPieces rawItems
      rw [if_neg (by simp [hws]), if_neg (by simp [hws]), ih (c + 1)]
      rfl

theorem rawItems_refOk (type attrs : Option String) :
    ∀ (l : List String) (c : Nat), ItemsRefOk (rawItems type attrs l c) := by
  intro l
  induction l with
  | nil => intro c ty a id s hmem; cases hmem
  | cons str rest ih =>
    intro c ty a id s hmem
    unfold rawItems at hmem
    by_cases hws : stringContainsOnlyWhitespace str = true
    · rw [if_pos hws] at hmem
      cases List.mem_cons.mp hmem with
      | inl heq => cases heq
      | inr hm => exact ih c ty a id s hm
    · rw [if_neg hws] at hmem
      cases List.mem_cons.mp hmem with
      | inl heq =>
        injection heq with e1 e2 e3 e4
        subst e3
        exact ⟨uuid_not_sentinel c, uuid_ne_empty c⟩
      | inr hm => exact ih (c + 1) ty a id s hm

theorem rawItems_textOk (type attrs : Option String) :
    ∀ (l : List String) (c : Nat), (∀ s ∈ l, s ≠ "") →
      ItemsTextOk (rawItems type attrs l c) := by
  intro l
  induction l with
  | nil => intro c _ it hmem; cases hmem
  | cons str rest ih =>
    intro c hne it hmem
    unfold rawItems at hmem
    have hstr : str ≠ "" := hne str (List.mem_cons_self _ _)
    have htail : ∀ s ∈ rest, s ≠ "" := fun s hs => hne s (List.mem_cons_of_mem _ hs)
    by_cases hws : stringContainsOnlyWhitespace str = true
    · rw [if_pos hws] at hmem
      cases List.mem_cons.mp hmem with
      | inl heq => rw [heq]; exact hstr
      | inr hm => exact ih c htail it hm
    · rw [if_neg hws] at hmem
      cases List.mem_cons.mp hmem with
      | inl heq => rw [heq]; exact hstr
      | inr hm => exact ih (c + 1) htail it hm

theorem rawItems_text (type attrs : Option String) :
    ∀ (l : List String) (c : Nat),
      itemsText (rawItems type attrs l c) = joinStrings l := by
  intro l
  induction l with
  | nil => intro c; rfl
  | cons str rest ih =>
    intro c
    unfold rawItems
    by_cases hws : stringContainsOnlyWhitespace str = true
    · rw [if_pos hws]
      show str ++ itemsText (rawItems type attrs rest c) = str ++ joinStrings rest
      rw [ih c]
    · rw [if_neg hws]
      show str ++ itemsText (rawItems type attrs rest (c + 1)) = str ++ joinStrings rest
      rw [ih (c + 1)]

/-- An inline leaf accepted by the amended round-trip claim: a text node
with no child content, either marked (nonempty text, ordinary mark ids) or
raw (no pipe characters, which the sentence split destroys). -/
def leafOk (n : JNode) : Bool :=
  match n with
  | JNode.mk _ _ (some t) marks _ content =>
    (match content with | none => true | some _ => false) &&
    (match marks with
     | some ms =>
       decide (t ≠ "") &&
         ms.all (fun m => match m.textSegmentId with | some v => goodId v | none => true)
     | none => t.data.all (fun c => decide (c ≠ '|')))
  | _ => false

theorem getTSIdWithReplacement_ne_empty (ms : List Mark)
    (reps : List (String × String)) {k : String}
    (h : getTextSegmentIdFromMarksWithReplacement ms reps = some k) : k ≠ "" := by
  unfold getTextSegmentIdFromMarksWithReplacement at h
  cases hgm : getTextSegmentIdFromMarks ms with
  | none => rw [hgm] at h; simp [jsTruthyStr] at h
  | some t0 =>
    rw [hgm] at h
    by_cases ht0 : t0 = ""
    · subst ht0
      simp [jsTruthyStr] at h
    · rw [if_neg (by simp [jsTruthyStr, ht0])] at h
      dsimp only at h
      cases hrl : repLookup reps t0 with
      | none =>
        rw [hrl] at h
        injection h with h2
        subst h2
        exact ht0
      | some r =>
        rw [hrl] at h
        dsimp only at h
        by_cases hr : r = ""
        · subst hr
          rw [if_neg (by simp)] at h
          injection h with h2
          subst h2
          exact ht0
        · rw [if_pos hr] at h
          injection h with h2
          subst h2
          exact hr

/-- The parse of an accepted inline leaf is a single-item or raw-piece item
run with ordinary ids and nonempty texts, whose text joins back to the
leaf text. -/
theorem parseNode_leaf_items (n : JNode) (ph : List String)
    (reps : List (String × String)) (ctr : Nat) (hok : leafOk n = true)
    (hr : RepsOk ph ctr reps) :
    ∃ its reps2 ctr2,
      parseNode n ph reps ctr
        = { textSegments := itemsSegs its, structures := itemsStructs its,
            parseHistory := itemsHist its, idReplacements := reps2, counter := ctr2 }
      ∧ itemsText its = leafText n ∧ ItemsRefOk its ∧ ItemsTextOk its := by
  match n with
  | JNode.mk ty attrs none marks tsid content => exact absurd hok (by simp [leafOk])
  | JNode.mk ty attrs (some t) marks tsid (some cs) =>
    exfalso
    unfold leafOk at hok
    rw [Bool.and_eq_true] at hok
    exact absurd hok.1 (by simp)
  | JNode.mk ty attrs (some t) (some ms) tsid none =>
    have hok2 : (decide (t ≠ "") &&
        ms.all (fun m => match m.textSegmentId with
          | some v => goodId v | none => true)) = true := by
      unfold leafOk at hok
      rw [Bool.and_eq_true] at hok
      exact hok.2
    rw [Bool.and_eq_true, decide_eq_true_eq] at hok2
    obtain ⟨ht, hall⟩ := hok2
    by_cases hreq :
        requiresNewTextSegmentId (getTextSegmentIdFromMarksWithReplacement ms reps) ph = true
    · -- fresh id minted
      refine ⟨[PItem.ref ty attrs (uuid ctr) t],
        (match getTextSegmentIdFromMarksWithReplacement ms reps with
          | some old => repInsert reps old (uuid ctr)
          | none => reps), ctr + 1, ?_, ?_, ?_, ?_⟩
      · simp only [parseNode, hreq, if_true, ite_true]
        rfl
      · show t ++ "" = t
        exact String.append_empty t
      · intro a b id s hmem
        rcases List.mem_singleton.mp hmem with heq
        injection heq with e1 e2 e3 e4
        subst e3
        exact ⟨uuid_not_sentinel ctr, uuid_ne_empty ctr⟩
      · intro it hmem
        rw [List.mem_singleton.mp hmem]
        exact ht
    · rw [Bool.not_eq_true] at hreq
      cases htid : getTextSegmentIdFromMarksWithReplacement ms reps with
      | none => rw [htid] at hreq; cases hreq
      | some k =>
        rw [htid] at hreq
        have hkne : k ≠ "" := getTSIdWithReplacement_ne_empty ms reps htid
        have hkns : isSentinel k = false := by
          rcases getTSIdWithReplacement_provenance ms reps htid with ⟨m, hm, hmk⟩ | ⟨kv, hkv, hkvk⟩
          · have := List.all_eq_true.mp hall m hm
            rw [hmk] at this
            exact goodId_not_sentinel this
          · obtain ⟨_, mm, _, heq⟩ := hr kv hkv
            rw [← hkvk, heq]
            exact uuid_not_sentinel mm
        refine ⟨[PItem.ref ty attrs k t], reps, ctr, ?_, ?_, ?_, ?_⟩
        · simp only [parseNode, htid, hreq, Bool.false_eq_true, if_false, ite_false]
          rfl
        · show t ++ "" = t
          exact String.append_empty t
        · intro a b id s hmem
          rcases List.mem_singleton.mp hmem with heq
          injection heq with e1 e2 e3 e4
          subst e3
          exact ⟨hkns, hkne⟩
        · intro it hmem
          rw [List.mem_singleton.mp hmem]
          exact ht
  | JNode.mk ty attrs (some t) none tsid none =>
    have hpipe : ∀ c ∈ t.data, c ≠ '|' := by
      unfold leafOk at hok
      rw [Bool.and_eq_true] at hok
      have := hok.2
      intro c hc
      have h2 := List.all_eq_true.mp this c hc
      simpa using h2
    refine ⟨rawItems ty attrs (splitStringIntoSentencesAndWhitespace t) ctr, reps,
      (parseRawPieces ty attrs (splitStringIntoSentencesAndWhitespace t) ctr).2.2.2,
      ?_, ?_, ?_, ?_⟩
    · simp only [parseNode]
      rw [parseRawPieces_eq_items ty attrs (splitStringIntoSentencesAndWhitespace t) ctr]
    · rw [rawItems_text, splitStringIntoSentencesAndWhitespace_join t hpipe]
      rfl
    · exact rawItems_refOk ty attrs _ ctr
    · exact rawItems_textOk ty attrs _ ctr
        (splitStringIntoSentencesAndWhitespace_ne_empty t)

theorem itemsSegs_append (a b : List PItem) :
    itemsSegs (a ++ b) = itemsSegs a ++ itemsSegs b := by
  induction a with
  | nil => rfl
  | cons it rest ih =>
    show itemSegs it ++ itemsSegs (rest ++ b) = (itemSegs it ++ itemsSegs rest) ++ itemsSegs b
    rw [ih, List.append_assoc]

theorem itemsStructs_append (a b : List PItem) :
    itemsStructs (a ++ b) = itemsStructs a ++ itemsStructs b := by
  induction a with
  | nil => rfl
  | cons it rest ih =>
    show itemStruct it :: itemsStructs (rest ++ b) = _
    rw [ih]
    rfl

theorem itemsHist_append (a b : List PItem) :
    itemsHist (a ++ b) = itemsHist a ++ itemsHist b := by
  induction a with
  | nil => rfl
  | cons it rest ih =>
    show itemHist it :: itemsHist (rest ++ b) = _
    rw [ih]
    rfl

theorem itemsText_append (a b : List PItem) :
    itemsText (a ++ b) = itemsText a ++ itemsText b := by
  induction a with
  | nil => show itemsText b = "" ++ itemsText b; rw [String.empty_append]
  | cons it rest ih =>
    show itemText it ++ itemsText (rest ++ b) = (itemText it ++ itemsText rest) ++ itemsText b
    rw [ih, String.append_assoc]

theorem itemsRefOk_append {a b : List PItem} (ha : ItemsRefOk a) (hb : ItemsRefOk b) :
    ItemsRefOk (a ++ b) := by
  intro ty attrs id s hmem
  cases List.mem_append.mp hmem with
  | inl h => exact ha ty attrs id s h
  | inr h => exact hb ty attrs id s h

theorem itemsTextOk_append {a b : List PItem} (ha : ItemsTextOk a) (hb : ItemsTextOk b) :
    ItemsTextOk (a ++ b) := by
  intro it hmem
  cases List.mem_append.mp hmem with
  | inl h => exact ha it h
  | inr h => exact hb it h

theorem itemsSegs_mem_ref {items : List PItem} {t : Translatable}
    (h : t ∈ itemsSegs items) :
    ∃ ty attrs, PItem.ref ty attrs t._id t.srcText ∈ items := by
  match items with
  | [] => cases h
  | PItem.lit ty attrs s :: rest =>
    have h2 : t ∈ itemsSegs rest := h
    obtain ⟨a, b, hm⟩ := itemsSegs_mem_ref h2
    exact ⟨a, b, List.mem_cons_of_mem _ hm⟩
  | PItem.ref ty attrs id s :: rest =>
    cases List.mem_cons.mp h with
    | inl heq =>
      subst heq
      exact ⟨ty, attrs, List.mem_cons_self _ _⟩
    | inr hm =>
      obtain ⟨a, b, hmem⟩ := itemsSegs_mem_ref hm
      exact ⟨a, b, List.mem_cons_of_mem _ hmem⟩

theorem itemsSegs_of_ref {items : List PItem} {ty attrs : Option String}
    {id s : String} (h : PItem.ref ty attrs id s ∈ items) :
    (⟨id, s⟩ : Translatable) ∈ itemsSegs items := by
  match items with
  | [] => cases h
  | it :: rest =>
    cases List.mem_cons.mp h with
    | inl heq =>
      subst heq
      exact List.mem_cons_self _ _
    | inr hm =>
      show _ ∈ itemSegs it ++ itemsSegs rest
      exact List.mem_append_right _ (itemsSegs_of_ref hm)

theorem itemsHist_collapse_sublist (items : List PItem) :
    (itemsHist (collapseItems items)).Sublist (itemsHist items) := by
  match items with
  | [] => exact List.Sublist.refl _
  | PItem.lit ty attrs s :: rest =>
    rw [collapseItems_lit_cons]
    show ("blank" :: itemsHist (collapseItems rest)).Sublist ("blank" :: itemsHist rest)
    exact List.Sublist.cons₂ _ (itemsHist_collapse_sublist rest)
  | PItem.ref ty attrs id s :: rest =>
    have ih := itemsHist_collapse_sublist rest
    cases hcr : collapseItems rest with
    | nil =>
      rw [collapseItems_ref_nil ty attrs id s hcr]
      show (id :: itemsHist ([] : List PItem)).Sublist (id :: itemsHist rest)
      exact List.Sublist.cons₂ _ (List.nil_sublist _)
    | cons it2 rr =>
      rw [hcr] at ih
      cases it2 with
      | lit ty2 attrs2 s2 =>
        rw [collapseItems_ref_lit ty attrs id s hcr, hcr]
        show (id :: itemsHist (PItem.lit ty2 attrs2 s2 :: rr)).Sublist (id :: itemsHist rest)
        exact List.Sublist.cons₂ _ ih
      | ref ty2 attrs2 id2 s2 =>
        by_cases he : id2 = id
        · rw [collapseItems_ref_merge ty attrs id s hcr he]
          show (id :: itemsHist rr).Sublist (id :: itemsHist rest)
          refine List.Sublist.cons₂ _ ?_
          have : (itemsHist (PItem.ref ty2 attrs2 id2 s2 :: rr)).Sublist (itemsHist rest) := ih
          have h2 : (itemsHist rr).Sublist (id2 :: itemsHist rr) :=
            List.sublist_cons_self _ _
          exact h2.trans this
        · rw [collapseItems_ref_keep ty attrs id s hcr he, hcr]
          show (id :: itemsHist (PItem.ref ty2 attrs2 id2 s2 :: rr)).Sublist (id :: itemsHist rest)
          exact List.Sublist.cons₂ _ ih

theorem sublist_filter_of_all {l L : List String} (p : String → Bool)
    (h : l.Sublist L) (hall : ∀ x ∈ l, p x = true) : l.Sublist (L.filter p) := by
  have := h.filter p
  rwa [List.filter_eq_self.mpr hall] at this

theorem leafOk_goodMarkIds {n : JNode} (h : leafOk n = true) :
    goodMarkIds n = true := by
  match n with
  | JNode.mk ty attrs none marks tsid content => exact absurd h (by simp [leafOk])
  | JNode.mk ty attrs (some t) marks tsid (some cs) =>
    exfalso
    unfold leafOk at h
    rw [Bool.and_eq_true] at h
    exact absurd h.1 (by simp)
  | JNode.mk ty attrs (some t) (some ms) tsid none =>
    unfold leafOk at h
    rw [Bool.and_eq_true] at h
    have h2 := h.2
    rw [Bool.and_eq_true] at h2
    unfold goodMarkIds
    rw [Bool.and_eq_true]
    exact ⟨h2.2, rfl⟩
  | JNode.mk ty attrs (some t) none tsid none =>
    unfold goodMarkIds
    rfl

theorem goodMarkIdsList_of_all {ls : List JNode} (h : ls.all leafOk = true) :
    goodMarkIdsList ls = true := by
  induction ls with
  | nil => rfl
  | cons c rest ih =>
    rw [List.all_cons, Bool.and_eq_true] at h
    unfold goodMarkIdsList
    rw [Bool.and_eq_true]
    exact ⟨leafOk_goodMarkIds h.1, ih h.2⟩

/-- The parse of a list of accepted inline leaves is an item run. -/
theorem parseChildren_leaves_items (leaves : List JNode) :
    ∀ (ph : List String) (reps : List (String × String)) (ctr : Nat),
      leaves.all leafOk = true → HistOk ph → FreshOk ctr ph → RepsOk ph ctr reps →
      ∃ its reps2 ctr2,
        parseChildren leaves ph reps ctr
          = { textSegments := itemsSegs its, structures := itemsStructs its,
              parseHistory := itemsHist its, idReplacements := reps2, counter := ctr2 }
        ∧ itemsText its = leafTextList leaves ∧ ItemsRefOk its ∧ ItemsTextOk its := by
  induction leaves with
  | nil =>
    intro ph reps ctr _ _ _ _
    exact ⟨[], reps, ctr, rfl, rfl, fun a b c d hm => absurd hm (List.not_mem_nil _),
      fun it hm => absurd hm (List.not_mem_nil _)⟩
  | cons leaf rest ih =>
    intro ph reps ctr hok hph hf hr
    rw [List.all_cons, Bool.and_eq_true] at hok
    obtain ⟨its1, reps2a, ctr2a, h1, ht1, hr1, hx1⟩ :=
      parseNode_leaf_items leaf ph reps ctr hok.1 hr
    obtain ⟨-, hph2, -, hf2, hrr2, -, -⟩ :=
      parseNode_inv leaf ph reps ctr (leafOk_goodMarkIds hok.1) hph hf hr
    rw [h1] at hph2 hf2 hrr2
    obtain ⟨its2, reps2b, ctr2b, h2, ht2, hr2, hx2⟩ :=
      ih (ph ++ itemsHist its1) reps2a ctr2a hok.2 hph2 hf2 hrr2
    refine ⟨its1 ++ its2, reps2b, ctr2b, ?_, ?_, itemsRefOk_append hr1 hr2,
      itemsTextOk_append hx1 hx2⟩
    · show parseChildren (leaf :: rest) ph reps ctr = _
      simp only [parseChildren]
      rw [h1]
      dsimp only
      rw [h2]
      rw [itemsSegs_append, itemsStructs_append, itemsHist_append]
    · rw [itemsText_append, ht1, ht2]
      rfl

/-- A paragraph accepted by the amended round-trip claim: a markless,
textless node whose children are accepted inline leaves. -/
def paraOk (n : JNode) : Bool :=
  match n with
  | JNode.mk _ _ none none _ (some ls) => ls.all leafOk
  | _ => false

theorem paraOk_goodMarkIds {n : JNode} (h : paraOk n = true) :
    goodMarkIds n = true := by
  match n with
  | JNode.mk ty attrs none none tsid (some ls) =>
    unfold paraOk at h
    unfold goodMarkIds
    rw [Bool.and_eq_true]
    exact ⟨rfl, goodMarkIdsList_of_all h⟩
  | JNode.mk ty attrs (some t) marks tsid content => exact absurd h (by simp [paraOk])
  | JNode.mk ty attrs none (some ms) tsid content => exact absurd h (by simp [paraOk])
  | JNode.mk ty attrs none none tsid none => exact absurd h (by simp [paraOk])

/-- The parse of an accepted paragraph: a collapsed item run wrapped in a
single skeleton node, with pairwise-distinct segment ids embedded in the
non-sentinel history of the children, followed by a `"break"` entry. -/
theorem parseNode_para_items (n : JNode) (ph : List String)
    (reps : List (String × String)) (ctr : Nat) (hok : paraOk n = true)
    (hph : HistOk ph) (hf : FreshOk ctr ph) (hr : RepsOk ph ctr reps) :
    ∃ ci its reps2 ctr2,
      parseNode n ph reps ctr
        = { textSegments := itemsSegs ci,
            structures := [JNode.mk n.type n.attrs none none none
              (some (itemsStructs ci))],
            parseHistory := itemsHist its ++ ["break"],
            idReplacements := reps2, counter := ctr2 }
      ∧ itemsText ci = leafText n
      ∧ ItemsRefOk ci ∧ ItemsTextOk ci
      ∧ ((itemsSegs ci).map Translatable._id).Nodup
      ∧ ((itemsSegs ci).map Translatable._id).Sublist
          ((itemsHist its).filter (fun e => !isSentinel e)) := by
  match n with
  | JNode.mk ty attrs (some t) marks tsid content => exact absurd hok (by simp [paraOk])
  | JNode.mk ty attrs none (some ms) tsid content => exact absurd hok (by simp [paraOk])
  | JNode.mk ty attrs none none tsid none => exact absurd hok (by simp [paraOk])
  | JNode.mk ty attrs none none tsid (some ls) =>
    have hall : ls.all leafOk = true := by
      unfold paraOk at hok
      exact hok
    obtain ⟨its, reps2, ctr2, h1, ht, hrefs, htexts⟩ :=
      parseChildren_leaves_items ls ph reps ctr hall hph hf hr
    obtain ⟨-, hph2, -, -, -, -⟩ :=
      parseChildren_inv ls ph reps ctr (goodMarkIdsList_of_all hall) hph hf hr
    rw [h1] at hph2
    have hphits : HistOk (itemsHist its) :=
      histOk_sublist (List.sublist_append_right ph (itemsHist its)) hph2
    have htruthy : ∀ s ∈ itemsSegs its, s._id ≠ "" ∧ s.srcText ≠ "" := by
      intro s hs
      obtain ⟨a, b, hm⟩ := itemsSegs_mem_ref hs
      refine ⟨(hrefs a b s._id s.srcText hm).2, ?_⟩
      have := htexts (PItem.ref a b s._id s.srcText) hm
      exact this
    have hmerge : mergeTextSegmentsWithSameId (itemsSegs its)
        = itemsSegs (collapseItems its) := by
      rw [mergeTextSegments_collapse (itemsSegs its) htruthy,
        ← itemsSegs_collapse its hphits hrefs]
    have hdedup : removeDuplicateTextNodes (itemsStructs its)
        = itemsStructs (collapseItems its) :=
      removeDuplicateTextNodes_items its hrefs
    have hphci : HistOk (itemsHist (collapseItems its)) :=
      histOk_sublist (itemsHist_collapse_sublist its) hphits
    have hrefsci : ItemsRefOk (collapseItems its) := itemsRefOk_collapse hrefs
    refine ⟨collapseItems its, its, reps2, ctr2, ?_, ?_, hrefsci,
      itemsTextOk_collapse htexts, ?_, ?_⟩
    · show parseNode (JNode.mk ty attrs none none tsid (some ls)) ph reps ctr = _
      simp only [parseNode]
      rw [h1]
      dsimp only
      rw [hmerge, hdedup]
      rfl
    · rw [itemsText_collapse, ht]
      rfl
    · exact segIds_nodup (collapseItems its) hphci (collapseItems_adjOk its) hrefsci
    · have hsub : ((itemsSegs (collapseItems its)).map Translatable._id).Sublist
          (itemsHist its) :=
        (segIds_sublist_itemsHist (collapseItems its)).trans
          (itemsHist_collapse_sublist its)
      refine sublist_filter_of_all _ hsub ?_
      intro x hx
      obtain ⟨s, hsmem, hsid⟩ := List.mem_map.mp hx
      obtain ⟨a, b, hm⟩ := itemsSegs_mem_ref hsmem
      have := (hrefsci a b s._id s.srcText hm).1
      rw [← hsid]
      simp [this]

/-- One parsed paragraph: node metadata plus its collapsed item run. -/
structure PPara where
  ptype : Option String
  pattrs : Option String
  items : List PItem

def pSegs : List PPara → List Translatable
  | [] => []
  | p :: rest => itemsSegs p.items ++ pSegs rest

def pNodes : List PPara → List JNode
  | [] => []
  | p :: rest =>
    JNode.mk p.ptype p.pattrs none none none (some (itemsStructs p.items)) :: pNodes rest

def pText : List PPara → String
  | [] => ""
  | p :: rest => itemsText p.items ++ pText rest

theorem goodMarkIdsList_of_all_para {ps : List JNode} (h : ps.all paraOk = true) :
    goodMarkIdsList ps = true := by
  induction ps with
  | nil => rfl
  | cons c rest ih =>
    rw [List.all_cons, Bool.and_eq_true] at h
    unfold goodMarkIdsList
    rw [Bool.and_eq_true]
    exact ⟨paraOk_goodMarkIds h.1, ih h.2⟩

theorem break_ne_of_nonsentinel {a : String} (h : isSentinel a = false) :
    "break" ≠ a := by
  intro hcontra
  rw [← hcontra] at h
  exact absurd h (by decide)

/-- The parse of a list of accepted paragraphs: concatenated collapsed item
runs with globally pairwise-distinct segment ids. -/
theorem parseChildren_paras_items (paras : List JNode) :
    ∀ (ph : List String) (reps : List (String × String)) (ctr : Nat),
      paras.all paraOk = true → HistOk ph → FreshOk ctr ph → RepsOk ph ctr reps →
      ∃ pd : List PPara,
        (parseChildren paras ph reps ctr).textSegments = pSegs pd
        ∧ (parseChildren paras ph reps ctr).structures = pNodes pd
        ∧ pText pd = leafTextList paras
        ∧ (∀ p ∈ pd, ItemsRefOk p.items ∧ ItemsTextOk p.items)
        ∧ ((pSegs pd).map Translatable._id).Nodup
        ∧ ((pSegs pd).map Translatable._id).Sublist
            (((parseChildren paras ph reps ctr).parseHistory).filter
              (fun e => !isSentinel e)) := by
  induction paras with
  | nil =>
    intro ph reps ctr _ _ _ _
    exact ⟨[], rfl, rfl, rfl, fun p hp => absurd hp (List.not_mem_nil _), by simp [pSegs],
      by simp [pSegs, parseChildren]⟩
  | cons para rest ih =>
    intro ph reps ctr hok hph hf hr
    rw [List.all_cons, Bool.and_eq_true] at hok
    obtain ⟨ci, its, reps2, ctr2, hpara, htext, hrefok, htexok, hnodup1, hsub1⟩ :=
      parseNode_para_items para ph reps ctr hok.1 hph hf hr
    obtain ⟨-, hph2, -, hf2, hr2, -, -⟩ :=
      parseNode_inv para ph reps ctr (paraOk_goodMarkIds hok.1) hph hf hr
    rw [hpara] at hph2 hf2 hr2
    obtain ⟨pd2, hsegs2, hstructs2, htext2, hprops2, hnodup2, hsub2⟩ :=
      ih (ph ++ (itemsHist its ++ ["break"])) reps2 ctr2 hok.2 hph2 hf2 hr2
    have hrec : parseChildren (para :: rest) ph reps ctr
        = { textSegments := itemsSegs ci ++
              (parseChildren rest (ph ++ (itemsHist its ++ ["break"])) reps2
                ctr2).textSegments,
            structures := [JNode.mk para.type para.attrs none none none
                (some (itemsStructs ci))] ++
              (parseChildren rest (ph ++ (itemsHist its ++ ["break"])) reps2
                ctr2).structures,
            parseHistory := (itemsHist its ++ ["break"]) ++
              (parseChildren rest (ph ++ (itemsHist its ++ ["break"])) reps2
                ctr2).parseHistory,
            idReplacements := (parseChildren rest (ph ++ (itemsHist its ++ ["break"]))
              reps2 ctr2).idReplacements,
            counter := (parseChildren rest (ph ++ (itemsHist its ++ ["break"])) reps2
              ctr2).counter } := by
      simp only [parseChildren]
      rw [hpara]
    obtain ⟨-, hphall, -, -, -, -⟩ :=
      parseChildren_inv (para :: rest) ph reps ctr
        (goodMarkIdsList_of_all_para (by rw [List.all_cons, Bool.and_eq_true]; exact hok))
        hph hf hr
    rw [hrec] at hphall
    have hdisj : ∀ a, a ∈ (itemsSegs ci).map Translatable._id →
        a ∈ (pSegs pd2).map Translatable._id → False := by
      intro a ha1 ha2
      have hfa1 := hsub1.mem ha1
      have hns : isSentinel a = false := by
        have := List.of_mem_filter hfa1
        simpa using this
      have hmem1 : a ∈ itemsHist its := List.mem_of_mem_filter hfa1
      have hfa2 := hsub2.mem ha2
      have hmem2 : a ∈ (parseChildren rest (ph ++ (itemsHist its ++ ["break"])) reps2
          ctr2).parseHistory := List.mem_of_mem_filter hfa2
      have hsubp : List.Sublist [a, "break", a]
          ((itemsHist its ++ ["break"]) ++
            (parseChildren rest (ph ++ (itemsHist its ++ ["break"])) reps2
              ctr2).parseHistory) := by
        have s1 : List.Sublist [a, "break"] (itemsHist its ++ ["break"]) :=
          List.Sublist.append (List.singleton_sublist.mpr hmem1) (List.Sublist.refl _)
        have s2 := List.Sublist.append s1 (List.singleton_sublist.mpr hmem2)
        exact s2
      have hsubp2 := hsubp.trans (List.sublist_append_right ph _)
      exact hphall a "break" hns (break_ne_of_nonsentinel hns) hsubp2
    refine ⟨⟨para.type, para.attrs, ci⟩ :: pd2, ?_, ?_, ?_, ?_, ?_, ?_⟩
    · rw [hrec]
      show itemsSegs ci ++ _ = itemsSegs ci ++ pSegs pd2
      rw [hsegs2]
    · rw [hrec]
      show _ :: _ = _ :: pNodes pd2
      rw [hstructs2]
      rfl
    · show itemsText ci ++ pText pd2 = leafText para ++ leafTextList rest
      rw [htext, htext2]
    · intro p hp
      cases List.mem_cons.mp hp with
      | inl heq => rw [heq]; exact ⟨hrefok, htexok⟩
      | inr hm => exact hprops2 p hm
    · show ((itemsSegs ci ++ pSegs pd2).map Translatable._id).Nodup
      rw [List.map_append]
      refine List.Nodup.append hnodup1 hnodup2 ?_
      intro a ha1 ha2
      exact hdisj a ha1 ha2
    · rw [hrec]
      show ((itemsSegs ci ++ pSegs pd2).map Translatable._id).Sublist _
      rw [List.map_append, List.filter_append]
      refine List.Sublist.append ?_ hsub2
      rw [List.filter_append]
      exact hsub1.trans (List.sublist_append_left _ _)

theorem pSegs_mem {pd : List PPara} {t : Translatable} (h : t ∈ pSegs pd) :
    ∃ p ∈ pd, t ∈ itemsSegs p.items := by
  match pd with
  | [] => cases h
  | p :: rest =>
    cases List.mem_append.mp h with
    | inl h1 => exact ⟨p, List.mem_cons_self _ _, h1⟩
    | inr h2 =>
      obtain ⟨q, hq, hm⟩ := pSegs_mem h2
      exact ⟨q, List.mem_cons_of_mem _ hq, hm⟩

theorem pSegs_mem_intro {pd : List PPara} {p : PPara} {t : Translatable}
    (hp : p ∈ pd) (h : t ∈ itemsSegs p.items) : t ∈ pSegs pd := by
  match pd with
  | [] => cases hp
  | q :: rest =>
    cases List.mem_cons.mp hp with
    | inl heq =>
      subst heq
      exact List.mem_append_left _ h
    | inr hm =>
      exact List.mem_append_right _ (pSegs_mem_intro hm h)

theorem pNodes_tsid_none (pd : List PPara) :
    ∀ n ∈ pNodes pd, n.textSegmentId = none := by
  match pd with
  | [] => intro n hn; cases hn
  | p :: rest =>
    intro n hn
    cases List.mem_cons.mp hn with
    | inl heq => rw [heq]; rfl
    | inr hm => exact pNodes_tsid_none rest n hm

/-- Building the wrapped paragraph skeletons against a segment pool that
resolves every referenced id reproduces the concatenated paragraph text. -/
theorem buildChildren_paras (pd : List PPara) (S : List Translatable) (ts : Bool)
    (hfind : ∀ p ∈ pd, ∀ ty attrs id s, PItem.ref ty attrs id s ∈ p.items →
      ((S.map asNonSuggesting).find? (fun t => t._id = id)
          = some (asNonSuggesting ⟨id, s⟩)) ∧ s ≠ "")
    (hlit : ∀ p ∈ pd, ∀ ty attrs s, PItem.lit ty attrs s ∈ p.items → s ≠ "") :
    ∃ L, buildChildren (pNodes pd) (S.map asNonSuggesting) ts = Except.ok L ∧
      leafTextList L = pText pd := by
  match pd with
  | [] => exact ⟨[], rfl, rfl⟩
  | p :: rest =>
    obtain ⟨L1, hL1, hLt1⟩ := buildChildren_items p.items S ts
      (hlit p (List.mem_cons_self _ _)) (hfind p (List.mem_cons_self _ _))
    obtain ⟨L2, hL2, hLt2⟩ := buildChildren_paras rest S ts
      (fun q hq => hfind q (List.mem_cons_of_mem _ hq))
      (fun q hq => hlit q (List.mem_cons_of_mem _ hq))
    have hnode : buildNode (JNode.mk p.ptype p.pattrs none none none
        (some (itemsStructs p.items))) (S.map asNonSuggesting) ts
        = Except.ok [JNode.mk p.ptype p.pattrs none none none (some L1)] := by
      simp only [buildNode]
      rw [hL1]
    refine ⟨JNode.mk p.ptype p.pattrs none none none (some L1) :: L2, ?_, ?_⟩
    · show buildChildren (JNode.mk p.ptype p.pattrs none none none
        (some (itemsStructs p.items)) :: pNodes rest) (S.map asNonSuggesting) ts = _
      simp only [buildChildren]
      rw [hnode, hL2]
      rfl
    · show leafText (JNode.mk p.ptype p.pattrs none none none (some L1)) ++ leafTextList L2
        = itemsText p.items ++ pText rest
      rw [hLt2]
      show leafTextList L1 ++ pText rest = _
      rw [hLt1]

/-- A document tree accepted by the amended round-trip claim: a markless,
textless root whose children are accepted paragraphs. -/
def blockOk (n : JNode) : Bool :=
  match n with
  | JNode.mk _ _ none none _ (some ps) => ps.all paraOk
  | _ => false

/-- C1 (amended): on block-form documents (a root of paragraphs of inline
text leaves, with ordinary mark ids, nonempty marked texts and no pipe
characters in raw text), the parse-then-rebuild pipeline with all segments
treated as non-suggesting reproduces the visible leaf text exactly. -/
theorem parse_build_round_trip (T : JNode) (ctr : Nat) (ts : Bool)
    (hok : blockOk T = true) :
    ∃ struc built,
      (parseEditorContent T ctr).2 = some struc ∧
      buildEditorContentWithMarks struc
        (((parseEditorContent T ctr).1).map asNonSuggesting) ts
        = Except.ok (some built) ∧
      leafText built = leafText T := by
  match T with
  | JNode.mk ty attrs (some t) marks tsid content => exact absurd hok (by simp [blockOk])
  | JNode.mk ty attrs none (some ms) tsid content => exact absurd hok (by simp [blockOk])
  | JNode.mk ty attrs none none tsid none => exact absurd hok (by simp [blockOk])
  | JNode.mk ty attrs none none tsid (some ps) =>
    have hall : ps.all paraOk = true := by
      unfold blockOk at hok
      exact hok
    have hf0 : FreshOk ctr [] := by intro m _ hm; cases hm
    have hr0 : RepsOk [] ctr [] := by intro kv hkv; cases hkv
    obtain ⟨pd, hsegs, hstructs, htext, hprops, hnodup, -⟩ :=
      parseChildren_paras_items ps [] [] ctr hall histOk_nil hf0 hr0
    have hseg1 : (parseNode (JNode.mk ty attrs none none tsid (some ps)) [] [] ctr).textSegments
        = mergeTextSegmentsWithSameId ((parseChildren ps [] [] ctr).textSegments) := rfl
    have hstr1 : (parseNode (JNode.mk ty attrs none none tsid (some ps)) [] [] ctr).structures
        = [JNode.mk ty attrs none none none
            (some (removeDuplicateTextNodes ((parseChildren ps [] [] ctr).structures)))] := rfl
    have htruthy : ∀ s ∈ pSegs pd, s._id ≠ "" ∧ s.srcText ≠ "" := by
      intro s hs
      obtain ⟨p, hp, hm⟩ := pSegs_mem hs
      obtain ⟨a, b, hrm⟩ := itemsSegs_mem_ref hm
      exact ⟨((hprops p hp).1 a b s._id s.srcText hrm).2,
        (hprops p hp).2 (PItem.ref a b s._id s.srcText) hrm⟩
    have hmerge : mergeTextSegmentsWithSameId (pSegs pd) = pSegs pd :=
      mergeTextSegments_eq_self (pSegs pd) htruthy (chain'_ne_of_nodup _ hnodup)
    have hsegs2 : (parseEditorContent (JNode.mk ty attrs none none tsid (some ps)) ctr).1
        = pSegs pd := by
      show (parseNode (JNode.mk ty attrs none none tsid (some ps)) [] [] ctr).textSegments = _
      rw [hseg1, hsegs, hmerge]
    have hdedup : removeDuplicateTextNodes ((parseChildren ps [] [] ctr).structures)
        = pNodes pd := by
      rw [hstructs]
      exact removeDuplicateTextNodes_all_none (pNodes pd) (pNodes_tsid_none pd)
    have hstruc : (parseEditorContent (JNode.mk ty attrs none none tsid (some ps)) ctr).2
        = some (JNode.mk ty attrs none none none (some (pNodes pd))) := by
      show ((parseNode (JNode.mk ty attrs none none tsid (some ps)) [] [] ctr).structures).head?
        = _
      rw [hstr1, hdedup]
      rfl
    obtain ⟨L, hL, hLt⟩ := buildChildren_paras pd (pSegs pd) ts
      (fun p hp a b id s hm => by
        refine ⟨?_, (hprops p hp).2 (PItem.ref a b id s) hm⟩
        exact find?_map_asNonSuggesting (pSegs pd) id s hnodup
          (pSegs_mem_intro hp (itemsSegs_of_ref hm)))
      (fun p hp a b s hm => (hprops p hp).2 (PItem.lit a b s) hm)
    refine ⟨JNode.mk ty attrs none none none (some (pNodes pd)),
      JNode.mk ty attrs none none none (some L), hstruc, ?_, ?_⟩
    · rw [hsegs2]
      show buildEditorContentWithMarks _ ((pSegs pd).map asNonSuggesting) ts = _
      unfold buildEditorContentWithMarks
      have hbn : buildNode (JNode.mk ty attrs none none none (some (pNodes pd)))
          ((pSegs pd).map asNonSuggesting) ts
          = Except.ok [JNode.mk ty attrs none none none (some L)] := by
        simp only [buildNode]
        rw [hL]
      rw [hbn]
      rfl
    · show leafTextList L = leafTextList ps
      rw [hLt, htext]

/-- C1 counterexample input: a raw leaf whose text contains `|`, a literal
member of the `[.|:|!|?]` character classes of the sentence-splitting regex. -/
def c1Tree : JNode := docNode [rawLeaf "a|b"]

/-- The skeleton that the parse returns for `c1Tree`. -/
def c1Struc : JNode :=
  JNode.mk (some "doc") none none none none (some
    [JNode.mk (some "text") none none none (some "#") none,
     JNode.mk (some "text") none none none (some "##") none])

/-- The tree rebuilt from `c1Struc` and the parsed segments. -/
def c1Built : JNode :=
  JNode.mk (some "doc") none none none none (some
    [JNode.mk (some "text") none (some "a")
       (some [⟨textSegmentMarkName, some "#", some false⟩]) none none,
     JNode.mk (some "text") none (some "b")
       (some [⟨textSegmentMarkName, some "##", some false⟩]) none none])

/-- C1 (counterexample): the round-trip law fails on a raw text leaf
containing a pipe character.  The splitting regex of
`splitStringIntoSentencesAndWhitespace` treats `|` as a sentence
terminator (the `|` separators inside its character classes are literal),
and the `split('|')` step then deletes it, so `"a|b"` parses into the two
segments `"a"` and `"b"` and rebuilds to `"ab"`, not `"a|b"`. -/
theorem parse_rebuild_loses_pipe :
    (parseEditorContent c1Tree 0).2 = some c1Struc
    ∧ buildEditorContentWithMarks c1Struc
        (((parseEditorContent c1Tree 0).1).map asNonSuggesting) true
        = Except.ok (some c1Built)
    ∧ leafText c1Built = "ab"
    ∧ leafText c1Tree = "a|b"
    ∧ leafText c1Built ≠ leafText c1Tree :=
  ⟨rfl, rfl, rfl, rfl, by decide⟩

/-- A block-form document accepted by the amended claim. -/
def c1GoodTree : JNode :=
  docNode [paragraphNode [markedLeaf "a" "Hi. ", rawLeaf "x. y"]]

theorem parse_build_round_trip_witness :
    blockOk c1GoodTree = true ∧
    ∃ struc built,
      (parseEditorContent c1GoodTree 0).2 = some struc ∧
      buildEditorContentWithMarks struc
        (((parseEditorContent c1GoodTree 0).1).map asNonSuggesting) true
        = Except.ok (some built) ∧
      leafText built = leafText c1GoodTree :=
  ⟨by decide, parse_build_round_trip c1GoodTree 0 true (by decide)⟩
